import Mathlib

/-!
# targo: tar archives from directory trees and back

A shallow embedding of `targo.go` (`Create`, `CreateInPlace`, `Extract`,
`ExtractInPlace`) together with the parts of the Go library and of the
operating system the four functions call.

* Strings are lists of characters; the path separator is `/`.
* `Clean`, `Join`, `Dir`, `Ext`, `Rel`, `TrimSuffix` follow `path/filepath`
  and `strings` on Unix, computed on path elements.
* The file system is a tree of named entries with a current directory.
  Path resolution follows symbolic links the way the kernel does (`..` is
  the physical parent).  Permission bits, owners and timestamps are not
  part of the state: every operation is performed with sufficient rights.
* A file holds either plain bytes or a tar stream, the latter kept as the
  sequence of records the tar writer was given (the wire format belongs to
  `archive/tar`).
-/

namespace Targo

/-! ## Paths (`path/filepath`, `strings`) -/

/-- A Go string. -/
abbrev Path := List Char

/-- One path element. -/
abbrev Name := List Char

/-- The element `.`. -/
def dot : Name := ['.']

/-- The element `..`. -/
def dotdot : Name := ['.', '.']

/-- Split at every separator; empty elements are kept. -/
def splitSep : Path → List Name
  | [] => [[]]
  | c :: cs =>
    match splitSep cs with
    | [] => [[]]
    | w :: ws => if c = '/' then [] :: w :: ws else (c :: w) :: ws

/-- Elements joined by single separators. -/
def joinSep : List Name → Path
  | [] => []
  | [w] => w
  | w :: ws => w ++ '/' :: joinSep ws

/-- Whether the path starts with a separator. -/
def isRooted : Path → Bool
  | '/' :: _ => true
  | _ => false

/-- One element of `Clean`: the stack of kept elements, top first. -/
def cleanStep (rooted : Bool) (acc : List Name) (c : Name) : List Name :=
  if c = [] ∨ c = dot then acc
  else if c = dotdot then
    match acc with
    | [] => if rooted then [] else [c]
    | top :: below => if top = dotdot then c :: top :: below else below
  else c :: acc

/-- The elements of the cleaned path. -/
def cleanComps (p : Path) : List Name :=
  ((splitSep p).foldl (cleanStep (isRooted p)) []).reverse

/-- A cleaned path from its elements. -/
def render (rooted : Bool) (comps : List Name) : Path :=
  if rooted then '/' :: joinSep comps
  else if comps = [] then dot else joinSep comps

/-- Go `filepath.Clean`. -/
def Clean (p : Path) : Path := render (isRooted p) (cleanComps p)

/-- Go `filepath.Join` of two elements. -/
def Join (a b : Path) : Path :=
  if a ≠ [] then Clean (a ++ '/' :: b)
  else if b ≠ [] then Clean b
  else []

/-- The path up to and including its last separator. -/
def upToLastSep (p : Path) : Path :=
  (p.reverse.dropWhile (fun c => c ≠ '/')).reverse

/-- The text after the last separator. -/
def lastElem (p : Path) : Name :=
  (p.reverse.takeWhile (fun c => c ≠ '/')).reverse

/-- Go `filepath.Dir`. -/
def Dir (p : Path) : Path := Clean (upToLastSep p)

/-- The scan of `filepath.Ext` over the reversed path. -/
def extScan : List Char → List Char → Path
  | [], _ => []
  | c :: rest, acc =>
    if c = '/' then []
    else if c = '.' then '.' :: acc
    else extScan rest (c :: acc)

/-- Go `filepath.Ext`: from the last dot of the final element on. -/
def Ext (p : Path) : Path := extScan p.reverse []

/-- Go `strings.TrimSuffix`. -/
def TrimSuffix (s suffix : Path) : Path :=
  if suffix.reverse.isPrefixOf s.reverse then
    (s.reverse.drop suffix.length).reverse
  else s

/-- The elements two lists have in common at the front are dropped. -/
def dropCommon : List Name → List Name → List Name × List Name
  | b :: bs, t :: ts => if b = t then dropCommon bs ts else (b :: bs, t :: ts)
  | bs, ts => (bs, ts)

/-- Go `filepath.Rel`; `none` is its error. -/
def Rel (basepath targpath : Path) : Option Path :=
  let base := Clean basepath
  let targ := Clean targpath
  if targ = base then some dot
  else if isRooted base ≠ isRooted targ then none
  else
    match dropCommon (cleanComps basepath) (cleanComps targpath) with
    | (b :: bs, ts) =>
      if b = dotdot then none
      else some (joinSep ((b :: bs).map (fun _ => dotdot) ++ ts))
    | ([], ts) => some (joinSep ts)

/-! ## Files, archives and the directory tree -/

/-- The branch of the mode switch a record takes in `Extract`: a directory,
a symbolic link, or anything else (treated as a regular file). -/
inductive Kind
  | dir
  | symlink
  | regular
  deriving DecidableEq, Repr

/-- The fields of a tar header the program reads or writes. -/
structure Header where
  Name : Path
  Typ : Kind
  Linkname : Path
  deriving DecidableEq, Repr

/-- What a regular file holds: plain bytes, or a tar stream given by its
records; a stream is `complete` when it ends with the end marker the
writer adds on `Close`, which it does once every payload is written in
full. -/
inductive Content
  | raw (bytes : List Nat)
  | tar (records : List (Header × Content)) (complete : Bool)

/-- One record of a tar stream: header and payload. -/
abbrev Record := Header × Content

/-- A file of length zero. -/
def Content.isEmpty : Content → Bool
  | Content.raw [] => true
  | _ => false

/-- Entries that are not directories: regular files, symbolic links, and
named pipes, sockets and devices. -/
inductive Leaf
  | file (c : Content)
  | link (target : Path)
  | special

/-- The entries of a directory, in the order they were created. -/
inductive Tree
  | nil
  | leaf (name : Name) (l : Leaf) (rest : Tree)
  | sub (name : Name) (children : Tree) (rest : Tree)

/-- What a name refers to. -/
inductive Node
  | leaf (l : Leaf)
  | dir (children : Tree)

/-- What path resolution looks at. -/
inductive Shape
  | file
  | link (target : Path)
  | special
  | dir
  deriving DecidableEq, Repr

/-- The shape of a leaf. -/
def Leaf.shape : Leaf → Shape
  | Leaf.file _ => Shape.file
  | Leaf.link t => Shape.link t
  | Leaf.special => Shape.special

/-- The shape of a node. -/
def Node.shape : Node → Shape
  | Node.leaf l => l.shape
  | Node.dir _ => Shape.dir

/-- The entry called `n`, the first if there are several. -/
def Tree.find (n : Name) : Tree → Option Node
  | Tree.nil => none
  | Tree.leaf m l rest => if m = n then some (Node.leaf l) else rest.find n
  | Tree.sub m ch rest => if m = n then some (Node.dir ch) else rest.find n

/-- The names of the entries, in stored order. -/
def Tree.names : Tree → List Name
  | Tree.nil => []
  | Tree.leaf m _ rest => m :: rest.names
  | Tree.sub m _ rest => m :: rest.names

/-- One directory after the other. -/
def Tree.append : Tree → Tree → Tree
  | Tree.nil, t => t
  | Tree.leaf m l rest, t => Tree.leaf m l (rest.append t)
  | Tree.sub m ch rest, t => Tree.sub m ch (rest.append t)

/-- A directory with the single entry `n`. -/
def Tree.single (n : Name) : Node → Tree
  | Node.leaf l => Tree.leaf n l Tree.nil
  | Node.dir ch => Tree.sub n ch Tree.nil

/-- Replace the entry called `n`, or add it at the end. -/
def Tree.put (n : Name) (x : Node) : Tree → Tree
  | Tree.nil => Tree.single n x
  | Tree.leaf m l rest =>
    if m = n then (Tree.single n x).append rest else Tree.leaf m l (rest.put n x)
  | Tree.sub m ch rest =>
    if m = n then (Tree.single n x).append rest else Tree.sub m ch (rest.put n x)

/-- Drop what is called `n`. -/
def Tree.erase (n : Name) : Tree → Tree
  | Tree.nil => Tree.nil
  | Tree.leaf m l rest => if m = n then rest.erase n else Tree.leaf m l (rest.erase n)
  | Tree.sub m ch rest => if m = n then rest.erase n else Tree.sub m ch (rest.erase n)

/-- Apply `f` to the contents of the subdirectory called `n`. -/
def Tree.modify (n : Name) (f : Tree → Tree) : Tree → Tree
  | Tree.nil => Tree.nil
  | Tree.leaf m l rest =>
    if m = n then Tree.leaf m l rest else Tree.leaf m l (rest.modify n f)
  | Tree.sub m ch rest =>
    if m = n then Tree.sub m (f ch) rest else Tree.sub m ch (rest.modify n f)

/-- Apply `f` to the directory at the physical path `p`. -/
def Tree.modifyAt : List Name → (Tree → Tree) → Tree → Tree
  | [], f, t => f t
  | n :: p, f, t => t.modify n (Tree.modifyAt p f)

/-- The node at a physical path (no links followed). -/
def Tree.lookup : Tree → List Name → Option Node
  | t, [] => some (Node.dir t)
  | t, n :: p =>
    match t.find n with
    | some (Node.dir ch) => ch.lookup p
    | some (Node.leaf l) => if p = [] then some (Node.leaf l) else none
    | none => none

/-- The shape at a physical path. -/
def Tree.shapeAt (t : Tree) (p : List Name) : Option Shape :=
  (t.lookup p).map Node.shape

/-- The longest chain of nested directories. -/
def Tree.depth : Tree → Nat
  | Tree.nil => 0
  | Tree.leaf _ _ rest => rest.depth
  | Tree.sub _ ch rest => max (ch.depth + 1) rest.depth

/-- Kernel error numbers. -/
inductive Errno
  | ENOENT
  | ENOTDIR
  | EEXIST
  | EISDIR
  | ELOOP
  | EINVAL
  | ENOTEMPTY
  | EBUSY
  | ENXIO
  deriving DecidableEq, Repr

/-- The error values the four functions can return. -/
inductive Err
  | os (e : Errno)
  | notADirectory (path : Path)
  | isADirectory (path : Path)
  | noExtension (path : Path)
  | rel
  | writeTooLong
  | unexpectedEOF
  | badHeader
  | walkDepth
  deriving DecidableEq, Repr

/-- The file system: the root directory and the current directory. -/
structure FS where
  root : Tree
  cwd : List Name

/-! ## The operating system -/

/-- Trailing separators removed, unless nothing would be left. -/
def trimSeps (p : Path) : Path :=
  let q := (p.reverse.dropWhile (fun c => c = '/')).reverse
  if q = [] then p else q

/-- The elements the kernel walks: empty ones are skipped, and a trailing
separator asks for the directory itself, like a final `.`. -/
def pathElems (p : Path) : List Name :=
  let cs := (splitSep p).filter (fun c => c ≠ [])
  if p.getLast? = some '/' ∧ cs ≠ [] then cs ++ [dot] else cs

/-- Steps the kernel may spend on the targets of symbolic links before it
gives up with `ELOOP`. -/
def linkFuel : Nat := 4096

/-- Path resolution from the directory `stack`: the physical path reached
and the shape found there (`none`: the last element is a free name in an
existing directory).  The last element is followed if it is a link only
when `follow` is set. -/
def resolveFrom (root : Tree) (follow : Bool) :
    Nat → List Name → List Name → Except Errno (List Name × Option Shape)
  | 0, _, _ => Except.error Errno.ELOOP
  | _ + 1, stack, [] => Except.ok (stack, root.shapeAt stack)
  | fuel + 1, stack, c :: rest =>
    if c = dot then resolveFrom root follow fuel stack rest
    else if c = dotdot then resolveFrom root follow fuel stack.dropLast rest
    else
      match root.shapeAt (stack ++ [c]) with
      | none => if rest = [] then Except.ok (stack ++ [c], none) else Except.error Errno.ENOENT
      | some (Shape.link t) =>
        if rest = [] ∧ follow = false then Except.ok (stack ++ [c], some (Shape.link t))
        else if t = [] then Except.error Errno.ENOENT
        else resolveFrom root follow fuel (if isRooted t then [] else stack) (pathElems t ++ rest)
      | some Shape.dir =>
        if rest = [] then Except.ok (stack ++ [c], some Shape.dir)
        else resolveFrom root follow fuel (stack ++ [c]) rest
      | some s => if rest = [] then Except.ok (stack ++ [c], some s) else Except.error Errno.ENOTDIR

/-- Path resolution of a path string. -/
def resolve (fs : FS) (follow : Bool) (p : Path) : Except Errno (List Name × Option Shape) :=
  if p = [] then Except.error Errno.ENOENT
  else if isRooted p then
    resolveFrom fs.root follow ((pathElems p).length + 1 + linkFuel) [] (pathElems p)
  else if fs.root.shapeAt fs.cwd = some Shape.dir then
    resolveFrom fs.root follow ((pathElems p).length + 1 + linkFuel) fs.cwd (pathElems p)
  else Except.error Errno.ENOENT

/-- The node found by a resolution, `ENOENT` when the name is free. -/
def nodeAt (fs : FS) (r : Except Errno (List Name × Option Shape)) : Except Errno Node :=
  match r with
  | Except.error e => Except.error e
  | Except.ok (phys, _) =>
    match fs.root.lookup phys with
    | some x => Except.ok x
    | none => Except.error Errno.ENOENT

/-- Go `os.Stat`. -/
def osStat (fs : FS) (p : Path) : Except Errno Node := nodeAt fs (resolve fs true p)

/-- Go `os.Lstat`. -/
def osLstat (fs : FS) (p : Path) : Except Errno Node := nodeAt fs (resolve fs false p)

/-- Go `os.Readlink`. -/
def osReadlink (fs : FS) (p : Path) : Except Errno Path :=
  match osLstat fs p with
  | Except.ok (Node.leaf (Leaf.link t)) => Except.ok t
  | Except.ok _ => Except.error Errno.EINVAL
  | Except.error e => Except.error e

/-- Put the node `x` at the physical path `p`, whose parent exists. -/
def Tree.putAt : List Name → Node → Tree → Tree
  | [], _, t => t
  | [n], x, t => t.put n x
  | n :: m :: p, x, t => t.modify n (Tree.putAt (m :: p) x)

/-- Drop the entry at the physical path `p`. -/
def Tree.eraseAt : List Name → Tree → Tree
  | [], t => t
  | [n], t => t.erase n
  | n :: m :: p, t => t.modify n (Tree.eraseAt (m :: p))

/-- The file system with the node `x` at `p`. -/
def FS.put (fs : FS) (p : List Name) (x : Node) : FS :=
  { fs with root := fs.root.putAt p x }

/-- Go `os.Create` (open for writing, create, truncate): the new state and
the physical path of the file. -/
def osCreate (fs : FS) (p : Path) : Except Errno (FS × List Name) :=
  match resolve fs true p with
  | Except.error e => Except.error e
  | Except.ok (phys, none) => Except.ok (fs.put phys (Node.leaf (Leaf.file (Content.raw []))), phys)
  | Except.ok (phys, some Shape.file) =>
    Except.ok (fs.put phys (Node.leaf (Leaf.file (Content.raw []))), phys)
  | Except.ok (_, some Shape.dir) => Except.error Errno.EISDIR
  | Except.ok (_, some _) => Except.error Errno.ENXIO

/-- Go `os.Mkdir`. -/
def osMkdir (fs : FS) (p : Path) : Except Errno FS :=
  match resolve fs false (trimSeps p) with
  | Except.error e => Except.error e
  | Except.ok (phys, none) => Except.ok (fs.put phys (Node.dir Tree.nil))
  | Except.ok (_, some _) => Except.error Errno.EEXIST

/-- Go `os.Symlink`. -/
def osSymlink (fs : FS) (target p : Path) : Except Errno FS :=
  if target = [] then Except.error Errno.ENOENT
  else
    match resolve fs false p with
    | Except.error e => Except.error e
    | Except.ok (phys, none) => Except.ok (fs.put phys (Node.leaf (Leaf.link target)))
    | Except.ok (_, some _) => Except.error Errno.EEXIST

/-- The parent `os.MkdirAll` recurses on: trailing separators, the last
element and the separator before it removed; empty when the path has no
parent to create. -/
def mkdirParent (p : Path) : Path :=
  (upToLastSep (p.reverse.dropWhile (fun c => c = '/')).reverse).dropLast

/-- Go `os.MkdirAll`; the state is returned also when it fails, since
ancestors may have been created. -/
def mkdirAllAux : Nat → FS → Path → FS × Option Errno
  | 0, fs, _ => (fs, some Errno.ELOOP)
  | fuel + 1, fs, p =>
    match osStat fs p with
    | Except.ok (Node.dir _) => (fs, none)
    | Except.ok (Node.leaf _) => (fs, some Errno.ENOTDIR)
    | Except.error _ =>
      let r := if mkdirParent p ≠ [] then mkdirAllAux fuel fs (mkdirParent p) else (fs, none)
      match r with
      | (fs1, some e) => (fs1, some e)
      | (fs1, none) =>
        match osMkdir fs1 p with
        | Except.ok fs2 => (fs2, none)
        | Except.error e =>
          match osLstat fs1 p with
          | Except.ok (Node.dir _) => (fs1, none)
          | _ => (fs1, some e)

/-- Go `os.MkdirAll`. -/
def osMkdirAll (fs : FS) (p : Path) : FS × Option Errno := mkdirAllAux (p.length + 1) fs p

/-- Go `os.Remove`. -/
def osRemove (fs : FS) (p : Path) : Except Errno FS :=
  match resolve fs false (trimSeps p) with
  | Except.error e => Except.error e
  | Except.ok (_, none) => Except.error Errno.ENOENT
  | Except.ok (phys, some s) =>
    if lastElem (trimSeps p) = dot ∨ lastElem (trimSeps p) = dotdot ∨ phys = [] then
      Except.error Errno.EINVAL
    else if s = Shape.file ∧ p.getLast? = some '/' then Except.error Errno.ENOTDIR
    else
      match fs.root.lookup phys with
      | some (Node.dir (Tree.leaf _ _ _)) => Except.error Errno.ENOTEMPTY
      | some (Node.dir (Tree.sub _ _ _)) => Except.error Errno.ENOTEMPTY
      | _ => Except.ok { fs with root := fs.root.eraseAt phys }

/-- Go `os.RemoveAll`: the entry named by the path goes with everything
below it; a path that names nothing is not an error.  A path whose last
element is `.` is refused; so is, here, one whose last element is `..`. -/
def osRemoveAll (fs : FS) (p : Path) : FS × Option Errno :=
  if p = [] then (fs, none)
  else if lastElem p = dot then (fs, some Errno.EINVAL)
  else
    match resolve fs false (trimSeps p) with
    | Except.error Errno.ENOENT => (fs, none)
    | Except.error e => (fs, some e)
    | Except.ok (_, none) => (fs, none)
    | Except.ok (phys, some _) =>
      if lastElem (trimSeps p) = dot ∨ lastElem (trimSeps p) = dotdot ∨ phys = [] then
        (fs, some Errno.EINVAL)
      else ({ fs with root := fs.root.eraseAt phys }, none)

/-! ## `filepath.EvalSymlinks` and `filepath.Walk` -/

/-- The text before the last separator, empty when there is none. -/
def beforeLastSep (p : Path) : Path :=
  ((p.reverse.dropWhile (fun c => c ≠ '/')).drop 1).reverse

/-- The loop of `walkSymlinks`: `rem` is the unread part of the path,
`vol` and `body` make up `dest` (`vol` is the leading separator). -/
def walkSymlinks (fs : FS) : Nat → Nat → Path → Bool → Path → Option Path
  | 0, _, _, _, _ => none
  | fuel + 1, links, rem, vol, body =>
    let rem1 := rem.dropWhile (fun c => c = '/')
    let comp := rem1.takeWhile (fun c => c ≠ '/')
    let rest := rem1.dropWhile (fun c => c ≠ '/')
    let dest := fun (b : Path) => if vol then '/' :: b else b
    if comp = [] then some (Clean (dest body))
    else if comp = dot then walkSymlinks fs fuel links rest vol body
    else if comp = dotdot then
      if ¬ ('/' ∈ body) ∨ lastElem body = dotdot then
        walkSymlinks fs fuel links rest vol ((if body ≠ [] then body ++ ['/'] else body) ++ dotdot)
      else walkSymlinks fs fuel links rest vol (beforeLastSep body)
    else
      let body1 := if dest body ≠ [] ∧ (dest body).getLast? ≠ some '/' then body ++ '/' :: comp
                   else body ++ comp
      match osLstat fs (dest body1) with
      | Except.error _ => none
      | Except.ok (Node.leaf (Leaf.link link)) =>
        if links + 1 > 255 then none
        else if isRooted link then walkSymlinks fs fuel (links + 1) ((link ++ rest).drop 1) true []
        else walkSymlinks fs fuel (links + 1) (link ++ rest) vol (beforeLastSep body1)
      | Except.ok (Node.dir _) => walkSymlinks fs fuel links rest vol body1
      | Except.ok (Node.leaf _) =>
        if rest ≠ [] then none else walkSymlinks fs fuel links rest vol body1

/-- The total length of all link targets in a directory tree. -/
def Tree.linkText : Tree → Nat
  | Tree.nil => 0
  | Tree.leaf _ (Leaf.link t) rest => t.length + 1 + rest.linkText
  | Tree.leaf _ _ rest => rest.linkText
  | Tree.sub _ ch rest => ch.linkText + rest.linkText

/-- Go `filepath.EvalSymlinks`; `none` is any of its errors. -/
def EvalSymlinks (fs : FS) (p : Path) : Option Path :=
  walkSymlinks fs (p.length + 2 + 256 * (fs.root.linkText + 1)) 0
    (if isRooted p then p.drop 1 else p) (isRooted p) []

/-- Byte-wise order of strings. -/
def nameLe : Name → Name → Bool
  | [], _ => true
  | _ :: _, [] => false
  | a :: as, b :: bs => if a.toNat < b.toNat then true else if b.toNat < a.toNat then false else nameLe as bs

/-- Insert into a sorted list. -/
def insertName (n : Name) : List Name → List Name
  | [] => [n]
  | m :: ms => if nameLe n m then n :: m :: ms else m :: insertName n ms

/-- Go `sort.Strings`. -/
def sortNames (l : List Name) : List Name := l.foldr insertName []

/-- The names in a directory, sorted (`readDirNames` of `filepath`). -/
def readDirNames (fs : FS) (p : Path) : Except Errno (List Name) :=
  match osStat fs p with
  | Except.ok (Node.dir ch) => Except.ok (sortNames ch.names)
  | Except.ok (Node.leaf _) => Except.error Errno.ENOTDIR
  | Except.error e => Except.error e

/-- The callback of `filepath.Walk`: path, file info (if any), error (if
any), and the state the closure works on. -/
abbrev WalkFunc (σ : Type) := Path → Option Node → Option Errno → σ → σ × Option Err

/-- One child in the loop of `walk`; `descend` is the recursive call. -/
def walkChild {σ : Type} (fs : FS) (fn : WalkFunc σ)
    (descend : Path → Node → σ → σ × Option Err) (path : Path)
    (acc : σ × Option Err) (name : Name) : σ × Option Err :=
  match acc with
  | (s, some e) => (s, some e)
  | (s, none) =>
    match osLstat fs (Join path name) with
    | Except.error e => fn (Join path name) none (some e) s
    | Except.ok fi => descend (Join path name) fi s

/-- The recursion of `filepath.Walk`; the callbacks of this program never
return `SkipDir`. -/
def walk {σ : Type} (fs : FS) (fn : WalkFunc σ) : Nat → Path → Node → σ → σ × Option Err
  | 0, _, _, s => (s, some Err.walkDepth)
  | fuel + 1, path, info, s =>
    match info with
    | Node.leaf _ => fn path (some info) none s
    | Node.dir _ =>
      match readDirNames fs path with
      | Except.error e => fn path (some info) (some e) s
      | Except.ok names =>
        match fn path (some info) none s with
        | (s1, some e) => (s1, some e)
        | (s1, none) => names.foldl (walkChild fs fn (walk fs fn fuel) path) (s1, none)

/-- Go `filepath.Walk`. -/
def Walk {σ : Type} (fs : FS) (fn : WalkFunc σ) (root : Path) (s : σ) : σ × Option Err :=
  match osLstat fs root with
  | Except.error e => fn root none (some e) s
  | Except.ok info => walk fs fn (fs.root.depth + 2) root info s

/-! ## `targo.go` -/

/-- The link name `Create` computes for a symbolic link at `path`: the
resolved target relative to the directory of the link, and the raw link
text when resolving or relativising fails. -/
def linkFor (fs : FS) (path : Path) : Path :=
  let linkDest := match osReadlink fs path with
    | Except.ok t => t
    | Except.error _ => []
  match EvalSymlinks fs path with
  | some link =>
    match Rel (Dir path) link with
    | some rel => rel
    | none => linkDest
  | none => linkDest

/-- The callback `Create` hands to `filepath.Walk`.  The state is the list
of records written so far; `arch` is the physical path of the archive
file.  A regular file that is the archive itself has grown past the size
its header announces by the time it is copied: the writer takes the bytes
announced, which are the records written before the walk reached the file,
and stops with `ErrWriteTooLong`. -/
def createWalkFn (fs : FS) (dirPath : Path) (arch : List Name) : WalkFunc (List Record) :=
  fun path info err recs =>
    match err, info with
    | some _, _ => (recs, none)
    | none, none => (recs, none)
    | none, some (Node.leaf Leaf.special) => (recs, none)
    | none, some (Node.leaf (Leaf.link _)) =>
      match Rel (Dir dirPath) path with
      | none => (recs, some Err.rel)
      | some name => (recs ++ [(⟨name, Kind.symlink, linkFor fs path⟩, Content.raw [])], none)
    | none, some (Node.dir _) =>
      match Rel (Dir dirPath) path with
      | none => (recs, some Err.rel)
      | some name => (recs ++ [(⟨name ++ ['/'], Kind.dir, []⟩, Content.raw [])], none)
    | none, some (Node.leaf (Leaf.file c)) =>
      match Rel (Dir dirPath) path with
      | none => (recs, some Err.rel)
      | some name =>
        match resolve fs true path with
        | Except.error e => (recs ++ [(⟨name, Kind.regular, []⟩, Content.raw [])], some (Err.os e))
        | Except.ok (phys, _) =>
          if phys = arch then
            (recs ++ [(⟨name, Kind.regular, []⟩, Content.tar recs false)], some Err.writeTooLong)
          else
            match fs.root.lookup phys with
            | some (Node.leaf (Leaf.file c1)) => (recs ++ [(⟨name, Kind.regular, []⟩, c1)], none)
            | _ => (recs ++ [(⟨name, Kind.regular, []⟩, c)], none)

/-- The file system with `c` written to the file at `phys`. -/
def FS.write (fs : FS) (phys : List Name) (c : Content) : FS :=
  fs.put phys (Node.leaf (Leaf.file c))

/-- Go `targo.Create`.  The deferred `tw.Close` ends the stream with the
end marker also when the walk stopped with an error, unless a payload was
left short because the file could not be opened. -/
def Create (fs : FS) (destPath dirPath : Path) : FS × Option Err :=
  match osStat fs dirPath with
  | Except.error e => (fs, some (Err.os e))
  | Except.ok (Node.leaf _) => (fs, some (Err.notADirectory dirPath))
  | Except.ok (Node.dir _) =>
    match osCreate fs destPath with
    | Except.error e => (fs, some (Err.os e))
    | Except.ok (fs1, arch) =>
      match Walk fs1 (createWalkFn fs1 dirPath arch) dirPath [] with
      | (recs, none) => (fs1.write arch (Content.tar recs true), none)
      | (recs, some (Err.os e)) => (fs1.write arch (Content.tar recs false), some (Err.os e))
      | (recs, some e) => (fs1.write arch (Content.tar recs true), some e)

/-- The suffix `CreateInPlace` adds. -/
def tarSuffix : Path := ['.', 't', 'a', 'r']

/-- Go `targo.CreateInPlace`. -/
def CreateInPlace (fs : FS) (dirPath : Path) : FS × Option Err :=
  match Create fs (dirPath ++ tarSuffix) dirPath with
  | (fs1, some e) => (fs1, some e)
  | (fs1, none) =>
    match osRemoveAll fs1 dirPath with
    | (fs2, some e) => (fs2, some (Err.os e))
    | (fs2, none) => (fs2, none)

/-- The size of a tar block. -/
def blockSize : Nat := 512

/-- The record loop of `Extract`; `arch` is the physical path of the open
archive, `complete` whether the stream ends with its end marker.  A record
that makes `os.Create` truncate the archive itself leaves the reader at the
end of an empty file. -/
def extractLoop (destPath : Path) (arch : List Name) (complete : Bool) :
    FS → List Record → FS × Option Err
  | fs, [] => if complete then (fs, none) else (fs, some Err.unexpectedEOF)
  | fs, (hdr, payload) :: rest =>
    match hdr.Typ with
    | Kind.dir =>
      match osMkdir fs (Join destPath hdr.Name) with
      | Except.error e => (fs, some (Err.os e))
      | Except.ok fs1 => extractLoop destPath arch complete fs1 rest
    | Kind.symlink =>
      match osSymlink fs hdr.Linkname (Join destPath hdr.Name) with
      | Except.error _ => extractLoop destPath arch complete fs rest
      | Except.ok fs1 => extractLoop destPath arch complete fs1 rest
    | Kind.regular =>
      match osCreate fs (Join destPath hdr.Name) with
      | Except.error e => (fs, some (Err.os e))
      | Except.ok (fs1, phys) =>
        if phys = arch then
          if payload.isEmpty then (fs1, none) else (fs1, some Err.unexpectedEOF)
        else extractLoop destPath arch complete (fs1.write phys payload) rest

/-- Go `targo.Extract`.  A file of plain bytes is no tar stream: the
reader stops with `io.ErrUnexpectedEOF` when it is shorter than a block and
with `tar.ErrHeader` otherwise; an empty file is an empty archive. -/
def Extract (fs : FS) (destPath archivePath : Path) : FS × Option Err :=
  match osStat fs archivePath with
  | Except.error e => (fs, some (Err.os e))
  | Except.ok (Node.dir _) => (fs, some (Err.isADirectory archivePath))
  | Except.ok (Node.leaf _) =>
    match osMkdirAll fs destPath with
    | (fs1, some e) => (fs1, some (Err.os e))
    | (fs1, none) =>
      match resolve fs1 true archivePath with
      | Except.error e => (fs1, some (Err.os e))
      | Except.ok (arch, _) =>
        match fs1.root.lookup arch with
        | some (Node.leaf (Leaf.file (Content.tar recs complete))) =>
          extractLoop destPath arch complete fs1 recs
        | some (Node.leaf (Leaf.file (Content.raw []))) => (fs1, none)
        | some (Node.leaf (Leaf.file (Content.raw (b :: bs)))) =>
          if (b :: bs).length < blockSize then (fs1, some Err.unexpectedEOF)
          else (fs1, some Err.badHeader)
        | some (Node.dir _) => (fs1, some (Err.os Errno.EISDIR))
        | some (Node.leaf _) => (fs1, some (Err.os Errno.ENXIO))
        | none => (fs1, some (Err.os Errno.ENOENT))

/-- Go `targo.ExtractInPlace`. -/
def ExtractInPlace (fs : FS) (archivePath : Path) : FS × Option Err :=
  if Ext archivePath = [] then (fs, some (Err.noExtension archivePath))
  else
    match Extract fs (Dir (TrimSuffix archivePath (Ext archivePath))) archivePath with
    | (fs1, some e) => (fs1, some e)
    | (fs1, none) =>
      match osRemove fs1 archivePath with
      | Except.error e => (fs1, some (Err.os e))
      | Except.ok fs2 => (fs2, none)

/-! ## Observations and sample states -/

/-- The headers of the tar stream stored at a path, if there is one. -/
def headersAt (fs : FS) (p : Path) : Option (List Header) :=
  match osStat fs p with
  | Except.ok (Node.leaf (Leaf.file (Content.tar recs _))) => some (recs.map Prod.fst)
  | _ => none

/-- The shape `os.Lstat` reports, if the path names something. -/
def lstatShape (fs : FS) (p : Path) : Option Shape :=
  match osLstat fs p with
  | Except.ok x => some x.shape
  | Except.error _ => none

/-- The shape `os.Stat` reports, if the path leads to something. -/
def statShape (fs : FS) (p : Path) : Option Shape :=
  match osStat fs p with
  | Except.ok x => some x.shape
  | Except.error _ => none

/-- A directory `y` with a subdirectory, two files and a link whose text
is an absolute path to one of the files. -/
def exY : Tree :=
  Tree.sub "d".toList (Tree.leaf "g".toList (Leaf.file (Content.raw [3])) Tree.nil)
  (Tree.leaf "f".toList (Leaf.file (Content.raw [1, 2]))
  (Tree.leaf "l".toList (Leaf.link "/x/y/f".toList) Tree.nil))

/-- The state `/x/y/...` with the root as current directory. -/
def exFS : FS := ⟨Tree.sub "x".toList (Tree.sub "y".toList exY Tree.nil) Tree.nil, []⟩

/-- A state with three archives and an empty directory `/out`: `/b.tar`
holds a directory record `y/` and a file record `y/f`, `/e.tar` one file
record named `../evil`, `/x/y.tar` one file record named `a`. -/
def exArchives : FS :=
  ⟨Tree.leaf "b.tar".toList
      (Leaf.file (Content.tar [(⟨"y/".toList, Kind.dir, []⟩, Content.raw []),
        (⟨"y/f".toList, Kind.regular, []⟩, Content.raw [1])] true))
    (Tree.leaf "e.tar".toList
      (Leaf.file (Content.tar [(⟨"../evil".toList, Kind.regular, []⟩, Content.raw [6])] true))
    (Tree.sub "out".toList Tree.nil
    (Tree.sub "x".toList
      (Tree.leaf "y.tar".toList
        (Leaf.file (Content.tar [(⟨"a".toList, Kind.regular, []⟩, Content.raw [7])] true))
        Tree.nil)
      Tree.nil))), []⟩

/-! ## Notions used by the statements -/

/-- Everything present in `r` is present in `r2`, with the same shape. -/
def Tree.le (r r2 : Tree) : Prop :=
  ∀ (q : List Name) (s : Shape), r.shapeAt q = some s → r2.shapeAt q = some s

/-- The state `fs2` has everything `fs` has, with the same shape. -/
def FS.le (fs fs2 : FS) : Prop := fs.cwd = fs2.cwd ∧ Tree.le fs.root fs2.root

/-- A state with a link `/x/y/b` whose target does not exist. -/
def exBroken : FS :=
  ⟨Tree.sub "x".toList
    (Tree.sub "y".toList (Tree.leaf "b".toList (Leaf.link "nowhere".toList) Tree.nil) Tree.nil)
    Tree.nil, []⟩

/-- An ordinary path element: not empty, no separator inside, neither `.`
nor `..`. -/
abbrev okName (n : Name) : Prop := n ≠ [] ∧ '/' ∉ n ∧ n ≠ dot ∧ n ≠ dotdot

/-- A list of ordinary path elements. -/
abbrev okNames (l : List Name) : Prop := ∀ n ∈ l, okName n

/-- The absolute path with the given elements. -/
def absPath (comps : List Name) : Path := '/' :: joinSep comps

/-- The non-empty elements of a path string. -/
def elems (p : Path) : List Name := (splitSep p).filter (fun c => c ≠ [])

/-- Every element of the path string is ordinary (or empty). -/
def plainPath (p : Path) : Prop := okNames (elems p)

/-- A directory tree as a real file system stores it and `readDirNames`
lists it: ordinary names, in strictly increasing order, at every level. -/
def Tree.wf : Tree → Bool
  | Tree.nil => true
  | Tree.leaf n _ rest =>
    decide (okName n) && rest.names.all (fun m => nameLe n m && decide (n ≠ m)) && rest.wf
  | Tree.sub n ch rest =>
    decide (okName n) && rest.names.all (fun m => nameLe n m && decide (n ≠ m)) && ch.wf &&
      rest.wf

/-- The records a walk over the directory `t` writes, in order; `r` are the
elements of the name of `t` itself, `lk` gives the link name recorded for
the link at a relative position. -/
def treeRecs (lk : List Name → Path) : List Name → Tree → List Record
  | _, Tree.nil => []
  | r, Tree.leaf n (Leaf.file c) rest =>
    (⟨joinSep (r ++ [n]), Kind.regular, []⟩, c) :: treeRecs lk r rest
  | r, Tree.leaf n (Leaf.link _) rest =>
    (⟨joinSep (r ++ [n]), Kind.symlink, lk (r ++ [n])⟩, Content.raw []) :: treeRecs lk r rest
  | r, Tree.leaf _ Leaf.special rest => treeRecs lk r rest
  | r, Tree.sub n ch rest =>
    (⟨joinSep (r ++ [n]) ++ ['/'], Kind.dir, []⟩, Content.raw []) ::
      (treeRecs lk (r ++ [n]) ch ++ treeRecs lk r rest)

/-- What the entry-name invariant asks of a header: the name is relative,
has no element `..`, and ends with a separator exactly when the record is a
directory. -/
def Header.wellNamed (h : Header) : Prop :=
  isRooted h.Name = false ∧ dotdot ∉ splitSep h.Name ∧
    (h.Name.getLast? = some '/' ↔ h.Typ = Kind.dir)

/-- The names under which the direct children of a directory are archived
when the directory is the archive root: the child's name, followed by a
separator for a subdirectory; pipes, sockets and devices have none. -/
def Tree.topNames : Tree → List Path
  | Tree.nil => []
  | Tree.leaf _ Leaf.special rest => rest.topNames
  | Tree.leaf n _ rest => n :: rest.topNames
  | Tree.sub n _ rest => (n ++ ['/']) :: rest.topNames

/-- The tree that extraction rebuilds from the records of `t`: files and
directories as they are, every link with the link name recorded for it
(`lk`, by relative position; a record with an empty link name creates
nothing), and no pipes, sockets or devices. -/
def Tree.restored (lk : List Name → Path) : List Name → Tree → Tree
  | _, Tree.nil => Tree.nil
  | r, Tree.leaf n (Leaf.file c) rest => Tree.leaf n (Leaf.file c) (Tree.restored lk r rest)
  | r, Tree.leaf n (Leaf.link _) rest =>
    if lk (r ++ [n]) = [] then Tree.restored lk r rest
    else Tree.leaf n (Leaf.link (lk (r ++ [n]))) (Tree.restored lk r rest)
  | r, Tree.leaf _ Leaf.special rest => Tree.restored lk r rest
  | r, Tree.sub n ch rest =>
    Tree.sub n (Tree.restored lk (r ++ [n]) ch) (Tree.restored lk r rest)

/-- The state with `f` applied to the directory at the physical path `q`. -/
def FS.modifyAt (fs : FS) (q : List Name) (f : Tree → Tree) : FS :=
  { fs with root := fs.root.modifyAt q f }

/-- A tree of regular files and directories only. -/
def Tree.onlyFilesDirs : Tree → Bool
  | Tree.nil => true
  | Tree.leaf _ (Leaf.file _) rest => rest.onlyFilesDirs
  | Tree.leaf _ _ _ => false
  | Tree.sub _ ch rest => ch.onlyFilesDirs && rest.onlyFilesDirs

/-! ## Theorems -/

/-- The record loop never reports a missing extension. -/
theorem extractLoop_ne_noExtension (destPath : Path) (arch : List Name) (complete : Bool)
    (q : Path) (recs : List Record) :
    ∀ fs : FS, (extractLoop destPath arch complete fs recs).2 ≠ some (Err.noExtension q) := by
  induction recs with
  | nil => intro fs; unfold extractLoop; split <;> simp
  | cons r rest ih =>
    intro fs
    obtain ⟨hdr, payload⟩ := r
    unfold extractLoop
    cases hdr.Typ with
    | dir =>
      simp only
      cases osMkdir fs (Join destPath hdr.Name) with
      | error e => simp
      | ok fs1 => exact ih fs1
    | symlink =>
      simp only
      cases osSymlink fs hdr.Linkname (Join destPath hdr.Name) with
      | error e => exact ih fs
      | ok fs1 => exact ih fs1
    | regular =>
      simp only
      cases osCreate fs (Join destPath hdr.Name) with
      | error e => simp
      | ok x =>
        obtain ⟨fs1, phys⟩ := x
        simp only
        split
        · split <;> simp
        · exact ih _

/-- Extraction never reports a missing extension. -/
theorem Extract_ne_noExtension (fs : FS) (destPath archivePath q : Path) :
    (Extract fs destPath archivePath).2 ≠ some (Err.noExtension q) := by
  unfold Extract
  repeat' split
  all_goals first
    | exact extractLoop_ne_noExtension _ _ _ _ _ _
    | simp

/-- C3: `ExtractInPlace` on a path whose final element has no extension
returns the invalid-argument error and leaves the file system as it was;
on a path with an extension that error is never returned. -/
theorem ExtractInPlace_extension (fs : FS) (archivePath : Path) :
    (Ext archivePath = [] →
      ExtractInPlace fs archivePath = (fs, some (Err.noExtension archivePath))) ∧
    (Ext archivePath ≠ [] →
      ∀ q : Path, (ExtractInPlace fs archivePath).2 ≠ some (Err.noExtension q)) := by
  constructor
  · intro h
    simp [ExtractInPlace, h]
  · intro h q
    unfold ExtractInPlace
    rw [if_neg h]
    have hx := Extract_ne_noExtension fs (Dir (TrimSuffix archivePath (Ext archivePath)))
      archivePath q
    revert hx
    cases Extract fs (Dir (TrimSuffix archivePath (Ext archivePath))) archivePath with
    | mk fs1 e =>
      cases e with
      | some e => intro hx; exact hx
      | none =>
        intro _
        simp only
        cases osRemove fs1 archivePath <;> simp

/-- C3 at `/x/y` (no extension) and at `/x/y.tar`. -/
theorem ExtractInPlace_extension_witness :
    ExtractInPlace exArchives "/x/y".toList
        = (exArchives, some (Err.noExtension "/x/y".toList)) ∧
      ∀ q : Path, (ExtractInPlace exArchives "/x/y.tar".toList).2 ≠ some (Err.noExtension q) :=
  ⟨(ExtractInPlace_extension exArchives "/x/y".toList).1 (by decide),
   (ExtractInPlace_extension exArchives "/x/y.tar".toList).2 (by decide)⟩

/-! ### Directory trees -/

theorem Tree.find_append (n : Name) (a b : Tree) :
    (a.append b).find n = match a.find n with
      | some x => some x
      | none => b.find n := by
  induction a with
  | nil => simp [Tree.append, Tree.find]
  | leaf m l rest ih =>
    simp only [Tree.append, Tree.find]
    by_cases h : m = n <;> simp [h, ih]
  | sub m ch rest _ ih =>
    simp only [Tree.append, Tree.find]
    by_cases h : m = n <;> simp [h, ih]

theorem Tree.find_single (n m : Name) (x : Node) :
    (Tree.single n x).find m = if n = m then some x else none := by
  cases x <;> simp [Tree.single, Tree.find]

theorem Tree.find_put (n m : Name) (x : Node) (t : Tree) :
    (t.put n x).find m = if n = m then some x else t.find m := by
  induction t with
  | nil => simp [Tree.put, Tree.find_single, Tree.find]
  | leaf k l rest ih =>
    simp only [Tree.put]
    by_cases h : k = n
    · subst h
      simp only [if_true, Tree.find_append, Tree.find_single, Tree.find]
      by_cases h2 : k = m <;> simp [h2]
    · simp only [h, if_false, Tree.find, ih]
      by_cases h2 : k = m
      · subst h2
        have : ¬ n = k := fun e => h e.symm
        simp [this]
      · simp [h2]
  | sub k ch rest _ ih =>
    simp only [Tree.put]
    by_cases h : k = n
    · subst h
      simp only [if_true, Tree.find_append, Tree.find_single, Tree.find]
      by_cases h2 : k = m <;> simp [h2]
    · simp only [h, if_false, Tree.find, ih]
      by_cases h2 : k = m
      · subst h2
        have : ¬ n = k := fun e => h e.symm
        simp [this]
      · simp [h2]

theorem Tree.find_erase (n m : Name) (t : Tree) :
    (t.erase n).find m = if n = m then none else t.find m := by
  induction t with
  | nil => simp [Tree.erase, Tree.find]
  | leaf k l rest ih =>
    simp only [Tree.erase]
    by_cases h : k = n
    · subst h
      simp only [if_true, ih, Tree.find]
      by_cases h2 : k = m <;> simp [h2]
    · simp only [h, if_false, Tree.find, ih]
      by_cases h2 : k = m
      · subst h2
        have : ¬ n = k := fun e => h e.symm
        simp [this]
      · simp [h2]
  | sub k ch rest _ ih =>
    simp only [Tree.erase]
    by_cases h : k = n
    · subst h
      simp only [if_true, ih, Tree.find]
      by_cases h2 : k = m <;> simp [h2]
    · simp only [h, if_false, Tree.find, ih]
      by_cases h2 : k = m
      · subst h2
        have : ¬ n = k := fun e => h e.symm
        simp [this]
      · simp [h2]

theorem Tree.find_modify (n m : Name) (f : Tree → Tree) (t : Tree) :
    (t.modify n f).find m =
      if n = m then
        match t.find n with
        | some (Node.dir c) => some (Node.dir (f c))
        | o => o
      else t.find m := by
  induction t with
  | nil => simp [Tree.modify, Tree.find]
  | leaf k l rest ih =>
    simp only [Tree.modify]
    by_cases h : k = n
    · subst h
      simp only [if_true, Tree.find]
      by_cases h2 : k = m <;> simp [h2]
    · simp only [h, if_false, Tree.find, ih]
      by_cases h2 : k = m
      · subst h2
        have : ¬ n = k := fun e => h e.symm
        simp [this]
      · simp [h2]
  | sub k ch rest _ ih =>
    simp only [Tree.modify]
    by_cases h : k = n
    · subst h
      simp only [if_true, Tree.find]
      by_cases h2 : k = m <;> simp [h2]
    · simp only [h, if_false, Tree.find, ih]
      by_cases h2 : k = m
      · subst h2
        have : ¬ n = k := fun e => h e.symm
        simp [this]
      · simp [h2]
theorem Tree.lookup_append (q r : List Name) :
    ∀ (t c : Tree), t.lookup q = some (Node.dir c) → t.lookup (q ++ r) = c.lookup r := by
  induction q with
  | nil =>
    intro t c h
    simp only [Tree.lookup, Option.some.injEq, Node.dir.injEq] at h
    simp [h]
  | cons n q ih =>
    intro t c h
    simp only [List.cons_append, Tree.lookup] at h ⊢
    cases hf : t.find n with
    | none => simp [hf] at h
    | some x =>
      cases x with
      | dir ch =>
        simp only [hf] at h ⊢
        exact ih ch c h
      | leaf l =>
        simp only [hf] at h
        split at h <;> simp at h

theorem Tree.lookup_prefix_dir (q r : List Name) (hr : r ≠ []) :
    ∀ (t : Tree) (x : Node), t.lookup (q ++ r) = some x → ∃ c, t.lookup q = some (Node.dir c) := by
  induction q with
  | nil => intro t x _; exact ⟨t, by simp [Tree.lookup]⟩
  | cons n q ih =>
    intro t x h
    simp only [List.cons_append, Tree.lookup] at h ⊢
    cases hf : t.find n with
    | none => simp [hf] at h
    | some y =>
      cases y with
      | dir ch =>
        simp only [hf] at h ⊢
        exact ih ch x h
      | leaf l =>
        simp only [hf] at h
        have : q ++ r ≠ [] := by simp [hr]
        simp [this] at h

theorem Tree.lookup_modifyAt (f : Tree → Tree) (q r : List Name) :
    ∀ (t c : Tree), t.lookup q = some (Node.dir c) →
      (t.modifyAt q f).lookup (q ++ r) = (f c).lookup r := by
  induction q with
  | nil =>
    intro t c h
    simp only [Tree.lookup, Option.some.injEq, Node.dir.injEq] at h
    simp [Tree.modifyAt, h]
  | cons n q ih =>
    intro t c h
    simp only [List.cons_append, Tree.lookup, Tree.modifyAt, Tree.find_modify, if_true] at h ⊢
    cases hf : t.find n with
    | none => simp [hf] at h
    | some y =>
      cases y with
      | dir ch =>
        simp only [hf] at h ⊢
        exact ih ch c h
      | leaf l =>
        simp only [hf] at h
        split at h <;> simp at h

theorem Tree.shapeAt_modifyAt_off (f : Tree → Tree) (q : List Name) :
    ∀ (t : Tree) (p : List Name), ¬ q <+: p → (t.modifyAt q f).shapeAt p = t.shapeAt p := by
  induction q with
  | nil => intro t p h; exact absurd (List.nil_prefix) h
  | cons n q ih =>
    intro t p h
    cases p with
    | nil => simp [Tree.shapeAt, Tree.lookup, Node.shape]
    | cons m p =>
      simp only [Tree.shapeAt, Tree.lookup, Tree.modifyAt, Tree.find_modify]
      by_cases hnm : n = m
      · subst hnm
        have hq : ¬ q <+: p := by
          intro hp
          apply h
          obtain ⟨s, hs⟩ := hp
          exact ⟨s, by simp [← hs]⟩
        simp only [if_true]
        cases hf : t.find n with
        | none => simp
        | some y =>
          cases y with
          | dir ch =>
            simp only
            have := ih ch p hq
            simpa [Tree.shapeAt] using this
          | leaf l => simp
      · simp [hnm]
theorem Tree.putAt_snoc (x : Node) (n : Name) (q : List Name) :
    ∀ t : Tree, Tree.putAt (q ++ [n]) x t = t.modifyAt q (Tree.put n x) := by
  induction q with
  | nil => intro t; simp [Tree.putAt, Tree.modifyAt]
  | cons a q ih =>
    intro t
    have hfun : Tree.putAt (q ++ [n]) x = Tree.modifyAt q (Tree.put n x) := funext ih
    cases hq : q ++ [n] with
    | nil => simp at hq
    | cons m p =>
      simp only [List.cons_append, hq, Tree.putAt, Tree.modifyAt]
      rw [← hq, hfun]

theorem Tree.eraseAt_snoc (n : Name) (q : List Name) :
    ∀ t : Tree, Tree.eraseAt (q ++ [n]) t = t.modifyAt q (Tree.erase n) := by
  induction q with
  | nil => intro t; simp [Tree.eraseAt, Tree.modifyAt]
  | cons a q ih =>
    intro t
    have hfun : Tree.eraseAt (q ++ [n]) = Tree.modifyAt q (Tree.erase n) := funext ih
    cases hq : q ++ [n] with
    | nil => simp at hq
    | cons m p =>
      simp only [List.cons_append, hq, Tree.eraseAt, Tree.modifyAt]
      rw [← hq, hfun]

theorem Tree.lookup_putAt_same (x : Node) (n : Name) (q : List Name) (t c : Tree)
    (hq : t.lookup q = some (Node.dir c)) :
    (Tree.putAt (q ++ [n]) x t).lookup (q ++ [n]) = some x := by
  rw [Tree.putAt_snoc, Tree.lookup_modifyAt _ _ _ _ _ hq]
  simp only [Tree.lookup, Tree.find_put, if_true]
  cases x <;> simp [Tree.lookup]

theorem Tree.shapeAt_putAt_off (x : Node) (n : Name) (q : List Name) (t c : Tree)
    (hq : t.lookup q = some (Node.dir c)) (p : List Name) (h : ¬ (q ++ [n]) <+: p) :
    (Tree.putAt (q ++ [n]) x t).shapeAt p = t.shapeAt p := by
  rw [Tree.putAt_snoc]
  by_cases hp : q <+: p
  · obtain ⟨r, rfl⟩ := hp
    simp only [Tree.shapeAt, Tree.lookup_modifyAt _ _ _ _ _ hq, Tree.lookup_append _ _ _ _ hq]
    cases r with
    | nil => simp [Tree.lookup, Node.shape]
    | cons m r =>
      have hnm : ¬ n = m := by
        intro e
        subst e
        exact h ⟨r, by simp⟩
      simp [Tree.lookup, Tree.find_put, hnm]
  · exact Tree.shapeAt_modifyAt_off _ _ _ _ hp

theorem Tree.le_refl (t : Tree) : Tree.le t t := fun _ _ h => h

theorem Tree.le_trans {a b c : Tree} (h1 : Tree.le a b) (h2 : Tree.le b c) : Tree.le a c :=
  fun q s h => h2 q s (h1 q s h)

theorem Tree.shapeAt_below_none (t : Tree) (p r : List Name) (hr : r ≠ [])
    (h : t.shapeAt p ≠ some Shape.dir) : t.shapeAt (p ++ r) = none := by
  cases hl : t.lookup (p ++ r) with
  | none => simp [Tree.shapeAt, hl]
  | some x =>
    obtain ⟨c, hc⟩ := Tree.lookup_prefix_dir p r hr t x hl
    exact absurd (by simp [Tree.shapeAt, hc, Node.shape]) h

theorem Tree.le_putAt_free (x : Node) (n : Name) (q : List Name) (t c : Tree)
    (hq : t.lookup q = some (Node.dir c)) (hfree : t.shapeAt (q ++ [n]) = none) :
    Tree.le t (Tree.putAt (q ++ [n]) x t) := by
  intro p s hp
  have hoff : ¬ (q ++ [n]) <+: p := by
    rintro ⟨r, rfl⟩
    by_cases hr : r = []
    · subst hr
      simp [hfree] at hp
    · have := Tree.shapeAt_below_none t (q ++ [n]) r hr (by simp [hfree])
      rw [this] at hp
      simp at hp
  rw [Tree.shapeAt_putAt_off x n q t c hq p hoff]
  exact hp

theorem Tree.le_putAt_leaf (l : Leaf) (n : Name) (q : List Name) (t c : Tree)
    (hq : t.lookup q = some (Node.dir c)) (hs : t.shapeAt (q ++ [n]) = some l.shape) :
    Tree.le t (Tree.putAt (q ++ [n]) (Node.leaf l) t) := by
  intro p s hp
  by_cases hoff : (q ++ [n]) <+: p
  · obtain ⟨r, rfl⟩ := hoff
    by_cases hr : r = []
    · subst hr
      simp only [List.append_nil] at hp ⊢
      rw [hs] at hp
      simp only [Tree.shapeAt, Tree.lookup_putAt_same _ n q t c hq]
      simpa [Node.shape] using hp
    · have hnd : t.shapeAt (q ++ [n]) ≠ some Shape.dir := by
        rw [hs]
        cases l <;> simp [Leaf.shape]
      have := Tree.shapeAt_below_none t (q ++ [n]) r hr hnd
      rw [this] at hp
      simp at hp
  · rw [Tree.shapeAt_putAt_off _ n q t c hq p hoff]
    exact hp

theorem Tree.le_modifyAt_erase (n : Name) (q : List Name) :
    ∀ t : Tree, Tree.le (t.modifyAt q (Tree.erase n)) t := by
  induction q with
  | nil =>
    intro t p s hp
    cases p with
    | nil => simpa [Tree.shapeAt, Tree.lookup, Node.shape] using hp
    | cons m p =>
      simp only [Tree.modifyAt, Tree.shapeAt, Tree.lookup, Tree.find_erase] at hp ⊢
      by_cases hnm : n = m
      · simp [hnm] at hp
      · simpa [hnm] using hp
  | cons a q ih =>
    intro t p s hp
    cases p with
    | nil => simpa [Tree.shapeAt, Tree.lookup, Node.shape] using hp
    | cons m p =>
      simp only [Tree.modifyAt, Tree.shapeAt, Tree.lookup, Tree.find_modify] at hp ⊢
      by_cases ham : a = m
      · subst ham
        simp only [if_true] at hp
        cases hf : t.find a with
        | none => simp [hf] at hp
        | some y =>
          cases y with
          | dir ch =>
            simp only [hf] at hp ⊢
            have := ih ch p s (by simpa [Tree.shapeAt] using hp)
            simpa [Tree.shapeAt] using this
          | leaf l => simpa [hf] using hp
      · simpa [ham] using hp

theorem Tree.le_eraseAt (p : List Name) (t : Tree) : Tree.le (Tree.eraseAt p t) t := by
  rcases List.eq_nil_or_concat p with rfl | ⟨q, n, rfl⟩
  · simp only [Tree.eraseAt]
    exact Tree.le_refl t
  · rw [List.concat_eq_append, Tree.eraseAt_snoc]
    exact Tree.le_modifyAt_erase n q t

theorem Tree.shapeAt_eraseAt_same (n : Name) (q : List Name) (t c : Tree)
    (hq : t.lookup q = some (Node.dir c)) :
    (Tree.eraseAt (q ++ [n]) t).shapeAt (q ++ [n]) = none := by
  rw [Tree.eraseAt_snoc]
  simp [Tree.shapeAt, Tree.lookup_modifyAt _ _ _ _ _ hq, Tree.lookup, Tree.find_erase]
/-! ### Path resolution -/

theorem Tree.shapeAt_dir_iff (t : Tree) (p : List Name) :
    t.shapeAt p = some Shape.dir ↔ ∃ c, t.lookup p = some (Node.dir c) := by
  unfold Tree.shapeAt
  cases h : t.lookup p with
  | none => simp
  | some x =>
    cases x with
    | leaf l => cases l <;> simp [Node.shape, Leaf.shape]
    | dir c => simp [Node.shape]

theorem Tree.shapeAt_dropLast (t : Tree) (p : List Name) (h : t.shapeAt p = some Shape.dir) :
    t.shapeAt p.dropLast = some Shape.dir := by
  rcases List.eq_nil_or_concat p with rfl | ⟨q, n, rfl⟩
  · simpa using h
  · rw [List.concat_eq_append, List.dropLast_concat]
    obtain ⟨c, hc⟩ := (Tree.shapeAt_dir_iff _ _).1 h
    rw [List.concat_eq_append] at hc
    obtain ⟨c2, hc2⟩ := Tree.lookup_prefix_dir q [n] (by simp) t _ hc
    exact (Tree.shapeAt_dir_iff _ _).2 ⟨c2, hc2⟩

theorem resolveFrom_dot (root : Tree) (follow : Bool) (fuel : Nat) (stack rest : List Name) :
    resolveFrom root follow (fuel + 1) stack (dot :: rest)
      = resolveFrom root follow fuel stack rest := by
  simp [resolveFrom]

theorem resolveFrom_dotdot (root : Tree) (follow : Bool) (fuel : Nat) (stack rest : List Name) :
    resolveFrom root follow (fuel + 1) stack (dotdot :: rest)
      = resolveFrom root follow fuel stack.dropLast rest := by
  have : ¬ dotdot = dot := by decide
  simp [resolveFrom, this]

theorem resolveFrom_name (root : Tree) (follow : Bool) (fuel : Nat) (stack rest : List Name)
    (c : Name) (h1 : c ≠ dot) (h2 : c ≠ dotdot) :
    resolveFrom root follow (fuel + 1) stack (c :: rest) =
      match root.shapeAt (stack ++ [c]) with
      | none => if rest = [] then Except.ok (stack ++ [c], none) else Except.error Errno.ENOENT
      | some (Shape.link t) =>
        if rest = [] ∧ follow = false then Except.ok (stack ++ [c], some (Shape.link t))
        else if t = [] then Except.error Errno.ENOENT
        else resolveFrom root follow fuel (if isRooted t then [] else stack) (pathElems t ++ rest)
      | some Shape.dir =>
        if rest = [] then Except.ok (stack ++ [c], some Shape.dir)
        else resolveFrom root follow fuel (stack ++ [c]) rest
      | some s => if rest = [] then Except.ok (stack ++ [c], some s) else Except.error Errno.ENOTDIR := by
  rw [resolveFrom]
  simp only [h1, h2, if_false]

theorem resolveFrom_sound (root : Tree) (follow : Bool) :
    ∀ (fuel : Nat) (stack comps P : List Name) (sh : Option Shape),
      root.shapeAt stack = some Shape.dir →
      resolveFrom root follow fuel stack comps = Except.ok (P, sh) →
      root.shapeAt P = sh ∧
        (sh = none → ∃ q n c, P = q ++ [n] ∧ root.lookup q = some (Node.dir c)) := by
  intro fuel
  induction fuel with
  | zero => intro stack comps P sh _ h; simp [resolveFrom] at h
  | succ fuel ih =>
    intro stack comps P sh hst h
    cases comps with
    | nil =>
      simp only [resolveFrom, Except.ok.injEq, Prod.mk.injEq] at h
      obtain ⟨rfl, rfl⟩ := h
      refine ⟨rfl, ?_⟩
      intro hn
      rw [hst] at hn
      simp at hn
    | cons c rest =>
      by_cases h1 : c = dot
      · subst h1
        rw [resolveFrom_dot] at h
        exact ih _ _ _ _ hst h
      by_cases h2 : c = dotdot
      · subst h2
        rw [resolveFrom_dotdot] at h
        exact ih _ _ _ _ (Tree.shapeAt_dropLast _ _ hst) h
      rw [resolveFrom_name _ _ _ _ _ _ h1 h2] at h
      · cases hs : root.shapeAt (stack ++ [c]) with
        | none =>
          simp only [hs] at h
          split_ifs at h with h3
          simp only [Except.ok.injEq, Prod.mk.injEq] at h
          obtain ⟨rfl, rfl⟩ := h
          refine ⟨hs, fun _ => ?_⟩
          obtain ⟨c0, hc0⟩ := (Tree.shapeAt_dir_iff _ _).1 hst
          exact ⟨stack, c, c0, rfl, hc0⟩
        | some s =>
          cases s with
          | dir =>
            simp only [hs] at h
            split_ifs at h with h3
            · simp only [Except.ok.injEq, Prod.mk.injEq] at h
              obtain ⟨rfl, rfl⟩ := h
              exact ⟨hs, by simp⟩
            · exact ih _ _ _ _ hs h
          | link t =>
            simp only [hs] at h
            split_ifs at h with h3 h4 h5
            · simp only [Except.ok.injEq, Prod.mk.injEq] at h
              obtain ⟨rfl, rfl⟩ := h
              exact ⟨hs, by simp⟩
            · exact ih _ _ _ _ (by simp [Tree.shapeAt, Tree.lookup, Node.shape]) h
            · exact ih _ _ _ _ hst h
          | file =>
            simp only [hs] at h
            split_ifs at h with h3
            simp only [Except.ok.injEq, Prod.mk.injEq] at h
            obtain ⟨rfl, rfl⟩ := h
            exact ⟨hs, by simp⟩
          | special =>
            simp only [hs] at h
            split_ifs at h with h3
            simp only [Except.ok.injEq, Prod.mk.injEq] at h
            obtain ⟨rfl, rfl⟩ := h
            exact ⟨hs, by simp⟩

theorem resolveFrom_mono (r r2 : Tree) (hle : Tree.le r r2) (follow : Bool) :
    ∀ (fuel : Nat) (stack comps P : List Name) (s : Shape),
      resolveFrom r follow fuel stack comps = Except.ok (P, some s) →
      resolveFrom r2 follow fuel stack comps = Except.ok (P, some s) := by
  intro fuel
  induction fuel with
  | zero => intro stack comps P s h; simp [resolveFrom] at h
  | succ fuel ih =>
    intro stack comps P s h
    cases comps with
    | nil =>
      simp only [resolveFrom, Except.ok.injEq, Prod.mk.injEq] at h ⊢
      obtain ⟨rfl, h2⟩ := h
      exact ⟨rfl, hle _ _ h2⟩
    | cons c rest =>
      by_cases h1 : c = dot
      · subst h1
        rw [resolveFrom_dot] at h ⊢
        exact ih _ _ _ _ h
      by_cases h2 : c = dotdot
      · subst h2
        rw [resolveFrom_dotdot] at h ⊢
        exact ih _ _ _ _ h
      rw [resolveFrom_name _ _ _ _ _ _ h1 h2] at h ⊢
      · cases hs : r.shapeAt (stack ++ [c]) with
        | none =>
          simp only [hs] at h
          split_ifs at h with h3
          simp at h
        | some sh =>
          rw [hle _ _ hs]
          cases sh with
          | dir =>
            simp only [hs] at h ⊢
            split_ifs at h ⊢ with h3
            · exact h
            · exact ih _ _ _ _ h
          | link t =>
            simp only [hs] at h ⊢
            split_ifs at h ⊢ with h3 h4 h5
            · exact h
            · exact ih _ _ _ _ h
            · exact ih _ _ _ _ h
          | file =>
            simp only [hs] at h ⊢
            exact h
          | special =>
            simp only [hs] at h ⊢
            exact h

theorem resolveFrom_grow (r r2 : Tree) (hle : Tree.le r r2) (follow : Bool) :
    ∀ (fuel : Nat) (stack comps P : List Name) (s2 : Shape),
      resolveFrom r follow fuel stack comps = Except.ok (P, none) →
      r.shapeAt stack = some Shape.dir →
      r2.shapeAt P = some s2 → (follow = true → ∀ t, s2 ≠ Shape.link t) →
      resolveFrom r2 follow fuel stack comps = Except.ok (P, some s2) := by
  intro fuel
  induction fuel with
  | zero => intro stack comps P s h; simp [resolveFrom] at h
  | succ fuel ih =>
    intro stack comps P s2 h hst h2 hf
    cases comps with
    | nil =>
      simp only [resolveFrom, Except.ok.injEq, Prod.mk.injEq] at h ⊢
      obtain ⟨rfl, h3⟩ := h
      rw [hst] at h3
      simp at h3
    | cons c rest =>
      by_cases h1 : c = dot
      · subst h1
        rw [resolveFrom_dot] at h ⊢
        exact ih _ _ _ _ h hst h2 hf
      by_cases h3 : c = dotdot
      · subst h3
        rw [resolveFrom_dotdot] at h ⊢
        exact ih _ _ _ _ h (Tree.shapeAt_dropLast _ _ hst) h2 hf
      rw [resolveFrom_name _ _ _ _ _ _ h1 h3] at h ⊢
      · cases hs : r.shapeAt (stack ++ [c]) with
        | none =>
          simp only [hs] at h
          split_ifs at h with h4
          simp only [Except.ok.injEq, Prod.mk.injEq, and_true] at h
          subst h
          subst h4
          rw [h2]
          cases s2 with
          | dir => simp
          | file => simp
          | special => simp
          | link t =>
            have hff : follow = false := by
              cases follow with
              | false => rfl
              | true => exact absurd rfl (hf rfl t)
            simp [hff]
        | some sh =>
          rw [hle _ _ hs]
          cases sh with
          | dir =>
            simp only [hs] at h ⊢
            split_ifs at h ⊢ with h4
            · simp at h
            · exact ih _ _ _ _ h hs h2 hf
          | link t =>
            simp only [hs] at h ⊢
            split_ifs at h ⊢ with h4 h5 h6
            · simp at h
            · exact ih _ _ _ _ h (by simp [Tree.shapeAt, Tree.lookup, Node.shape]) h2 hf
            · exact ih _ _ _ _ h hst h2 hf
          | file =>
            simp only [hs] at h
            split_ifs at h with h4
            simp at h
          | special =>
            simp only [hs] at h
            split_ifs at h with h4
            simp at h

theorem Tree.shapeAt_nil (t : Tree) : t.shapeAt [] = some Shape.dir := by
  simp [Tree.shapeAt, Tree.lookup, Node.shape]

theorem resolve_sound (fs : FS) (follow : Bool) (p : Path) (P : List Name) (sh : Option Shape)
    (h : resolve fs follow p = Except.ok (P, sh)) :
    fs.root.shapeAt P = sh ∧
      (sh = none → ∃ q n c, P = q ++ [n] ∧ fs.root.lookup q = some (Node.dir c)) := by
  unfold resolve at h
  split_ifs at h with h1 h2 h3
  · exact resolveFrom_sound _ _ _ _ _ _ _ (Tree.shapeAt_nil _) h
  · exact resolveFrom_sound _ _ _ _ _ _ _ h3 h

theorem resolve_mono (fs fs2 : FS) (hle : FS.le fs fs2) (follow : Bool) (p : Path)
    (P : List Name) (s : Shape) (h : resolve fs follow p = Except.ok (P, some s)) :
    resolve fs2 follow p = Except.ok (P, some s) := by
  unfold resolve at h ⊢
  obtain ⟨hc, hr⟩ := hle
  split_ifs at h with h1 h2 h3
  · rw [if_neg h1, if_pos h2]
    exact resolveFrom_mono _ _ hr _ _ _ _ _ _ h
  · rw [if_neg h1, if_neg h2, ← hc, if_pos (hr _ _ h3)]
    exact resolveFrom_mono _ _ hr _ _ _ _ _ _ h

theorem resolve_grow (fs fs2 : FS) (hle : FS.le fs fs2) (follow : Bool) (p : Path)
    (P : List Name) (s2 : Shape) (h : resolve fs follow p = Except.ok (P, none))
    (h2 : fs2.root.shapeAt P = some s2) (hf : follow = true → ∀ t, s2 ≠ Shape.link t) :
    resolve fs2 follow p = Except.ok (P, some s2) := by
  unfold resolve at h ⊢
  obtain ⟨hc, hr⟩ := hle
  split_ifs at h with h1 h3 h4
  · rw [if_neg h1, if_pos h3]
    exact resolveFrom_grow _ _ hr _ _ _ _ _ _ h (Tree.shapeAt_nil _) h2 hf
  · rw [if_neg h1, if_neg h3, ← hc, if_pos (hr _ _ h4)]
    exact resolveFrom_grow _ _ hr _ _ _ _ _ _ h h4 h2 hf

theorem nodeAt_ok (fs : FS) (r : Except Errno (List Name × Option Shape)) (x : Node)
    (h : nodeAt fs r = Except.ok x) :
    ∃ P sh, r = Except.ok (P, sh) ∧ fs.root.lookup P = some x := by
  unfold nodeAt at h
  split at h
  · simp at h
  · rename_i P sh
    split at h
    · rename_i y hy
      simp only [Except.ok.injEq] at h
      subst h
      exact ⟨P, sh, rfl, hy⟩
    · simp at h

theorem FS.le_self (fs : FS) : FS.le fs fs := ⟨rfl, Tree.le_refl _⟩

theorem FS.le_chain {a b c : FS} (h1 : FS.le a b) (h2 : FS.le b c) : FS.le a c :=
  ⟨h1.1.trans h2.1, Tree.le_trans h1.2 h2.2⟩

theorem FS.le_put_free (fs : FS) (follow : Bool) (p : Path) (P : List Name) (x : Node)
    (h : resolve fs follow p = Except.ok (P, none)) :
    FS.le fs (fs.put P x) ∧ (fs.put P x).root.lookup P = some x := by
  obtain ⟨hs, hp⟩ := resolve_sound fs follow p P none h
  obtain ⟨q, n, c, rfl, hq⟩ := hp rfl
  exact ⟨⟨rfl, Tree.le_putAt_free x n q _ c hq hs⟩, Tree.lookup_putAt_same x n q _ c hq⟩

theorem Tree.parent_of_leaf (t : Tree) (P : List Name) (s : Shape) (h : t.shapeAt P = some s)
    (hs : s ≠ Shape.dir) : ∃ q n c, P = q ++ [n] ∧ t.lookup q = some (Node.dir c) := by
  rcases List.eq_nil_or_concat P with rfl | ⟨q, n, rfl⟩
  · rw [Tree.shapeAt_nil] at h
    simp only [Option.some.injEq] at h
    exact absurd h.symm hs
  · rw [List.concat_eq_append] at h ⊢
    cases hl : t.lookup (q ++ [n]) with
    | none => simp [Tree.shapeAt, hl] at h
    | some y =>
      obtain ⟨c, hc⟩ := Tree.lookup_prefix_dir q [n] (by simp) t y hl
      exact ⟨q, n, c, rfl, hc⟩

theorem FS.le_put_file (fs : FS) (P : List Name) (c : Content)
    (h : fs.root.shapeAt P = some Shape.file) :
    FS.le fs (fs.put P (Node.leaf (Leaf.file c))) ∧
      (fs.put P (Node.leaf (Leaf.file c))).root.lookup P = some (Node.leaf (Leaf.file c)) := by
  obtain ⟨q, n, c0, rfl, hq⟩ := Tree.parent_of_leaf _ P _ h (by simp)
  exact ⟨⟨rfl, Tree.le_putAt_leaf (Leaf.file c) n q _ c0 hq (by simpa [Leaf.shape] using h)⟩,
    Tree.lookup_putAt_same _ n q _ c0 hq⟩

theorem osMkdir_ok (fs fs1 : FS) (p : Path) (h : osMkdir fs p = Except.ok fs1) :
    ∃ P, resolve fs false (trimSeps p) = Except.ok (P, none) ∧
      fs1 = fs.put P (Node.dir Tree.nil) ∧ FS.le fs fs1 ∧
      fs1.root.shapeAt P = some Shape.dir := by
  unfold osMkdir at h
  split at h
  · simp at h
  · rename_i P hr
    simp only [Except.ok.injEq] at h
    subst h
    obtain ⟨h1, h2⟩ := FS.le_put_free fs false _ P (Node.dir Tree.nil) hr
    exact ⟨P, hr, rfl, h1, by simp [Tree.shapeAt, h2, Node.shape]⟩
  · simp at h

theorem osSymlink_le (fs fs1 : FS) (target p : Path) (h : osSymlink fs target p = Except.ok fs1) :
    FS.le fs fs1 := by
  unfold osSymlink at h
  split_ifs at h
  split at h
  · simp at h
  · rename_i P hr
    simp only [Except.ok.injEq] at h
    subst h
    exact (FS.le_put_free fs false _ P _ hr).1
  · simp at h

theorem osCreate_ok (fs fs1 : FS) (p : Path) (phys : List Name)
    (h : osCreate fs p = Except.ok (fs1, phys)) :
    FS.le fs fs1 ∧ fs1.root.shapeAt phys = some Shape.file ∧
      fs1 = fs.put phys (Node.leaf (Leaf.file (Content.raw []))) ∧
      (resolve fs true p = Except.ok (phys, none) ∨
        resolve fs true p = Except.ok (phys, some Shape.file)) := by
  unfold osCreate at h
  split at h
  · simp at h
  · rename_i P hr
    simp only [Except.ok.injEq, Prod.mk.injEq] at h
    obtain ⟨rfl, rfl⟩ := h
    obtain ⟨h1, h2⟩ := FS.le_put_free fs true _ P (Node.leaf (Leaf.file (Content.raw []))) hr
    exact ⟨h1, by simp [Tree.shapeAt, h2, Node.shape, Leaf.shape], rfl, Or.inl hr⟩
  · rename_i P hr
    simp only [Except.ok.injEq, Prod.mk.injEq] at h
    obtain ⟨rfl, rfl⟩ := h
    have hs := (resolve_sound fs true _ P _ hr).1
    obtain ⟨h1, h2⟩ := FS.le_put_file fs P (Content.raw []) hs
    exact ⟨h1, by simp [Tree.shapeAt, h2, Node.shape, Leaf.shape], rfl, Or.inr hr⟩
  · simp at h
  · simp at h

theorem FS.le_write (fs : FS) (P : List Name) (c : Content)
    (h : fs.root.shapeAt P = some Shape.file) : FS.le fs (fs.write P c) :=
  (FS.le_put_file fs P c h).1

theorem extractLoop_le (destPath : Path) (arch : List Name) (complete : Bool)
    (recs : List Record) :
    ∀ fs : FS, FS.le fs (extractLoop destPath arch complete fs recs).1 := by
  induction recs with
  | nil => intro fs; unfold extractLoop; split <;> exact FS.le_self fs
  | cons r rest ih =>
    intro fs
    obtain ⟨hdr, payload⟩ := r
    unfold extractLoop
    cases hdr.Typ with
    | dir =>
      simp only
      cases hm : osMkdir fs (Join destPath hdr.Name) with
      | error e => exact FS.le_self fs
      | ok fs1 =>
        obtain ⟨P, _, _, hle, _⟩ := osMkdir_ok fs fs1 _ hm
        exact FS.le_chain hle (ih fs1)
    | symlink =>
      simp only
      cases hm : osSymlink fs hdr.Linkname (Join destPath hdr.Name) with
      | error e => exact ih fs
      | ok fs1 => exact FS.le_chain (osSymlink_le fs fs1 _ _ hm) (ih fs1)
    | regular =>
      simp only
      cases hm : osCreate fs (Join destPath hdr.Name) with
      | error e => exact FS.le_self fs
      | ok x =>
        obtain ⟨fs1, phys⟩ := x
        obtain ⟨hle, hsf, _, _⟩ := osCreate_ok fs fs1 _ phys hm
        simp only
        split
        · split <;> exact hle
        · exact FS.le_chain hle (FS.le_chain (FS.le_write fs1 phys payload hsf) (ih _))
theorem osMkdirAll_of_dir (fs : FS) (p : Path) (c : Tree)
    (h : osStat fs p = Except.ok (Node.dir c)) : osMkdirAll fs p = (fs, none) := by
  unfold osMkdirAll
  rw [mkdirAllAux]
  simp [h]

theorem osStat_le_dir (fs fs2 : FS) (hle : FS.le fs fs2) (p : Path) (c : Tree)
    (h : osStat fs p = Except.ok (Node.dir c)) : ∃ c2, osStat fs2 p = Except.ok (Node.dir c2) := by
  obtain ⟨P, sh, hr, hl⟩ := nodeAt_ok fs _ _ h
  have hs := (resolve_sound fs true p P sh hr).1
  have hsd : sh = some Shape.dir := by
    rw [← hs]
    simp [Tree.shapeAt, hl, Node.shape]
  subst hsd
  have hr2 := resolve_mono fs fs2 hle true p P _ hr
  have hs2 := (resolve_sound fs2 true p P _ hr2).1
  obtain ⟨c2, hc2⟩ := (Tree.shapeAt_dir_iff _ _).1 hs2
  exact ⟨c2, by simp [osStat, nodeAt, hr2, hc2]⟩

/-- C9, amended: when the destination is an existing empty directory, the
first record of the archive is a directory record and the first extraction
succeeds without touching the archive file, the second extraction stops at
that first record with `EEXIST` and leaves the file system exactly as the
first extraction left it. -/
theorem Extract_twice_fails (fs fs1 : FS) (destPath archivePath : Path) (hdr : Header)
    (pl : Content) (rest : List Record) (complete : Bool)
    (hd : osStat fs destPath = Except.ok (Node.dir Tree.nil))
    (ha : osStat fs archivePath =
      Except.ok (Node.leaf (Leaf.file (Content.tar ((hdr, pl) :: rest) complete))))
    (hk : hdr.Typ = Kind.dir)
    (h1 : Extract fs destPath archivePath = (fs1, none))
    (h2 : osStat fs1 archivePath = osStat fs archivePath) :
    Extract fs1 destPath archivePath = (fs1, some (Err.os Errno.EEXIST)) := by
  -- the first run
  obtain ⟨A, sh, hrA, hlA⟩ := nodeAt_ok fs _ _ ha
  have hrun : extractLoop destPath A complete fs ((hdr, pl) :: rest) = (fs1, none) := by
    have := h1
    unfold Extract at this
    simp only [ha, osMkdirAll_of_dir fs destPath _ hd, hrA, hlA] at this
    exact this
  rw [extractLoop] at hrun
  simp only [hk] at hrun
  cases hm : osMkdir fs (Join destPath hdr.Name) with
  | error e => simp [hm] at hrun
  | ok fsa =>
    simp only [hm] at hrun
    obtain ⟨P, hrP, _, hle, hsP⟩ := osMkdir_ok fs fsa _ hm
    have hle1 : FS.le fsa fs1 := by
      have := extractLoop_le destPath A complete rest fsa
      rw [hrun] at this
      exact this
    have hle01 : FS.le fs fs1 := FS.le_chain hle hle1
    have hrP1 : resolve fs1 false (trimSeps (Join destPath hdr.Name))
        = Except.ok (P, some Shape.dir) :=
      resolve_grow fs fs1 hle01 false _ P Shape.dir hrP (hle1.2 _ _ hsP) (by simp)
    -- the second run
    obtain ⟨c2, hd1⟩ := osStat_le_dir fs fs1 hle01 destPath _ hd
    have ha1 := h2.trans ha
    obtain ⟨A1, sh1, hrA1, hlA1⟩ := nodeAt_ok fs1 _ _ ha1
    unfold Extract
    simp only [ha1, osMkdirAll_of_dir fs1 destPath _ hd1, hrA1, hlA1]
    rw [extractLoop]
    simp [hk, osMkdir, hrP1]

set_option maxRecDepth 100000 in
/-- C9, amended, at the archive `/b.tar` and the empty directory `/out`. -/
theorem Extract_twice_fails_witness :
    Extract (Extract exArchives "/out".toList "/b.tar".toList).1 "/out".toList "/b.tar".toList
      = ((Extract exArchives "/out".toList "/b.tar".toList).1, some (Err.os Errno.EEXIST)) :=
  Extract_twice_fails exArchives (Extract exArchives "/out".toList "/b.tar".toList).1
    "/out".toList "/b.tar".toList ⟨"y/".toList, Kind.dir, []⟩ (Content.raw [])
    [(⟨"y/f".toList, Kind.regular, []⟩, Content.raw [1])] true rfl rfl rfl
    (Prod.ext rfl (by decide)) rfl
theorem Tree.parent_of_some (t : Tree) (P : List Name) (s : Shape) (h : t.shapeAt P = some s)
    (hP : P ≠ []) : ∃ q n c, P = q ++ [n] ∧ t.lookup q = some (Node.dir c) := by
  rcases List.eq_nil_or_concat P with rfl | ⟨q, n, rfl⟩
  · exact absurd rfl hP
  · rw [List.concat_eq_append] at h ⊢
    cases hl : t.lookup (q ++ [n]) with
    | none => simp [Tree.shapeAt, hl] at h
    | some y =>
      obtain ⟨c, hc⟩ := Tree.lookup_prefix_dir q [n] (by simp) t y hl
      exact ⟨q, n, c, rfl, hc⟩

theorem trimSeps_of_Ext (p : Path) (h : Ext p ≠ []) : trimSeps p = p := by
  unfold Ext at h
  unfold trimSeps
  cases hr : p.reverse with
  | nil => simp [hr, extScan] at h
  | cons c rest =>
    rw [hr] at h
    have hc : c ≠ '/' := by
      intro e
      simp [extScan, e] at h
    have hp : p = (c :: rest).reverse := by rw [← hr, List.reverse_reverse]
    have hne : p ≠ [] := by
      intro e
      simp [e] at hr
    simp only [List.dropWhile_cons, hc, decide_False, Bool.false_eq_true, if_false]
    rw [← hp]
    simp [hne]

theorem osRemove_gone (fs1 fs2 : FS) (p : Path) (hp : trimSeps p = p)
    (h : osRemove fs1 p = Except.ok fs2) : lstatShape fs2 p = none := by
  unfold osRemove at h
  rw [hp] at h
  split at h
  · simp at h
  · simp at h
  · rename_i P s hr
    split_ifs at h with h1 h2
    have hPne : P ≠ [] := fun e => h1 (Or.inr (Or.inr e))
    have hfs2 : fs2 = { fs1 with root := fs1.root.eraseAt P } := by
      split at h
      all_goals
        simp at h
        try exact h.symm
    have hs := (resolve_sound fs1 false p P _ hr).1
    obtain ⟨q, n, c, rfl, hq⟩ := Tree.parent_of_some _ P s hs hPne
    have hgone : fs2.root.shapeAt (q ++ [n]) = none := by
      rw [hfs2]
      exact Tree.shapeAt_eraseAt_same n q _ c hq
    have hle : FS.le fs2 fs1 := by
      rw [hfs2]
      exact ⟨rfl, Tree.le_eraseAt _ _⟩
    unfold lstatShape
    cases hl : osLstat fs2 p with
    | error e => rfl
    | ok x =>
      exfalso
      obtain ⟨Q, sh, hrQ, hlQ⟩ := nodeAt_ok fs2 _ _ hl
      have hsQ := (resolve_sound fs2 false p Q sh hrQ).1
      have hsh : sh = some x.shape := by
        rw [← hsQ]
        simp [Tree.shapeAt, hlQ]
      subst hsh
      have := resolve_mono fs2 fs1 hle false p Q _ hrQ
      rw [hr] at this
      simp only [Except.ok.injEq, Prod.mk.injEq] at this
      obtain ⟨rfl, _⟩ := this
      rw [hgone] at hsQ
      simp at hsQ

theorem osReadlink_of_lstat (fs : FS) (p t : Path)
    (h : osLstat fs p = Except.ok (Node.leaf (Leaf.link t))) : osReadlink fs p = Except.ok t := by
  simp [osReadlink, h]

/-- C10: for a symbolic link whose target cannot be resolved
(`EvalSymlinks` fails), the callback of `Create` writes one symlink record
whose link name is the raw link text and which has no payload; `Extract`
never stops at such a record, and where the name is free in the destination
it creates a link with that same text. -/
theorem broken_symlink_roundtrip (fs : FS) (dirPath path name t : Path) (arch : List Name)
    (recs : List Record)
    (hl : osLstat fs path = Except.ok (Node.leaf (Leaf.link t)))
    (hb : EvalSymlinks fs path = none)
    (hn : Rel (Dir dirPath) path = some name) (ht : t ≠ []) :
    createWalkFn fs dirPath arch path (some (Node.leaf (Leaf.link t))) none recs
      = (recs ++ [(⟨name, Kind.symlink, t⟩, Content.raw [])], none) ∧
    ∀ (fs2 : FS) (destPath : Path) (arch2 : List Name) (complete : Bool) (payload : Content)
      (rest : List Record),
      ∃ fs3, extractLoop destPath arch2 complete fs2 ((⟨name, Kind.symlink, t⟩, payload) :: rest)
          = extractLoop destPath arch2 complete fs3 rest ∧
        (∀ P, resolve fs2 false (Join destPath name) = Except.ok (P, none) →
          osReadlink fs3 (Join destPath name) = Except.ok t) := by
  constructor
  · simp [createWalkFn, hn, linkFor, osReadlink_of_lstat fs path t hl, hb]
  · intro fs2 destPath arch2 complete payload rest
    rw [extractLoop]
    simp only
    cases hr : resolve fs2 false (Join destPath name) with
    | error e =>
      refine ⟨fs2, ?_, fun P hP => by simp at hP⟩
      simp [osSymlink, ht, hr]
    | ok x =>
      obtain ⟨P, sh⟩ := x
      cases sh with
      | some s =>
        refine ⟨fs2, ?_, fun P hP => by simp at hP⟩
        simp [osSymlink, ht, hr]
      | none =>
        refine ⟨fs2.put P (Node.leaf (Leaf.link t)), ?_, ?_⟩
        · simp [osSymlink, ht, hr]
        · intro P2 hP2
          simp only [Except.ok.injEq, Prod.mk.injEq, and_true] at hP2
          subst hP2
          obtain ⟨hle, hlk⟩ := FS.le_put_free fs2 false _ P (Node.leaf (Leaf.link t)) hr
          have hs : (fs2.put P (Node.leaf (Leaf.link t))).root.shapeAt P
              = some (Shape.link t) := by
            simp [Tree.shapeAt, hlk, Node.shape, Leaf.shape]
          have := resolve_grow fs2 _ hle false _ P _ hr hs (by simp)
          apply osReadlink_of_lstat
          simp [osLstat, nodeAt, this, hlk]

set_option maxRecDepth 100000 in
/-- C10 at the broken link `/x/y/b` of the source `/x/y/`, extracted into
the empty directory `/out`. -/
theorem broken_symlink_roundtrip_witness :
    createWalkFn exBroken "/x/y/".toList [] "/x/y/b".toList
        (some (Node.leaf (Leaf.link "nowhere".toList))) none []
      = ([] ++ [(⟨"b".toList, Kind.symlink, "nowhere".toList⟩, Content.raw [])], none) ∧
    ∀ (fs2 : FS) (destPath : Path) (arch2 : List Name) (complete : Bool) (payload : Content)
      (rest : List Record),
      ∃ fs3, extractLoop destPath arch2 complete fs2
            ((⟨"b".toList, Kind.symlink, "nowhere".toList⟩, payload) :: rest)
          = extractLoop destPath arch2 complete fs3 rest ∧
        (∀ P, resolve fs2 false (Join destPath "b".toList) = Except.ok (P, none) →
          osReadlink fs3 (Join destPath "b".toList) = Except.ok "nowhere".toList) :=
  broken_symlink_roundtrip exBroken "/x/y/".toList "/x/y/b".toList "b".toList
    "nowhere".toList [] [] rfl (by decide) (by decide) (by decide)

/-! ### Strings and paths -/

theorem splitSep_ne_nil (p : Path) : splitSep p ≠ [] := by
  cases p with
  | nil => simp [splitSep]
  | cons c cs =>
    rw [splitSep]
    split
    · simp
    · split <;> simp

theorem splitSep_cons_sep (b : Path) : splitSep ('/' :: b) = [] :: splitSep b := by
  rw [splitSep]
  cases h : splitSep b with
  | nil => exact absurd h (splitSep_ne_nil b)
  | cons w ws => simp

theorem splitSep_cons_other (c : Char) (hc : c ≠ '/') (b : Path) :
    splitSep (c :: b) = (c :: (splitSep b).head!) :: (splitSep b).tail := by
  rw [splitSep]
  cases h : splitSep b with
  | nil => exact absurd h (splitSep_ne_nil b)
  | cons w ws => simp [hc]

theorem splitSep_append_sep (a b : Path) :
    splitSep (a ++ '/' :: b) = splitSep a ++ splitSep b := by
  induction a with
  | nil => simp [splitSep_cons_sep, splitSep.eq_1]
  | cons c a ih =>
    by_cases hc : c = '/'
    · subst hc
      simp [splitSep_cons_sep, ih]
    · simp only [List.cons_append, splitSep_cons_other c hc, ih]
      cases h : splitSep a with
      | nil => exact absurd h (splitSep_ne_nil a)
      | cons w ws => simp

theorem splitSep_noSep (w : Name) (h : '/' ∉ w) : splitSep w = [w] := by
  induction w with
  | nil => simp [splitSep]
  | cons c w ih =>
    have hc : c ≠ '/' := fun e => h (by simp [e])
    have hw : '/' ∉ w := fun e => h (by simp [e])
    rw [splitSep_cons_other c hc, ih hw]
    simp

theorem splitSep_joinSep (comps : List Name) (hne : comps ≠ [])
    (h : ∀ c ∈ comps, '/' ∉ c) : splitSep (joinSep comps) = comps := by
  induction comps with
  | nil => exact absurd rfl hne
  | cons w ws ih =>
    cases ws with
    | nil => simpa [joinSep] using splitSep_noSep w (h w (by simp))
    | cons v vs =>
      rw [joinSep, splitSep_append_sep, splitSep_noSep w (h w (by simp)),
        ih (by simp) (fun c hc => h c (by simp [hc]))]
      · simp
      · simp

theorem cleanStep_ok (r : Bool) (acc : List Name) (c : Name) (h : okName c) :
    cleanStep r acc c = c :: acc := by
  obtain ⟨h1, _, h3, h4⟩ := h
  simp [cleanStep, h1, h3, h4]

theorem foldl_cleanStep_ok (r : Bool) (cs : List Name) (h : okNames cs) :
    ∀ acc, cs.foldl (cleanStep r) acc = cs.reverse ++ acc := by
  induction cs with
  | nil => intro acc; simp
  | cons c cs ih =>
    intro acc
    rw [List.foldl_cons, cleanStep_ok r acc c (h c (by simp)),
      ih (fun n hn => h n (by simp [hn]))]
    simp

theorem cleanStep_nil (r : Bool) (acc : List Name) : cleanStep r acc [] = acc := by
  simp [cleanStep]

theorem isRooted_absPath (comps : List Name) : isRooted (absPath comps) = true := rfl

theorem splitSep_absPath (comps : List Name) (hne : comps ≠ []) (h : okNames comps) :
    splitSep (absPath comps) = [] :: comps := by
  rw [absPath, splitSep_cons_sep, splitSep_joinSep comps hne (fun c hc => (h c hc).2.1)]

theorem cleanComps_absPath (comps : List Name) (h : okNames comps) :
    cleanComps (absPath comps) = comps := by
  by_cases hne : comps = []
  · subst hne
    decide
  · rw [cleanComps, splitSep_absPath comps hne h, List.foldl_cons, cleanStep_nil,
      foldl_cleanStep_ok _ _ h]
    simp

theorem Clean_absPath (comps : List Name) (h : okNames comps) :
    Clean (absPath comps) = absPath comps := by
  rw [Clean, cleanComps_absPath comps h, isRooted_absPath]
  simp [render, absPath]
theorem elems_append_sep (a b : Path) : elems (a ++ '/' :: b) = elems a ++ elems b := by
  simp [elems, splitSep_append_sep]

theorem elems_nil : elems [] = [] := by decide

theorem elems_joinSep (r : List Name) (h : okNames r) : elems (joinSep r) = r := by
  by_cases hne : r = []
  · subst hne
    decide
  · rw [elems, splitSep_joinSep r hne (fun c hc => (h c hc).2.1)]
    rw [List.filter_eq_self]
    intro c hc
    simpa using (h c hc).1

theorem elems_absPath (a : List Name) (h : okNames a) : elems (absPath a) = a := by
  have : absPath a = [] ++ '/' :: joinSep a := rfl
  rw [this, elems_append_sep, elems_nil, elems_joinSep a h]
  simp

theorem foldl_cleanStep_plain (r : Bool) (cs : List Name)
    (h : ∀ c ∈ cs, c ≠ [] → okName c) :
    ∀ acc, cs.foldl (cleanStep r) acc = (cs.filter (fun c => c ≠ [])).reverse ++ acc := by
  induction cs with
  | nil => intro acc; simp
  | cons c cs ih =>
    intro acc
    have ih2 := ih (fun n hn => h n (by simp [hn]))
    by_cases hc : c = []
    · subst hc
      rw [List.foldl_cons, cleanStep_nil, ih2]
      simp
    · rw [List.foldl_cons, cleanStep_ok r acc c (h c (by simp) hc), ih2]
      simp [hc]

theorem mem_elems (p : Path) (c : Name) : c ∈ elems p ↔ c ∈ splitSep p ∧ c ≠ [] := by
  simp [elems]

theorem cleanComps_plain (p : Path) (h : plainPath p) : cleanComps p = elems p := by
  rw [cleanComps, foldl_cleanStep_plain _ _ (fun c hc hne => h c ((mem_elems p c).2 ⟨hc, hne⟩))]
  simp [elems]

theorem Clean_plain_rooted (p : Path) (h : plainPath p) (hr : isRooted p = true) :
    Clean p = absPath (elems p) := by
  rw [Clean, cleanComps_plain p h, hr]
  simp [render, absPath]

theorem plainPath_append_sep (a b : Path) (ha : plainPath a) (hb : plainPath b) :
    plainPath (a ++ '/' :: b) := by
  intro c hc
  rw [elems_append_sep] at hc
  rcases List.mem_append.1 hc with h | h
  · exact ha c h
  · exact hb c h

theorem plainPath_absPath (a : List Name) (h : okNames a) : plainPath (absPath a) := by
  intro c hc
  rw [elems_absPath a h] at hc
  exact h c hc

theorem plainPath_joinSep (r : List Name) (h : okNames r) : plainPath (joinSep r) := by
  intro c hc
  rw [elems_joinSep r h] at hc
  exact h c hc

theorem plainPath_nil : plainPath [] := by
  intro c hc
  rw [elems_nil] at hc
  simp at hc

theorem absPath_ne_nil (a : List Name) : absPath a ≠ [] := by simp [absPath]

theorem Join_absPath (a : List Name) (b : Path) (ha : okNames a) (hb : plainPath b) :
    Join (absPath a) b = absPath (a ++ elems b) := by
  rw [Join, if_pos (absPath_ne_nil a),
    Clean_plain_rooted _ (plainPath_append_sep _ _ (plainPath_absPath a ha) hb) rfl,
    elems_append_sep, elems_absPath a ha]

theorem okNames_single (n : Name) (h : okName n) : okNames [n] := by
  intro c hc
  rw [List.mem_singleton] at hc
  subst hc
  exact h

theorem plainPath_single (n : Name) (h : okName n) : plainPath n := by
  have := plainPath_joinSep [n] (okNames_single n h)
  simpa [joinSep] using this

theorem elems_single (n : Name) (h : okName n) : elems n = [n] := by
  have := elems_joinSep [n] (okNames_single n h)
  simpa [joinSep] using this

theorem Join_absPath_name (a : List Name) (n : Name) (ha : okNames a) (hn : okName n) :
    Join (absPath a) n = absPath (a ++ [n]) := by
  rw [Join_absPath a n ha (plainPath_single n hn), elems_single n hn]

theorem absPath_inj (a b : List Name) (ha : okNames a) (hb : okNames b)
    (h : absPath a = absPath b) : a = b := by
  rw [← elems_absPath a ha, ← elems_absPath b hb, h]
theorem joinSep_cons_cons (w v : Name) (vs : List Name) :
    joinSep (w :: v :: vs) = w ++ '/' :: joinSep (v :: vs) := by
  rw [joinSep]
  simp

theorem joinSep_snoc (a : List Name) (n : Name) (ha : a ≠ []) :
    joinSep (a ++ [n]) = joinSep a ++ '/' :: n := by
  induction a with
  | nil => exact absurd rfl ha
  | cons w ws ih =>
    cases ws with
    | nil => simp [joinSep]
    | cons v vs =>
      have := ih (by simp)
      simp only [List.cons_append] at this ⊢
      rw [joinSep_cons_cons, this, joinSep_cons_cons]
      simp

theorem absPath_snoc (a : List Name) (n : Name) :
    absPath (a ++ [n]) = if a = [] then '/' :: n else absPath a ++ '/' :: n := by
  by_cases ha : a = []
  · subst ha
    simp [absPath, joinSep]
  · simp [absPath, joinSep_snoc a n ha, ha]

theorem getLast?_absPath (a : List Name) (hne : a ≠ []) (h : okNames a) :
    (absPath a).getLast? ≠ some '/' := by
  rcases List.eq_nil_or_concat a with rfl | ⟨q, n, rfl⟩
  · exact absurd rfl hne
  · rw [List.concat_eq_append] at h ⊢
    have hn : okName n := h n (by simp)
    obtain ⟨hn1, hn2, _, _⟩ := hn
    have hlast : ∀ x : Path, (x ++ n).getLast? = n.getLast? := by
      intro x
      rw [List.getLast?_append]
      cases hl : n.getLast? with
      | none => simp [List.getLast?_eq_none_iff] at hl; exact absurd hl hn1
      | some c => simp
    have hnl : n.getLast? ≠ some '/' := by
      intro e
      exact hn2 (List.mem_of_getLast?_eq_some e)
    rw [absPath_snoc]
    split_ifs with hq
    · have : ('/' :: n) = ['/'] ++ n := rfl
      rw [this, hlast]
      exact hnl
    · have : absPath q ++ '/' :: n = (absPath q ++ ['/']) ++ n := by simp
      rw [this, hlast]
      exact hnl

theorem pathElems_absPath (a : List Name) (h : okNames a) : pathElems (absPath a) = a := by
  unfold pathElems
  have he : List.filter (fun c => decide (c ≠ [])) (splitSep (absPath a)) = a := elems_absPath a h
  simp only [he]
  by_cases hne : a = []
  · simp [hne]
  · have := getLast?_absPath a hne h
    simp [this]

theorem pathElems_absPath_slash (a : List Name) (hne : a ≠ []) (h : okNames a) :
    pathElems (absPath a ++ ['/']) = a ++ [dot] := by
  unfold pathElems
  have he : List.filter (fun c => decide (c ≠ [])) (splitSep (absPath a ++ ['/'])) = a := by
    have := elems_append_sep (absPath a) []
    rw [elems_absPath a h, elems_nil] at this
    simpa [elems] using this
  simp only [he]
  simp [hne]

theorem trimSeps_absPath (a : List Name) (h : okNames a) : trimSeps (absPath a) = absPath a := by
  by_cases hne : a = []
  · subst hne
    decide
  · unfold trimSeps
    have hl := getLast?_absPath a hne h
    have hrev : (absPath a).reverse.dropWhile (fun c => c = '/') = (absPath a).reverse := by
      cases hr : (absPath a).reverse with
      | nil => rfl
      | cons c rest =>
        have hc : c ≠ '/' := by
          intro e
          apply hl
          rw [← List.reverse_reverse (absPath a), hr, e]
          simp
        simp [hc]
    simp only [hrev, List.reverse_reverse]
    simp [absPath_ne_nil]

theorem upToLastSep_append (x : Path) (n : Name) (hn : '/' ∉ n) :
    upToLastSep (x ++ '/' :: n) = x ++ ['/'] := by
  unfold upToLastSep
  have : (x ++ '/' :: n).reverse = n.reverse ++ '/' :: x.reverse := by simp
  rw [this, List.dropWhile_append_of_pos]
  · simp
  · intro c hc
    have : c ≠ '/' := fun e => hn (by rw [← e]; exact List.mem_reverse.1 hc)
    simpa using this

theorem plainPath_slash (a : List Name) (h : okNames a) : plainPath (absPath a ++ ['/']) :=
  plainPath_append_sep _ _ (plainPath_absPath a h) plainPath_nil

theorem Clean_absPath_slash (a : List Name) (h : okNames a) :
    Clean (absPath a ++ ['/']) = absPath a := by
  rw [Clean_plain_rooted _ (plainPath_slash a h) rfl, elems_append_sep, elems_absPath a h,
    elems_nil]
  simp

theorem Dir_absPath_snoc (a : List Name) (n : Name) (ha : okNames a) (hn : okName n) :
    Dir (absPath (a ++ [n])) = absPath a := by
  unfold Dir
  rw [absPath_snoc]
  split_ifs with hq
  · subst hq
    have : ('/' :: n) = [] ++ '/' :: n := rfl
    rw [this, upToLastSep_append [] n hn.2.1]
    decide
  · rw [upToLastSep_append _ n hn.2.1, Clean_absPath_slash a ha]

theorem Dir_absPath_slash (a : List Name) (ha : okNames a) :
    Dir (absPath a ++ ['/']) = absPath a := by
  unfold Dir
  have : absPath a ++ ['/'] = absPath a ++ '/' :: [] := rfl
  rw [this, upToLastSep_append _ [] (by simp)]
  exact Clean_absPath_slash a ha
theorem dropCommon_prefix (b r : List Name) : dropCommon b (b ++ r) = ([], r) := by
  induction b with
  | nil => cases r <;> simp [dropCommon]
  | cons x xs ih => simp [dropCommon, ih]

theorem absPath_ne_dot (a : List Name) : absPath a ≠ dot := by
  simp [absPath, dot]

theorem Rel_same (basepath targpath : Path) (h : Clean targpath = Clean basepath) :
    Rel basepath targpath = some dot := by
  simp [Rel, h]

theorem Rel_absPath_under (b r : List Name) (hb : okNames b) (hr : okNames r) (hne : r ≠ []) :
    Rel (absPath b) (absPath (b ++ r)) = some (joinSep r) := by
  have hbr : okNames (b ++ r) := by
    intro n hn
    rcases List.mem_append.1 hn with h | h
    · exact hb n h
    · exact hr n h
  have hneq : absPath (b ++ r) ≠ absPath b := by
    intro e
    have := absPath_inj _ _ hbr hb e
    simp at this
    exact hne this
  unfold Rel
  simp only [Clean_absPath b hb, Clean_absPath (b ++ r) hbr, hneq, if_false,
    isRooted_absPath, ne_eq, not_true_eq_false, absPath_ne_dot,
    cleanComps_absPath b hb, cleanComps_absPath (b ++ r) hbr, dropCommon_prefix]

theorem resolveFrom_descend (root : Tree) (follow : Bool) (rest : List Name) (hrest : rest ≠ []) :
    ∀ (comps stack : List Name) (fuel : Nat), okNames comps →
      root.shapeAt (stack ++ comps) = some Shape.dir →
      resolveFrom root follow (fuel + comps.length) stack (comps ++ rest)
        = resolveFrom root follow fuel (stack ++ comps) rest := by
  intro comps
  induction comps with
  | nil => intro stack fuel _ _; simp
  | cons c cs ih =>
    intro stack fuel hok hdir
    have hc : okName c := hok c (by simp)
    have hcs : okNames cs := fun n hn => hok n (by simp [hn])
    have hdir2 : root.shapeAt ((stack ++ [c]) ++ cs) = some Shape.dir := by simpa using hdir
    have hsc : root.shapeAt (stack ++ [c]) = some Shape.dir := by
      by_cases hcs0 : cs = []
      · subst hcs0
        simpa using hdir
      · obtain ⟨d, hd⟩ := (Tree.shapeAt_dir_iff _ _).1 hdir2
        obtain ⟨d2, hd2⟩ := Tree.lookup_prefix_dir (stack ++ [c]) cs hcs0 root _ hd
        exact (Tree.shapeAt_dir_iff _ _).2 ⟨d2, hd2⟩
    have hfuel : fuel + (c :: cs).length = (fuel + cs.length) + 1 := by simp; omega
    rw [hfuel, List.cons_append, resolveFrom_name _ _ _ _ _ _ hc.2.2.1 hc.2.2.2, hsc]
    have : cs ++ rest ≠ [] := by simp [hrest]
    simp only [this, if_false]
    rw [ih (stack ++ [c]) fuel hcs hdir2]
    simp

theorem resolveFrom_last (root : Tree) (follow : Bool) (fuel : Nat) (stack : List Name)
    (c : Name) (hc : okName c)
    (hf : follow = true → ∀ t, root.shapeAt (stack ++ [c]) ≠ some (Shape.link t)) :
    resolveFrom root follow (fuel + 1) stack [c]
      = Except.ok (stack ++ [c], root.shapeAt (stack ++ [c])) := by
  rw [resolveFrom_name _ _ _ _ _ _ hc.2.2.1 hc.2.2.2]
  cases hs : root.shapeAt (stack ++ [c]) with
  | none => simp
  | some s =>
    cases s with
    | dir => simp
    | file => simp
    | special => simp
    | link t =>
      have hff : follow = false := by
        cases follow with
        | false => rfl
        | true => exact absurd hs (hf rfl t)
      simp [hff]

theorem resolve_abs_plain (fs : FS) (follow : Bool) (comps : List Name) (h : okNames comps)
    (hpar : fs.root.shapeAt comps.dropLast = some Shape.dir)
    (hfin : follow = true → ∀ t, fs.root.shapeAt comps ≠ some (Shape.link t)) :
    resolve fs follow (absPath comps) = Except.ok (comps, fs.root.shapeAt comps) := by
  unfold resolve
  rw [if_neg (absPath_ne_nil comps), if_pos (isRooted_absPath comps), pathElems_absPath comps h]
  rcases List.eq_nil_or_concat comps with rfl | ⟨q, n, rfl⟩
  · simp [resolveFrom]
  · rw [List.concat_eq_append] at h hpar hfin ⊢
    rw [List.dropLast_concat] at hpar
    have hq : okNames q := fun m hm => h m (by simp [hm])
    have hn : okName n := h n (by simp)
    have hfuel : (q ++ [n]).length + 1 + linkFuel = (linkFuel + 1 + 1) + q.length := by
      simp; omega
    rw [hfuel, resolveFrom_descend _ _ [n] (by simp) q [] _ hq (by simpa using hpar)]
    simp only [List.nil_append]
    exact resolveFrom_last _ _ _ q n hn hfin

theorem resolve_abs_slash (fs : FS) (follow : Bool) (comps : List Name) (hne : comps ≠ [])
    (h : okNames comps) (hdir : fs.root.shapeAt comps = some Shape.dir) :
    resolve fs follow (absPath comps ++ ['/']) = Except.ok (comps, some Shape.dir) := by
  unfold resolve
  have hr : isRooted (absPath comps ++ ['/']) = true := rfl
  rw [if_neg (by simp [absPath]), if_pos hr, pathElems_absPath_slash comps hne h]
  have hfuel : (comps ++ [dot]).length + 1 + linkFuel = (linkFuel + 1 + 1) + comps.length := by
    simp; omega
  rw [hfuel, resolveFrom_descend _ _ [dot] (by simp) comps [] _ h (by simpa using hdir)]
  simp only [List.nil_append]
  rw [resolveFrom_dot]
  simp [resolveFrom, hdir]
theorem lastElem_append (x : Path) (n : Name) (hn : '/' ∉ n) : lastElem (x ++ '/' :: n) = n := by
  unfold lastElem
  have : (x ++ '/' :: n).reverse = n.reverse ++ '/' :: x.reverse := by simp
  rw [this, List.takeWhile_append_of_pos]
  · simp
  · intro c hc
    have : c ≠ '/' := fun e => hn (by rw [← e]; exact List.mem_reverse.1 hc)
    simpa using this

theorem lastElem_absPath_snoc (q : List Name) (n : Name) (hn : '/' ∉ n) :
    lastElem (absPath (q ++ [n])) = n := by
  rw [absPath_snoc]
  split_ifs
  · exact lastElem_append [] n hn
  · exact lastElem_append _ n hn

theorem absPath_snoc_append (q : List Name) (n s : Name) :
    absPath (q ++ [n]) ++ s = absPath (q ++ [n ++ s]) := by
  rw [absPath_snoc, absPath_snoc]
  split_ifs <;> simp

theorem okName_tar (n : Name) (h : okName n) : okName (n ++ tarSuffix) := by
  obtain ⟨h1, h2, _, _⟩ := h
  refine ⟨by simp [h1], ?_, ?_, ?_⟩
  · simp [tarSuffix, h2]
  · intro e
    have := congrArg List.length e
    simp [tarSuffix, dot] at this
  · intro e
    have := congrArg List.length e
    simp [tarSuffix, dotdot] at this

theorem Tree.lookup_eraseAt_sibling (q : List Name) (n m : Name) (hnm : n ≠ m) (t c : Tree)
    (hq : t.lookup q = some (Node.dir c)) :
    (Tree.eraseAt (q ++ [n]) t).lookup (q ++ [m]) = t.lookup (q ++ [m]) := by
  rw [Tree.eraseAt_snoc, Tree.lookup_modifyAt _ _ _ _ _ hq, Tree.lookup_append _ _ _ _ hq]
  simp [Tree.lookup, Tree.find_erase, hnm]

theorem Tree.shapeAt_eraseAt_parent (q : List Name) (n : Name) (t c : Tree)
    (hq : t.lookup q = some (Node.dir c)) :
    (Tree.eraseAt (q ++ [n]) t).shapeAt q = some Shape.dir := by
  have := Tree.lookup_modifyAt (Tree.erase n) q [] t c hq
  rw [Tree.eraseAt_snoc]
  simp only [List.append_nil] at this
  simp [Tree.shapeAt, this, Tree.lookup, Node.shape]

theorem Tree.shapeAt_prefix_dir (t : Tree) (q r : List Name) (s : Shape)
    (h : t.shapeAt (q ++ r) = some s) (hr : r ≠ []) : t.shapeAt q = some Shape.dir := by
  cases hl : t.lookup (q ++ r) with
  | none => simp [Tree.shapeAt, hl] at h
  | some x =>
    obtain ⟨c, hc⟩ := Tree.lookup_prefix_dir q r hr t x hl
    exact (Tree.shapeAt_dir_iff _ _).2 ⟨c, hc⟩
/-- C4, amended: for a source given as a clean absolute path whose elements
name real directories, the archive path naming nothing or a regular file: if
`CreateInPlace` returns no error then the source path names nothing
afterwards and the path with `.tar` appended is a regular file holding the
complete stream that `Create` wrote for the source. -/
theorem CreateInPlace_success (fs fs2 : FS) (dc : List Name) (n : Name)
    (hok : okNames (dc ++ [n]))
    (hdir : fs.root.shapeAt (dc ++ [n]) = some Shape.dir)
    (hnl : fs.root.shapeAt (dc ++ [n ++ tarSuffix]) = none ∨
      fs.root.shapeAt (dc ++ [n ++ tarSuffix]) = some Shape.file)
    (h : CreateInPlace fs (absPath (dc ++ [n])) = (fs2, none)) :
    lstatShape fs2 (absPath (dc ++ [n])) = none ∧
    ∃ fs1 arch recs,
      osCreate fs (absPath (dc ++ [n]) ++ tarSuffix) = Except.ok (fs1, arch) ∧
      Walk fs1 (createWalkFn fs1 (absPath (dc ++ [n])) arch) (absPath (dc ++ [n])) []
        = (recs, none) ∧
      osStat fs2 (absPath (dc ++ [n]) ++ tarSuffix)
        = Except.ok (Node.leaf (Leaf.file (Content.tar recs true))) := by
  have hdc : okNames dc := fun m hm => hok m (by simp [hm])
  have hn : okName n := hok n (by simp)
  have hnt : okName (n ++ tarSuffix) := okName_tar n hn
  have hokt : okNames (dc ++ [n ++ tarSuffix]) := by
    intro m hm
    rcases List.mem_append.1 hm with h1 | h1
    · exact hdc m h1
    · rw [List.mem_singleton] at h1
      subst h1
      exact hnt
  have hne : n ≠ n ++ tarSuffix := by
    intro e
    have := congrArg List.length e
    simp [tarSuffix] at this
  have hpar : fs.root.shapeAt dc = some Shape.dir :=
    Tree.shapeAt_prefix_dir _ dc [n] _ hdir (by simp)
  unfold CreateInPlace at h
  cases hC : Create fs (absPath (dc ++ [n]) ++ tarSuffix) (absPath (dc ++ [n])) with
  | mk fsc e =>
  rw [hC] at h
  cases e with
  | some e => simp at h
  | none =>
  simp only at h
  cases hR : osRemoveAll fsc (absPath (dc ++ [n])) with
  | mk fs3 e2 =>
  rw [hR] at h
  cases e2 with
  | some e2 => simp at h
  | none =>
  simp only [Prod.mk.injEq, and_true] at h
  subst h
  unfold Create at hC
  cases hS : osStat fs (absPath (dc ++ [n])) with
  | error e => simp [hS] at hC
  | ok x =>
  cases x with
  | leaf l => simp [hS] at hC
  | dir c0 =>
  simp only [hS] at hC
  cases hO : osCreate fs (absPath (dc ++ [n]) ++ tarSuffix) with
  | error e => simp [hO] at hC
  | ok y =>
  obtain ⟨fs1, arch⟩ := y
  simp only [hO] at hC
  cases hW : Walk fs1 (createWalkFn fs1 (absPath (dc ++ [n])) arch) (absPath (dc ++ [n])) [] with
  | mk recs e3 =>
  rw [hW] at hC
  cases e3 with
  | some e3 => cases e3 <;> simp at hC
  | none =>
  simp only [Prod.mk.injEq, and_true] at hC
  -- where the archive is
  obtain ⟨hle1, hsf1, _, hres⟩ := osCreate_ok fs fs1 _ arch hO
  have hplain := resolve_abs_plain fs true (dc ++ [n ++ tarSuffix]) hokt
    (by simpa using hpar) (fun _ t => by rcases hnl with e | e <;> simp [e])
  rw [absPath_snoc_append] at hres
  have harch : arch = dc ++ [n ++ tarSuffix] := by
    rcases hres with hres | hres
    all_goals
      rw [hplain] at hres
      simp only [Except.ok.injEq, Prod.mk.injEq] at hres
      exact hres.1.symm
  subst harch
  -- the state after Create
  obtain ⟨hle2, hlk⟩ := FS.le_put_file fs1 (dc ++ [n ++ tarSuffix]) (Content.tar recs true) hsf1
  have hfsc : fsc = fs1.put (dc ++ [n ++ tarSuffix])
      (Node.leaf (Leaf.file (Content.tar recs true))) := by
    rw [← hC]
    rfl
  rw [← hfsc] at hle2 hlk
  have hlec : FS.le fs fsc := FS.le_chain hle1 hle2
  have hdirc : fsc.root.shapeAt (dc ++ [n]) = some Shape.dir := hlec.2 _ _ hdir
  have hparc : fsc.root.shapeAt dc = some Shape.dir := hlec.2 _ _ hpar
  obtain ⟨cpar, hcpar⟩ := (Tree.shapeAt_dir_iff _ _).1 hparc
  -- the removal
  have hresd := resolve_abs_plain fsc false (dc ++ [n]) hok (by simpa using hparc) (by simp)
  have hfs3 : fs3 = { fsc with root := fsc.root.eraseAt (dc ++ [n]) } := by
    have := hR
    unfold osRemoveAll at this
    rw [if_neg (absPath_ne_nil _), lastElem_absPath_snoc dc n hn.2.1,
      if_neg hn.2.2.1, trimSeps_absPath _ hok, hresd, hdirc] at this
    simp only [lastElem_absPath_snoc dc n hn.2.1, hn.2.2.1, hn.2.2.2, false_or,
      List.append_eq_nil, List.cons_ne_self, and_false, if_false, Prod.mk.injEq,
      and_true] at this
    exact this.symm
  have hpar3 : fs3.root.shapeAt dc = some Shape.dir := by
    rw [hfs3]
    exact Tree.shapeAt_eraseAt_parent dc n _ cpar hcpar
  refine ⟨?_, fs1, dc ++ [n ++ tarSuffix], recs, ?_, hW, ?_⟩
  · have hgone : fs3.root.shapeAt (dc ++ [n]) = none := by
      rw [hfs3]
      exact Tree.shapeAt_eraseAt_same n dc _ cpar hcpar
    have hr3 := resolve_abs_plain fs3 false (dc ++ [n]) hok (by simpa using hpar3) (by simp)
    have hl3 : fs3.root.lookup (dc ++ [n]) = none := by
      cases hl : fs3.root.lookup (dc ++ [n]) with
      | none => rfl
      | some x => simp [Tree.shapeAt, hl] at hgone
    simp [lstatShape, osLstat, nodeAt, hr3, hl3]
  · rfl
  · have hl3 : fs3.root.lookup (dc ++ [n ++ tarSuffix])
        = some (Node.leaf (Leaf.file (Content.tar recs true))) := by
      rw [hfs3]
      simp only
      rw [Tree.lookup_eraseAt_sibling dc n (n ++ tarSuffix) hne _ cpar hcpar]
      exact hlk
    have hs3 : fs3.root.shapeAt (dc ++ [n ++ tarSuffix]) = some Shape.file := by
      simp [Tree.shapeAt, hl3, Node.shape, Leaf.shape]
    have hr3 := resolve_abs_plain fs3 true (dc ++ [n ++ tarSuffix]) hokt
      (by simpa using hpar3) (by rw [hs3]; simp)
    rw [absPath_snoc_append]
    simp [osStat, nodeAt, hr3, hl3]

set_option maxRecDepth 100000 in
/-- C4, amended, at the directory `/x/y`. -/
theorem CreateInPlace_success_witness :
    lstatShape (CreateInPlace exFS "/x/y".toList).1 "/x/y".toList = none ∧
    ∃ fs1 arch recs,
      osCreate exFS ("/x/y".toList ++ tarSuffix) = Except.ok (fs1, arch) ∧
      Walk fs1 (createWalkFn fs1 "/x/y".toList arch) "/x/y".toList [] = (recs, none) ∧
      osStat (CreateInPlace exFS "/x/y".toList).1 ("/x/y".toList ++ tarSuffix)
        = Except.ok (Node.leaf (Leaf.file (Content.tar recs true))) :=
  CreateInPlace_success exFS (CreateInPlace exFS "/x/y".toList).1 ["x".toList] "y".toList
    (by decide) (by decide) (by decide) (Prod.ext rfl (by decide))

/-! ### The walk over a directory tree -/

theorem insertName_head (n : Name) (ms : List Name)
    (h : ms.all (fun m => nameLe n m && decide (n ≠ m)) = true) : insertName n ms = n :: ms := by
  cases ms with
  | nil => rfl
  | cons m ms =>
    simp only [List.all_cons, Bool.and_eq_true] at h
    simp [insertName, h.1.1]

theorem Tree.wf_rest_leaf {n : Name} {l : Leaf} {rest : Tree} (h : (Tree.leaf n l rest).wf = true) :
    okName n ∧ rest.names.all (fun m => nameLe n m && decide (n ≠ m)) = true ∧ rest.wf = true := by
  simp only [Tree.wf, Bool.and_eq_true, decide_eq_true_eq] at h
  exact ⟨h.1.1, h.1.2, h.2⟩

theorem Tree.wf_rest_sub {n : Name} {ch rest : Tree} (h : (Tree.sub n ch rest).wf = true) :
    okName n ∧ rest.names.all (fun m => nameLe n m && decide (n ≠ m)) = true ∧
      ch.wf = true ∧ rest.wf = true := by
  simp only [Tree.wf, Bool.and_eq_true, decide_eq_true_eq] at h
  exact ⟨h.1.1.1, h.1.1.2, h.1.2, h.2⟩

theorem sortNames_wf (t : Tree) (h : t.wf = true) : sortNames t.names = t.names := by
  induction t with
  | nil => rfl
  | leaf n l rest ih =>
    obtain ⟨_, h2, h3⟩ := Tree.wf_rest_leaf h
    simp only [Tree.names, sortNames, List.foldr_cons]
    have := ih h3
    simp only [sortNames] at this
    rw [this, insertName_head n _ h2]
  | sub n ch rest _ ih =>
    obtain ⟨_, h2, _, h3⟩ := Tree.wf_rest_sub h
    simp only [Tree.names, sortNames, List.foldr_cons]
    have := ih h3
    simp only [sortNames] at this
    rw [this, insertName_head n _ h2]

theorem Tree.find_none_of_not_mem (t : Tree) (n : Name) (h : n ∉ t.names) : t.find n = none := by
  induction t with
  | nil => rfl
  | leaf m l rest ih =>
    simp only [Tree.names, List.mem_cons, not_or] at h
    have hmn : ¬ m = n := fun e => h.1 (Eq.symm e)
    simp [Tree.find, hmn, ih h.2]
  | sub m ch rest _ ih =>
    simp only [Tree.names, List.mem_cons, not_or] at h
    have hmn : ¬ m = n := fun e => h.1 (Eq.symm e)
    simp [Tree.find, hmn, ih h.2]

theorem Tree.not_mem_of_all (n : Name) (ms : List Name)
    (h : ms.all (fun m => nameLe n m && decide (n ≠ m)) = true) : n ∉ ms := by
  intro hm
  rw [List.all_eq_true] at h
  have := h n hm
  simp at this

theorem Tree.append_assoc (a b c : Tree) : (a.append b).append c = a.append (b.append c) := by
  induction a with
  | nil => rfl
  | leaf m l rest ih => simp [Tree.append, ih]
  | sub m ch rest _ ih => simp [Tree.append, ih]

theorem Tree.append_nil (a : Tree) : a.append Tree.nil = a := by
  induction a with
  | nil => rfl
  | leaf m l rest ih => simp [Tree.append, ih]
  | sub m ch rest _ ih => simp [Tree.append, ih]

theorem Tree.names_append (a b : Tree) : (a.append b).names = a.names ++ b.names := by
  induction a with
  | nil => rfl
  | leaf m l rest ih => simp [Tree.append, Tree.names, ih]
  | sub m ch rest _ ih => simp [Tree.append, Tree.names, ih]

theorem Tree.depth_find_le (t ch : Tree) (n : Name) (h : t.find n = some (Node.dir ch)) :
    ch.depth + 1 ≤ t.depth := by
  induction t with
  | nil => simp [Tree.find] at h
  | leaf m l rest ih =>
    simp only [Tree.find] at h
    split_ifs at h
    · simp at h
    · simp only [Tree.depth]
      exact ih h
  | sub m c rest _ ih =>
    simp only [Tree.find] at h
    simp only [Tree.depth]
    split_ifs at h
    · simp only [Option.some.injEq, Node.dir.injEq] at h
      subst h
      omega
    · have := ih h
      omega

theorem Tree.depth_lookup_le (p : List Name) :
    ∀ (t c : Tree), t.lookup p = some (Node.dir c) → c.depth ≤ t.depth := by
  induction p with
  | nil =>
    intro t c h
    simp only [Tree.lookup, Option.some.injEq, Node.dir.injEq] at h
    subst h
    omega
  | cons n p ih =>
    intro t c h
    simp only [Tree.lookup] at h
    cases hf : t.find n with
    | none => simp [hf] at h
    | some y =>
      cases y with
      | dir ch =>
        simp only [hf] at h
        have h1 := ih ch c h
        have h2 := Tree.depth_find_le t ch n hf
        omega
      | leaf l =>
        simp only [hf] at h
        split at h <;> simp at h
theorem Tree.shapeAt_dropLast_of_lookup (t : Tree) (p : List Name) (x : Node)
    (h : t.lookup p = some x) : t.shapeAt p.dropLast = some Shape.dir := by
  rcases List.eq_nil_or_concat p with rfl | ⟨q, n, rfl⟩
  · simp [Tree.shapeAt_nil]
  · rw [List.concat_eq_append] at h
    rw [List.concat_eq_append, List.dropLast_concat]
    obtain ⟨c, hc⟩ := Tree.lookup_prefix_dir q [n] (by simp) t x h
    exact (Tree.shapeAt_dir_iff _ _).2 ⟨c, hc⟩

theorem osLstat_abs (fs : FS) (comps : List Name) (x : Node) (hok : okNames comps)
    (hl : fs.root.lookup comps = some x) : osLstat fs (absPath comps) = Except.ok x := by
  have := resolve_abs_plain fs false comps hok
    (Tree.shapeAt_dropLast_of_lookup _ _ _ hl) (by simp)
  simp [osLstat, nodeAt, this, hl]

theorem osStat_abs (fs : FS) (comps : List Name) (x : Node) (hok : okNames comps)
    (hl : fs.root.lookup comps = some x) (hx : ∀ t, x ≠ Node.leaf (Leaf.link t)) :
    osStat fs (absPath comps) = Except.ok x := by
  have hs : fs.root.shapeAt comps = some x.shape := by simp [Tree.shapeAt, hl]
  have := resolve_abs_plain fs true comps hok
    (Tree.shapeAt_dropLast_of_lookup _ _ _ hl) (by
      intro _ t
      rw [hs]
      cases x with
      | dir c => simp [Node.shape]
      | leaf l =>
        cases l with
        | link t2 => exact absurd rfl (hx t2)
        | file c => simp [Node.shape, Leaf.shape]
        | special => simp [Node.shape, Leaf.shape])
  simp [osStat, nodeAt, this, hl]

theorem walk_leaf {σ : Type} (fs : FS) (fn : WalkFunc σ) (f : Nat) (path : Path) (l : Leaf)
    (s : σ) : walk fs fn (f + 1) path (Node.leaf l) s = fn path (some (Node.leaf l)) none s := by
  simp [walk]

theorem walk_dir {σ : Type} (fs : FS) (fn : WalkFunc σ) (f : Nat) (path : Path) (c : Tree)
    (s s1 : σ) (names : List Name) (hn : readDirNames fs path = Except.ok names)
    (hf : fn path (some (Node.dir c)) none s = (s1, none)) :
    walk fs fn (f + 1) path (Node.dir c) s
      = names.foldl (walkChild fs fn (walk fs fn f) path) (s1, none) := by
  simp [walk, hn, hf]

theorem createWalkFn_dir (fs : FS) (dirPath path name : Path) (arch : List Name) (c : Tree)
    (recs : List Record) (h : Rel (Dir dirPath) path = some name) :
    createWalkFn fs dirPath arch path (some (Node.dir c)) none recs
      = (recs ++ [(⟨name ++ ['/'], Kind.dir, []⟩, Content.raw [])], none) := by
  simp [createWalkFn, h]

theorem createWalkFn_link (fs : FS) (dirPath path name t : Path) (arch : List Name)
    (recs : List Record) (h : Rel (Dir dirPath) path = some name) :
    createWalkFn fs dirPath arch path (some (Node.leaf (Leaf.link t))) none recs
      = (recs ++ [(⟨name, Kind.symlink, linkFor fs path⟩, Content.raw [])], none) := by
  simp [createWalkFn, h]

theorem createWalkFn_special (fs : FS) (dirPath path : Path) (arch : List Name)
    (recs : List Record) :
    createWalkFn fs dirPath arch path (some (Node.leaf Leaf.special)) none recs
      = (recs, none) := by
  simp [createWalkFn]

theorem createWalkFn_file (fs : FS) (dirPath path name : Path) (arch phys : List Name)
    (c c0 : Content) (sh : Option Shape) (recs : List Record)
    (h : Rel (Dir dirPath) path = some name)
    (hr : resolve fs true path = Except.ok (phys, sh)) (hne : phys ≠ arch)
    (hl : fs.root.lookup phys = some (Node.leaf (Leaf.file c))) :
    createWalkFn fs dirPath arch path (some (Node.leaf (Leaf.file c0))) none recs
      = (recs ++ [(⟨name, Kind.regular, []⟩, c)], none) := by
  simp [createWalkFn, h, hr, hne, hl]

theorem readDirNames_abs (fs : FS) (path : Path) (D : Tree) (hwf : D.wf = true)
    (h : osStat fs path = Except.ok (Node.dir D)) :
    readDirNames fs path = Except.ok D.names := by
  simp [readDirNames, h, sortNames_wf D hwf]
theorem okNames_append {a b : List Name} (ha : okNames a) (hb : okNames b) : okNames (a ++ b) := by
  intro n hn
  rcases List.mem_append.1 hn with h | h
  · exact ha n h
  · exact hb n h

theorem okNames_left {a b : List Name} (h : okNames (a ++ b)) : okNames a :=
  fun n hn => h n (List.mem_append.2 (Or.inl hn))

theorem okNames_right {a b : List Name} (h : okNames (a ++ b)) : okNames b :=
  fun n hn => h n (List.mem_append.2 (Or.inr hn))

theorem Tree.find_append_single (pre : Tree) (n : Name) (x : Node) (rest : Tree)
    (h : pre.find n = none) : (pre.append ((Tree.single n x).append rest)).find n = some x := by
  rw [Tree.find_append, h]
  simp only
  rw [Tree.find_append, Tree.find_single]
  simp

theorem walk_children (fs : FS) (dirPath : Path) (arch bc : List Name)
    (hDir : Dir dirPath = absPath bc) :
    ∀ (S : Tree) (r : List Name) (path : Path) (D pre : Tree) (fuel : Nat) (recs : List Record),
      okNames (bc ++ r) →
      (∀ n, okName n → Join path n = absPath (bc ++ (r ++ [n]))) →
      fs.root.lookup (bc ++ r) = some (Node.dir D) →
      D = pre.append S →
      (∀ m ∈ S.names, pre.find m = none) →
      S.wf = true → S.depth < fuel →
      ¬ (bc ++ r) <+: arch →
      S.names.foldl
          (walkChild fs (createWalkFn fs dirPath arch)
            (walk fs (createWalkFn fs dirPath arch) fuel) path) (recs, none)
        = (recs ++ treeRecs (fun q => linkFor fs (absPath (bc ++ q))) r S, none) := by
  intro S
  induction S with
  | nil => intro r path D pre fuel recs _ _ _ _ _ _ _ _; simp [Tree.names, treeRecs]
  | leaf n l rest ih =>
    intro r path D pre fuel recs hok hJ hD hpre hdis hwf hfuel harch
    obtain ⟨hn, hall, hwfr⟩ := Tree.wf_rest_leaf hwf
    obtain ⟨f, rfl⟩ : ∃ f, fuel = f + 1 := ⟨fuel - 1, by omega⟩
    have hbc : okNames bc := okNames_left hok
    have hrn : okNames (r ++ [n]) := okNames_append (okNames_right hok) (okNames_single n hn)
    have hokn : okNames (bc ++ (r ++ [n])) := okNames_append hbc hrn
    have hfind : D.find n = some (Node.leaf l) := by
      rw [hpre]
      exact Tree.find_append_single pre n (Node.leaf l) rest (hdis n (by simp [Tree.names]))
    have hlk : fs.root.lookup (bc ++ (r ++ [n])) = some (Node.leaf l) := by
      rw [← List.append_assoc, Tree.lookup_append _ _ _ _ hD]
      simp [Tree.lookup, hfind]
    have hrel : Rel (Dir dirPath) (absPath (bc ++ (r ++ [n]))) = some (joinSep (r ++ [n])) := by
      rw [hDir]
      exact Rel_absPath_under bc (r ++ [n]) hbc hrn (by simp)
    have hstep : walkChild fs (createWalkFn fs dirPath arch)
        (walk fs (createWalkFn fs dirPath arch) (f + 1)) path (recs, none) n
        = (recs ++ treeRecs (fun q => linkFor fs (absPath (bc ++ q))) r
            (Tree.leaf n l Tree.nil), none) := by
      simp only [walkChild, hJ n hn, osLstat_abs fs _ _ hokn hlk, walk_leaf]
      cases l with
      | file c =>
        have hres := resolve_abs_plain fs true (bc ++ (r ++ [n])) hokn
          (Tree.shapeAt_dropLast_of_lookup _ _ _ hlk)
          (by intro _ t; simp [Tree.shapeAt, hlk, Node.shape, Leaf.shape])
        have hne : bc ++ (r ++ [n]) ≠ arch := by
          intro e
          apply harch
          rw [← e, ← List.append_assoc]
          exact List.prefix_append _ _
        rw [createWalkFn_file fs dirPath _ _ arch _ c c _ recs hrel hres hne hlk]
        simp [treeRecs]
      | link t =>
        rw [createWalkFn_link fs dirPath _ _ t arch recs hrel]
        simp [treeRecs]
      | special =>
        rw [createWalkFn_special]
        simp [treeRecs]
    have hpre2 : D = (pre.append (Tree.leaf n l Tree.nil)).append rest := by
      rw [hpre, Tree.append_assoc]
      rfl
    have hdis2 : ∀ m ∈ rest.names, (pre.append (Tree.leaf n l Tree.nil)).find m = none := by
      intro m hm
      have hnm : ¬ n = m := by
        intro e
        subst e
        exact Tree.not_mem_of_all n _ hall hm
      rw [Tree.find_append, hdis m (by simp [Tree.names, hm])]
      simp [Tree.find, hnm]
    have hfr : rest.depth < f + 1 := by simpa [Tree.depth] using hfuel
    simp only [Tree.names, List.foldl_cons, hstep]
    rw [ih r path D _ (f + 1) _ hok hJ hD hpre2 hdis2 hwfr hfr harch]
    cases l <;> simp [treeRecs]
  | sub n ch rest ihc ihr =>
    intro r path D pre fuel recs hok hJ hD hpre hdis hwf hfuel harch
    obtain ⟨hn, hall, hwfc, hwfr⟩ := Tree.wf_rest_sub hwf
    obtain ⟨f, rfl⟩ : ∃ f, fuel = f + 1 := ⟨fuel - 1, by omega⟩
    have hbc : okNames bc := okNames_left hok
    have hrn : okNames (r ++ [n]) := okNames_append (okNames_right hok) (okNames_single n hn)
    have hokn : okNames (bc ++ (r ++ [n])) := okNames_append hbc hrn
    have hfind : D.find n = some (Node.dir ch) := by
      rw [hpre]
      exact Tree.find_append_single pre n (Node.dir ch) rest (hdis n (by simp [Tree.names]))
    have hlk : fs.root.lookup (bc ++ (r ++ [n])) = some (Node.dir ch) := by
      rw [← List.append_assoc, Tree.lookup_append _ _ _ _ hD]
      simp [Tree.lookup, hfind]
    have hrel : Rel (Dir dirPath) (absPath (bc ++ (r ++ [n]))) = some (joinSep (r ++ [n])) := by
      rw [hDir]
      exact Rel_absPath_under bc (r ++ [n]) hbc hrn (by simp)
    have hdepth : ch.depth < f ∧ rest.depth < f + 1 := by
      simp only [Tree.depth] at hfuel
      omega
    obtain ⟨g, rfl⟩ : ∃ g, f = g + 1 := ⟨f - 1, by omega⟩
    have hstat : osStat fs (absPath (bc ++ (r ++ [n]))) = Except.ok (Node.dir ch) :=
      osStat_abs fs _ _ hokn hlk (by simp)
    have hJ2 : ∀ m, okName m →
        Join (absPath (bc ++ (r ++ [n]))) m = absPath (bc ++ ((r ++ [n]) ++ [m])) := by
      intro m hm
      rw [Join_absPath_name _ m hokn hm]
      simp
    have harch2 : ¬ (bc ++ (r ++ [n])) <+: arch := by
      intro hp
      apply harch
      exact List.IsPrefix.trans ⟨[n], by simp⟩ hp
    have hstep : walkChild fs (createWalkFn fs dirPath arch)
        (walk fs (createWalkFn fs dirPath arch) (g + 1 + 1)) path (recs, none) n
        = (recs ++ treeRecs (fun q => linkFor fs (absPath (bc ++ q))) r
            (Tree.sub n ch Tree.nil), none) := by
      simp only [walkChild, hJ n hn, osLstat_abs fs _ _ hokn hlk]
      rw [walk_dir fs _ (g + 1) _ ch recs _ ch.names (readDirNames_abs fs _ ch hwfc hstat)
        (createWalkFn_dir fs dirPath _ _ arch ch recs hrel)]
      rw [ihc (r ++ [n]) _ ch Tree.nil (g + 1) _ hokn hJ2 hlk rfl (by simp [Tree.find]) hwfc
        hdepth.1 harch2]
      simp [treeRecs]
    have hpre2 : D = (pre.append (Tree.sub n ch Tree.nil)).append rest := by
      rw [hpre, Tree.append_assoc]
      rfl
    have hdis2 : ∀ m ∈ rest.names, (pre.append (Tree.sub n ch Tree.nil)).find m = none := by
      intro m hm
      have hnm : ¬ n = m := by
        intro e
        subst e
        exact Tree.not_mem_of_all n _ hall hm
      rw [Tree.find_append, hdis m (by simp [Tree.names, hm])]
      simp [Tree.find, hnm]
    simp only [Tree.names, List.foldl_cons, hstep]
    rw [ihr r path D _ (g + 1 + 1) _ hok hJ hD hpre2 hdis2 hwfr hdepth.2 harch]
    simp [treeRecs]
theorem Tree.lookup_modifyAt_off (f : Tree → Tree) (q : List Name) :
    ∀ (t : Tree) (p : List Name), ¬ q <+: p → ¬ p <+: q →
      (t.modifyAt q f).lookup p = t.lookup p := by
  induction q with
  | nil => intro t p h _; exact absurd (List.nil_prefix) h
  | cons n q ih =>
    intro t p h h2
    cases p with
    | nil => exact absurd (List.nil_prefix) h2
    | cons m p =>
      simp only [Tree.lookup, Tree.modifyAt, Tree.find_modify]
      by_cases hnm : n = m
      · subst hnm
        have hq : ¬ q <+: p := by
          intro hp
          apply h
          obtain ⟨s, hs⟩ := hp
          exact ⟨s, by simp [← hs]⟩
        have hq2 : ¬ p <+: q := by
          intro hp
          apply h2
          obtain ⟨s, hs⟩ := hp
          exact ⟨s, by simp [← hs]⟩
        simp only [if_true]
        cases hf : t.find n with
        | none => simp
        | some y =>
          cases y with
          | dir ch =>
            simp only
            exact ih ch p hq hq2
          | leaf l => simp
      · simp [hnm]

theorem Tree.lookup_putAt_off (x : Node) (n : Name) (p0 : List Name) (t c : Tree)
    (hp0 : t.lookup p0 = some (Node.dir c)) (q : List Name)
    (h1 : ¬ q <+: (p0 ++ [n])) (h2 : ¬ (p0 ++ [n]) <+: q) :
    (Tree.putAt (p0 ++ [n]) x t).lookup q = t.lookup q := by
  rw [Tree.putAt_snoc]
  by_cases hp : p0 <+: q
  · obtain ⟨s, rfl⟩ := hp
    rw [Tree.lookup_modifyAt _ _ _ _ _ hp0, Tree.lookup_append _ _ _ _ hp0]
    cases s with
    | nil =>
      exfalso
      apply h1
      simp
    | cons m s =>
      have hnm : ¬ n = m := by
        intro e
        subst e
        exact h2 ⟨s, by simp⟩
      simp [Tree.lookup, Tree.find_put, hnm]
  · refine Tree.lookup_modifyAt_off _ _ _ _ hp ?_
    intro hq
    exact h1 (List.IsPrefix.trans hq (List.prefix_append _ _))

theorem osCreate_frame (fs fs1 : FS) (a : Path) (arch dc : List Name) (T : Tree)
    (hO : osCreate fs a = Except.ok (fs1, arch))
    (hT : fs.root.lookup dc = some (Node.dir T)) (hout : ¬ dc <+: arch) :
    fs1.root.lookup dc = some (Node.dir T) := by
  obtain ⟨_, _, hfs1, hres⟩ := osCreate_ok fs fs1 a arch hO
  have hsh : fs.root.shapeAt arch = none ∨ fs.root.shapeAt arch = some Shape.file := by
    rcases hres with h | h
    · exact Or.inl (resolve_sound fs true a arch _ h).1
    · exact Or.inr (resolve_sound fs true a arch _ h).1
  have hpar : ∃ p0 n c, arch = p0 ++ [n] ∧ fs.root.lookup p0 = some (Node.dir c) := by
    rcases hres with h | h
    · exact (resolve_sound fs true a arch _ h).2 rfl
    · exact Tree.parent_of_leaf _ arch _ (resolve_sound fs true a arch _ h).1 (by simp)
  obtain ⟨p0, n, c, rfl, hp0⟩ := hpar
  have hnot : ¬ (p0 ++ [n]) <+: dc := by
    rintro ⟨s, hs⟩
    by_cases hs0 : s = []
    · subst hs0
      apply hout
      rw [← hs]
      simp
    · have hd : fs.root.shapeAt ((p0 ++ [n]) ++ s) = some Shape.dir := by
        rw [hs]
        exact (Tree.shapeAt_dir_iff _ _).2 ⟨T, hT⟩
      have := Tree.shapeAt_prefix_dir _ _ s _ hd hs0
      rcases hsh with e | e <;> simp [e] at this
  rw [hfs1]
  simp only [FS.put]
  rw [Tree.lookup_putAt_off _ n p0 _ c hp0 dc hout hnot]
  exact hT

theorem Walk_plain (fs : FS) (arch bc : List Name) (b : Name) (T : Tree)
    (hok : okNames (bc ++ [b])) (hT : fs.root.lookup (bc ++ [b]) = some (Node.dir T))
    (hwf : T.wf = true) (hout : ¬ (bc ++ [b]) <+: arch) :
    Walk fs (createWalkFn fs (absPath (bc ++ [b])) arch) (absPath (bc ++ [b])) []
      = ((⟨b ++ ['/'], Kind.dir, []⟩, Content.raw []) ::
          treeRecs (fun q => linkFor fs (absPath (bc ++ q))) [b] T, none) := by
  have hbc : okNames bc := okNames_left hok
  have hb : okName b := hok b (by simp)
  have hDir : Dir (absPath (bc ++ [b])) = absPath bc := Dir_absPath_snoc bc b hbc hb
  have hrel : Rel (Dir (absPath (bc ++ [b]))) (absPath (bc ++ [b])) = some b := by
    rw [hDir]
    have := Rel_absPath_under bc [b] hbc (okNames_single b hb) (by simp)
    simpa [joinSep] using this
  have hstat : osStat fs (absPath (bc ++ [b])) = Except.ok (Node.dir T) :=
    osStat_abs fs _ _ hok hT (by simp)
  have hJ : ∀ n, okName n → Join (absPath (bc ++ [b])) n = absPath (bc ++ ([b] ++ [n])) := by
    intro n hn
    rw [Join_absPath_name _ n hok hn]
    simp
  have hdepth : T.depth < fs.root.depth + 1 := by
    have := Tree.depth_lookup_le _ _ _ hT
    omega
  unfold Walk
  rw [osLstat_abs fs _ _ hok hT]
  simp only
  rw [walk_dir fs _ _ _ T [] _ T.names (readDirNames_abs fs _ T hwf hstat)
    (createWalkFn_dir fs _ _ _ arch T [] hrel)]
  rw [walk_children fs _ arch bc hDir T [b] _ T Tree.nil _ _ hok hJ hT rfl
    (by simp [Tree.find]) hwf hdepth hout]
  simp

theorem Walk_slash (fs : FS) (arch dc : List Name) (T : Tree)
    (hok : okNames dc) (hne : dc ≠ []) (hT : fs.root.lookup dc = some (Node.dir T))
    (hwf : T.wf = true) (hout : ¬ dc <+: arch) :
    Walk fs (createWalkFn fs (absPath dc ++ ['/']) arch) (absPath dc ++ ['/']) []
      = ((⟨dot ++ ['/'], Kind.dir, []⟩, Content.raw []) ::
          treeRecs (fun q => linkFor fs (absPath (dc ++ q))) [] T, none) := by
  have hDir : Dir (absPath dc ++ ['/']) = absPath dc := Dir_absPath_slash dc hok
  have hrel : Rel (Dir (absPath dc ++ ['/'])) (absPath dc ++ ['/']) = some dot := by
    rw [hDir]
    exact Rel_same _ _ (by rw [Clean_absPath_slash dc hok, Clean_absPath dc hok])
  have hsd : fs.root.shapeAt dc = some Shape.dir := (Tree.shapeAt_dir_iff _ _).2 ⟨T, hT⟩
  have hres : ∀ follow, resolve fs follow (absPath dc ++ ['/']) = Except.ok (dc, some Shape.dir) :=
    fun follow => resolve_abs_slash fs follow dc hne hok hsd
  have hstat : osStat fs (absPath dc ++ ['/']) = Except.ok (Node.dir T) := by
    simp [osStat, nodeAt, hres true, hT]
  have hlstat : osLstat fs (absPath dc ++ ['/']) = Except.ok (Node.dir T) := by
    simp [osLstat, nodeAt, hres false, hT]
  have hJ : ∀ n, okName n → Join (absPath dc ++ ['/']) n = absPath (dc ++ ([] ++ [n])) := by
    intro n hn
    rw [Join, if_pos (by simp [absPath]),
      Clean_plain_rooted _ (plainPath_append_sep _ _ (plainPath_slash dc hok)
        (plainPath_single n hn)) rfl,
      elems_append_sep, elems_append_sep, elems_absPath dc hok, elems_nil, elems_single n hn]
    simp
  have hdepth : T.depth < fs.root.depth + 1 := by
    have := Tree.depth_lookup_le _ _ _ hT
    omega
  unfold Walk
  rw [hlstat]
  simp only
  rw [walk_dir fs _ _ _ T [] _ T.names (readDirNames_abs fs _ T hwf hstat)
    (createWalkFn_dir fs _ _ _ arch T [] hrel)]
  rw [walk_children fs _ arch dc hDir T [] _ T Tree.nil _ _ (by simpa using hok) hJ
    (by simpa using hT) rfl (by simp [Tree.find]) hwf hdepth (by simpa using hout)]
  simp

/-! ### What `Create` writes for a plain source path -/

theorem Create_plain (fs fs1 : FS) (a : Path) (arch bc : List Name) (b : Name) (T : Tree)
    (hok : okNames (bc ++ [b])) (hT : fs.root.lookup (bc ++ [b]) = some (Node.dir T))
    (hwf : T.wf = true) (hO : osCreate fs a = Except.ok (fs1, arch))
    (hout : ¬ (bc ++ [b]) <+: arch) :
    Create fs a (absPath (bc ++ [b]))
      = (fs1.write arch (Content.tar ((⟨b ++ ['/'], Kind.dir, []⟩, Content.raw []) ::
          treeRecs (fun q => linkFor fs1 (absPath (bc ++ q))) [b] T) true), none) := by
  unfold Create
  rw [osStat_abs fs _ _ hok hT (by simp)]
  simp only [hO]
  rw [Walk_plain fs1 arch bc b T hok (osCreate_frame fs fs1 a arch _ T hO hT hout) hwf hout]

theorem Create_slash (fs fs1 : FS) (a : Path) (arch dc : List Name) (T : Tree)
    (hok : okNames dc) (hne : dc ≠ []) (hT : fs.root.lookup dc = some (Node.dir T))
    (hwf : T.wf = true) (hO : osCreate fs a = Except.ok (fs1, arch))
    (hout : ¬ dc <+: arch) :
    Create fs a (absPath dc ++ ['/'])
      = (fs1.write arch (Content.tar ((⟨dot ++ ['/'], Kind.dir, []⟩, Content.raw []) ::
          treeRecs (fun q => linkFor fs1 (absPath (dc ++ q))) [] T) true), none) := by
  have hsd : fs.root.shapeAt dc = some Shape.dir := (Tree.shapeAt_dir_iff _ _).2 ⟨T, hT⟩
  have hstat : osStat fs (absPath dc ++ ['/']) = Except.ok (Node.dir T) := by
    simp [osStat, nodeAt, resolve_abs_slash fs true dc hne hok hsd, hT]
  unfold Create
  rw [hstat]
  simp only [hO]
  rw [Walk_slash fs1 arch dc T hok hne (osCreate_frame fs fs1 a arch _ T hO hT hout) hwf hout]

theorem treeRecs_names (lk : List Name → Path) :
    ∀ (T : Tree) (r : List Name) (rec : Record), T.wf = true → rec ∈ treeRecs lk r T →
      ∃ q, q ≠ [] ∧ okNames q ∧ (∃ n ∈ T.names, q.head? = some n) ∧
        ((rec.1.Typ = Kind.dir ∧ rec.1.Name = joinSep (r ++ q) ++ ['/']) ∨
          (rec.1.Typ ≠ Kind.dir ∧ rec.1.Name = joinSep (r ++ q))) := by
  intro T
  induction T with
  | nil => intro r rec _ h; simp [treeRecs] at h
  | leaf n l rest ih =>
    intro r rec hwf h
    obtain ⟨hn, _, hwfr⟩ := Tree.wf_rest_leaf hwf
    have hrest : rec ∈ treeRecs lk r rest →
        ∃ q, q ≠ [] ∧ okNames q ∧ (∃ m ∈ (Tree.leaf n l rest).names, q.head? = some m) ∧
        ((rec.1.Typ = Kind.dir ∧ rec.1.Name = joinSep (r ++ q) ++ ['/']) ∨
          (rec.1.Typ ≠ Kind.dir ∧ rec.1.Name = joinSep (r ++ q))) := by
      intro h2
      obtain ⟨q, h1, h2, ⟨m, hm, hh⟩, h4⟩ := ih r rec hwfr h2
      exact ⟨q, h1, h2, ⟨m, by simp [Tree.names, hm], hh⟩, h4⟩
    have hhead : ∀ (k : Kind) (lnk : Path) (c : Content), k ≠ Kind.dir →
        rec = (⟨joinSep (r ++ [n]), k, lnk⟩, c) →
        ∃ q, q ≠ [] ∧ okNames q ∧ (∃ m ∈ (Tree.leaf n l rest).names, q.head? = some m) ∧
        ((rec.1.Typ = Kind.dir ∧ rec.1.Name = joinSep (r ++ q) ++ ['/']) ∨
          (rec.1.Typ ≠ Kind.dir ∧ rec.1.Name = joinSep (r ++ q))) := by
      intro k lnk c hk e
      subst e
      exact ⟨[n], by simp, okNames_single n hn, ⟨n, by simp [Tree.names], rfl⟩,
        Or.inr ⟨hk, rfl⟩⟩
    cases l with
    | file c =>
      simp only [treeRecs, List.mem_cons] at h
      rcases h with h | h
      · exact hhead _ _ _ (by simp) h
      · exact hrest h
    | link t =>
      simp only [treeRecs, List.mem_cons] at h
      rcases h with h | h
      · exact hhead _ _ _ (by simp) h
      · exact hrest h
    | special =>
      simp only [treeRecs] at h
      exact hrest h
  | sub n ch rest ihc ihr =>
    intro r rec hwf h
    obtain ⟨hn, _, hwfc, hwfr⟩ := Tree.wf_rest_sub hwf
    simp only [treeRecs, List.mem_cons, List.mem_append] at h
    rcases h with h | h | h
    · subst h
      exact ⟨[n], by simp, okNames_single n hn, ⟨n, by simp [Tree.names], rfl⟩,
        Or.inl ⟨rfl, rfl⟩⟩
    · obtain ⟨q, _, h2, _, h4⟩ := ihc (r ++ [n]) rec hwfc h
      refine ⟨n :: q, by simp, ?_, ⟨n, by simp [Tree.names], rfl⟩, ?_⟩
      · intro m hm
        rcases List.mem_cons.1 hm with e | e
        · subst e
          exact hn
        · exact h2 m e
      · simpa using h4
    · obtain ⟨q, h1, h2, ⟨m, hm, hh⟩, h4⟩ := ihr r rec hwfr h
      exact ⟨q, h1, h2, ⟨m, by simp [Tree.names, hm], hh⟩, h4⟩

theorem treeRecs_top (lk : List Name → Path) :
    ∀ (T : Tree) (nm : Path), nm ∈ T.topNames →
      ∃ rec ∈ treeRecs lk [] T, rec.1.Name = nm := by
  intro T
  induction T with
  | nil => intro nm h; simp [Tree.topNames] at h
  | leaf n l rest ih =>
    intro nm h
    cases l with
    | file c =>
      simp only [Tree.topNames, List.mem_cons] at h
      rcases h with h | h
      · subst h
        exact ⟨(⟨joinSep ([] ++ [nm]), Kind.regular, []⟩, c), by simp [treeRecs],
          by simp [joinSep]⟩
      · obtain ⟨rec, h1, h2⟩ := ih nm h
        exact ⟨rec, by simp [treeRecs, h1], h2⟩
    | link t =>
      simp only [Tree.topNames, List.mem_cons] at h
      rcases h with h | h
      · subst h
        exact ⟨(⟨joinSep ([] ++ [nm]), Kind.symlink, lk ([] ++ [nm])⟩, Content.raw []),
          by simp [treeRecs], by simp [joinSep]⟩
      · obtain ⟨rec, h1, h2⟩ := ih nm h
        exact ⟨rec, by simp [treeRecs, h1], h2⟩
    | special =>
      simp only [Tree.topNames] at h
      obtain ⟨rec, h1, h2⟩ := ih nm h
      exact ⟨rec, by simp [treeRecs, h1], h2⟩
  | sub n ch rest _ ih =>
    intro nm h
    simp only [Tree.topNames, List.mem_cons] at h
    rcases h with h | h
    · subst h
      exact ⟨(⟨joinSep ([] ++ [n]) ++ ['/'], Kind.dir, []⟩, Content.raw []),
        by simp [treeRecs], by simp [joinSep]⟩
    · obtain ⟨rec, h1, h2⟩ := ih nm h
      exact ⟨rec, by simp [treeRecs, h1], h2⟩
theorem joinSep_cons_ne (w : Name) (q : List Name) (hq : q ≠ []) :
    joinSep (w :: q) = w ++ '/' :: joinSep q := by
  cases q with
  | nil => exact absurd rfl hq
  | cons v vs => exact joinSep_cons_cons w v vs

theorem isRooted_joinSep (q : List Name) (hq : q ≠ []) (hok : okNames q) :
    isRooted (joinSep q) = false := by
  cases q with
  | nil => exact absurd rfl hq
  | cons w ws =>
    obtain ⟨h1, h2, _, _⟩ := hok w (by simp)
    have hw : isRooted w = false := by
      cases w with
      | nil => exact absurd rfl h1
      | cons c cs =>
        have hc : c ≠ '/' := fun e => h2 (by simp [e])
        unfold isRooted
        split
        · rename_i heq
          simp only [List.cons.injEq] at heq
          exact absurd heq.1 hc
        · rfl
    have hstart : ∀ x : Path, isRooted (w ++ x) = false := by
      intro x
      cases w with
      | nil => exact absurd rfl h1
      | cons c cs =>
        have hc : c ≠ '/' := fun e => h2 (by simp [e])
        unfold isRooted
        split
        · rename_i heq
          simp only [List.cons_append, List.cons.injEq] at heq
          exact absurd heq.1 hc
        · rfl
    by_cases hws : ws = []
    · subst hws
      simpa [joinSep] using hw
    · rw [joinSep_cons_ne w ws hws]
      exact hstart _

theorem joinSep_ne_nil (q : List Name) (hq : q ≠ []) (hok : okNames q) : joinSep q ≠ [] := by
  cases q with
  | nil => exact absurd rfl hq
  | cons w ws =>
    have h1 := (hok w (by simp)).1
    by_cases hws : ws = []
    · subst hws
      simpa [joinSep] using h1
    · rw [joinSep_cons_ne w ws hws]
      simp

theorem getLast?_joinSep (q : List Name) (hq : q ≠ []) (hok : okNames q) :
    (joinSep q).getLast? ≠ some '/' := by
  have := getLast?_absPath q hq hok
  have hne := joinSep_ne_nil q hq hok
  rw [absPath] at this
  cases hj : joinSep q with
  | nil => exact absurd hj hne
  | cons c cs =>
    rw [hj, List.getLast?_cons_cons] at this
    exact this

theorem wellNamed_plain (q : List Name) (hq : q ≠ []) (hok : okNames q) (k : Kind)
    (hk : k ≠ Kind.dir) (lnk : Path) : (⟨joinSep q, k, lnk⟩ : Header).wellNamed := by
  refine ⟨isRooted_joinSep q hq hok, ?_, ?_⟩
  · simp only
    rw [splitSep_joinSep q hq (fun c hc => (hok c hc).2.1)]
    intro h
    exact (hok _ h).2.2.2 rfl
  · simp only
    constructor
    · intro h
      exact absurd h (getLast?_joinSep q hq hok)
    · intro h
      exact absurd h hk

theorem wellNamed_dir (q : List Name) (hq : q ≠ []) (hok : okNames q) (lnk : Path) :
    (⟨joinSep q ++ ['/'], Kind.dir, lnk⟩ : Header).wellNamed := by
  refine ⟨?_, ?_, ?_⟩
  · simp only
    have := isRooted_joinSep q hq hok
    cases hj : joinSep q with
    | nil => exact absurd hj (joinSep_ne_nil q hq hok)
    | cons c cs =>
      rw [hj] at this
      simp only [List.cons_append]
      unfold isRooted at this ⊢
      split at this
      · simp at this
      · rename_i hne
        split
        · rename_i heq
          simp only [List.cons.injEq] at heq
          exact absurd (by rw [heq.1]) (hne cs)
        · rfl
  · simp only
    have : joinSep q ++ ['/'] = joinSep q ++ '/' :: [] := rfl
    rw [this, splitSep_append_sep, splitSep_joinSep q hq (fun c hc => (hok c hc).2.1)]
    intro h
    rcases List.mem_append.1 h with h | h
    · exact (hok _ h).2.2.2 rfl
    · simp [splitSep, dotdot] at h
  · simp

theorem treeRecs_wellNamed (lk : List Name → Path) (T : Tree) (r : List Name) (rec : Record)
    (hwf : T.wf = true) (hr : okNames r) (h : rec ∈ treeRecs lk r T) : rec.1.wellNamed := by
  obtain ⟨q, hq, hokq, _, hform⟩ := treeRecs_names lk T r rec hwf h
  have hrq : okNames (r ++ q) := okNames_append hr hokq
  have hne : r ++ q ≠ [] := by simp [hq]
  obtain ⟨hdr, pl⟩ := rec
  obtain ⟨nm, k, lnk⟩ := hdr
  rcases hform with ⟨h1, h2⟩ | ⟨h1, h2⟩
  · simp only at h1 h2
    subst h1
    subst h2
    exact wellNamed_dir (r ++ q) hne hrq lnk
  · simp only at h1 h2
    subst h2
    exact wellNamed_plain (r ++ q) hne hrq k h1 lnk
/-- C2, amended: for a real directory given by a clean absolute path, whose
entries are stored in the order `readDirNames` lists them, and an archive
outside it: with a trailing separator the stream starts with the directory
record `./`, which stands for the directory itself, every further record
name starts with the name of a direct child, and every direct child that is
a file, a link or a directory has its top-level record; without a trailing
separator the stream starts with the directory record `y/` and every
further record name begins with `y/`. -/
theorem Create_trailing_separator (fs fs1 : FS) (a : Path) (arch bc : List Name) (b : Name)
    (T : Tree) (hok : okNames (bc ++ [b]))
    (hT : fs.root.lookup (bc ++ [b]) = some (Node.dir T)) (hwf : T.wf = true)
    (hO : osCreate fs a = Except.ok (fs1, arch)) (hout : ¬ (bc ++ [b]) <+: arch) :
    (∃ recs, Create fs a (absPath (bc ++ [b]) ++ ['/'])
        = (fs1.write arch (Content.tar
            ((⟨['.', '/'], Kind.dir, []⟩, Content.raw []) :: recs) true), none) ∧
      (∀ rec ∈ recs, ∃ n ∈ T.names, (elems rec.1.Name).head? = some n) ∧
      (∀ nm ∈ T.topNames, ∃ rec ∈ recs, rec.1.Name = nm)) ∧
    (∃ recs, Create fs a (absPath (bc ++ [b]))
        = (fs1.write arch (Content.tar
            ((⟨b ++ ['/'], Kind.dir, []⟩, Content.raw []) :: recs) true), none) ∧
      ∀ rec ∈ recs, (b ++ ['/']) <+: rec.1.Name) := by
  constructor
  · refine ⟨_, Create_slash fs fs1 a arch (bc ++ [b]) T hok (by simp) hT hwf hO hout, ?_, ?_⟩
    · intro rec hrec
      obtain ⟨q, hq, hokq, ⟨n, hn, hh⟩, hform⟩ := treeRecs_names _ T [] rec hwf hrec
      refine ⟨n, hn, ?_⟩
      rcases hform with ⟨_, h2⟩ | ⟨_, h2⟩
      · have : joinSep ([] ++ q) ++ ['/'] = joinSep q ++ '/' :: [] := rfl
        rw [h2, this, elems_append_sep, elems_joinSep q hokq, elems_nil]
        simpa using hh
      · rw [h2]
        simp only [List.nil_append]
        rw [elems_joinSep q hokq]
        exact hh
    · intro nm hnm
      exact treeRecs_top _ T nm hnm
  · refine ⟨_, Create_plain fs fs1 a arch bc b T hok hT hwf hO hout, ?_⟩
    intro rec hrec
    obtain ⟨q, hq, _, _, hform⟩ := treeRecs_names _ T [b] rec hwf hrec
    have hj : joinSep ([b] ++ q) = b ++ '/' :: joinSep q := joinSep_cons_ne b q hq
    rcases hform with ⟨_, h2⟩ | ⟨_, h2⟩
    · rw [h2, hj]
      exact ⟨joinSep q ++ ['/'], by simp⟩
    · rw [h2, hj]
      exact ⟨joinSep q, by simp⟩

set_option maxRecDepth 100000 in
/-- C2, amended, at the directory `/x/y` and the archive `/a.tar`. -/
theorem Create_trailing_separator_witness :
    (∃ recs, Create exFS "/a.tar".toList (absPath (["x".toList] ++ ["y".toList]) ++ ['/'])
        = ((exFS.put ["a.tar".toList] (Node.leaf (Leaf.file (Content.raw [])))).write
            ["a.tar".toList] (Content.tar
              ((⟨['.', '/'], Kind.dir, []⟩, Content.raw []) :: recs) true), none) ∧
      (∀ rec ∈ recs, ∃ n ∈ exY.names, (elems rec.1.Name).head? = some n) ∧
      (∀ nm ∈ exY.topNames, ∃ rec ∈ recs, rec.1.Name = nm)) ∧
    (∃ recs, Create exFS "/a.tar".toList (absPath (["x".toList] ++ ["y".toList]))
        = ((exFS.put ["a.tar".toList] (Node.leaf (Leaf.file (Content.raw [])))).write
            ["a.tar".toList] (Content.tar
              ((⟨"y".toList ++ ['/'], Kind.dir, []⟩, Content.raw []) :: recs) true), none) ∧
      ∀ rec ∈ recs, ("y".toList ++ ['/']) <+: rec.1.Name) :=
  Create_trailing_separator exFS
    (exFS.put ["a.tar".toList] (Node.leaf (Leaf.file (Content.raw []))))
    "/a.tar".toList ["a.tar".toList] ["x".toList] "y".toList exY (by decide) rfl (by decide)
    rfl (by decide)

/-- C8, amended: for a real directory given by a clean absolute path, with
or without a trailing separator, whose entries are stored in the order
`readDirNames` lists them, and an archive outside it: every header name
`Create` writes is relative, has no element `..`, and ends with a
separator exactly when the record is a directory. -/
theorem Create_entry_names (fs fs1 : FS) (a : Path) (arch bc : List Name) (b : Name)
    (T : Tree) (hok : okNames (bc ++ [b]))
    (hT : fs.root.lookup (bc ++ [b]) = some (Node.dir T)) (hwf : T.wf = true)
    (hO : osCreate fs a = Except.ok (fs1, arch)) (hout : ¬ (bc ++ [b]) <+: arch) :
    (∃ recs, Create fs a (absPath (bc ++ [b]))
        = (fs1.write arch (Content.tar recs true), none) ∧
      ∀ rec ∈ recs, rec.1.wellNamed) ∧
    (∃ recs, Create fs a (absPath (bc ++ [b]) ++ ['/'])
        = (fs1.write arch (Content.tar recs true), none) ∧
      ∀ rec ∈ recs, rec.1.wellNamed) := by
  have hb : okName b := hok b (by simp)
  constructor
  · refine ⟨_, Create_plain fs fs1 a arch bc b T hok hT hwf hO hout, ?_⟩
    intro rec hrec
    rcases List.mem_cons.1 hrec with h | h
    · subst h
      have := wellNamed_dir [b] (by simp) (okNames_single b hb) []
      simpa [joinSep] using this
    · exact treeRecs_wellNamed _ T [b] rec hwf (okNames_single b hb) h
  · refine ⟨_, Create_slash fs fs1 a arch (bc ++ [b]) T hok (by simp) hT hwf hO hout, ?_⟩
    intro rec hrec
    rcases List.mem_cons.1 hrec with h | h
    · subst h
      refine ⟨rfl, by decide, ?_⟩
      simp [dot]
    · exact treeRecs_wellNamed _ T [] rec hwf (by intro n hn; simp at hn) h

set_option maxRecDepth 100000 in
/-- C8, amended, at the directory `/x/y` and the archive `/a.tar`. -/
theorem Create_entry_names_witness :
    (∃ recs, Create exFS "/a.tar".toList (absPath (["x".toList] ++ ["y".toList]))
        = ((exFS.put ["a.tar".toList] (Node.leaf (Leaf.file (Content.raw [])))).write
            ["a.tar".toList] (Content.tar recs true), none) ∧
      ∀ rec ∈ recs, rec.1.wellNamed) ∧
    (∃ recs, Create exFS "/a.tar".toList (absPath (["x".toList] ++ ["y".toList]) ++ ['/'])
        = ((exFS.put ["a.tar".toList] (Node.leaf (Leaf.file (Content.raw [])))).write
            ["a.tar".toList] (Content.tar recs true), none) ∧
      ∀ rec ∈ recs, rec.1.wellNamed) :=
  Create_entry_names exFS
    (exFS.put ["a.tar".toList] (Node.leaf (Leaf.file (Content.raw []))))
    "/a.tar".toList ["a.tar".toList] ["x".toList] "y".toList exY (by decide) rfl (by decide)
    rfl (by decide)

/-! ### Extraction of the records of a tree -/

theorem Tree.put_of_find_none (n : Name) (x : Node) (t : Tree) (h : t.find n = none) :
    t.put n x = t.append (Tree.single n x) := by
  induction t with
  | nil => simp [Tree.put, Tree.append]
  | leaf m l rest ih =>
    simp only [Tree.find] at h
    split_ifs at h with hmn
    simp [Tree.put, hmn, Tree.append, ih h]
  | sub m ch rest _ ih =>
    simp only [Tree.find] at h
    split_ifs at h with hmn
    simp [Tree.put, hmn, Tree.append, ih h]

theorem Tree.put_single (n : Name) (x y : Node) : (Tree.single n y).put n x = Tree.single n x := by
  cases y <;> simp [Tree.single, Tree.put, Tree.append_nil]

theorem Tree.put_append_single (n : Name) (x y : Node) (t : Tree) (h : t.find n = none) :
    (t.append (Tree.single n y)).put n x = t.append (Tree.single n x) := by
  induction t with
  | nil => simpa [Tree.append] using Tree.put_single n x y
  | leaf m l rest ih =>
    simp only [Tree.find] at h
    split_ifs at h with hmn
    simp [Tree.put, hmn, Tree.append, ih h]
  | sub m ch rest _ ih =>
    simp only [Tree.find] at h
    split_ifs at h with hmn
    simp [Tree.put, hmn, Tree.append, ih h]

theorem Tree.modify_append_sub (n : Name) (g : Tree → Tree) (c t : Tree)
    (h : t.find n = none) :
    (t.append (Tree.sub n c Tree.nil)).modify n g = t.append (Tree.sub n (g c) Tree.nil) := by
  induction t with
  | nil => simp [Tree.append, Tree.modify]
  | leaf m l rest ih =>
    simp only [Tree.find] at h
    split_ifs at h with hmn
    simp [Tree.modify, hmn, Tree.append, ih h]
  | sub m ch rest _ ih =>
    simp only [Tree.find] at h
    split_ifs at h with hmn
    simp [Tree.modify, hmn, Tree.append, ih h]

theorem Tree.modify_congr (n : Name) (F G : Tree → Tree) (t c : Tree)
    (h : t.find n = some (Node.dir c)) (hfg : F c = G c) : t.modify n F = t.modify n G := by
  induction t with
  | nil => rfl
  | leaf m l rest ih =>
    simp only [Tree.find] at h
    split_ifs at h with hmn
    · simp at h
    · simp [Tree.modify, hmn, ih h]
  | sub m ch rest _ ih =>
    simp only [Tree.find] at h
    split_ifs at h with hmn
    · simp only [Option.some.injEq, Node.dir.injEq] at h
      subst h
      simp [Tree.modify, hmn, hfg]
    · simp [Tree.modify, hmn, ih h]

theorem Tree.modifyAt_congr (f g : Tree → Tree) (q : List Name) :
    ∀ (t done : Tree), t.lookup q = some (Node.dir done) → f done = g done →
      t.modifyAt q f = t.modifyAt q g := by
  induction q with
  | nil =>
    intro t done h hfg
    simp only [Tree.lookup, Option.some.injEq, Node.dir.injEq] at h
    subst h
    simpa [Tree.modifyAt] using hfg
  | cons n q ih =>
    intro t done h hfg
    simp only [Tree.lookup] at h
    cases hf : t.find n with
    | none => simp [hf] at h
    | some y =>
      cases y with
      | dir ch =>
        simp only [hf] at h
        simp only [Tree.modifyAt]
        exact Tree.modify_congr n _ _ t ch hf (ih ch done h hfg)
      | leaf l =>
        simp only [hf] at h
        split at h <;> simp at h

theorem Tree.modify_modify (n : Name) (F G : Tree → Tree) (t : Tree) :
    (t.modify n F).modify n G = t.modify n (fun c => G (F c)) := by
  induction t with
  | nil => rfl
  | leaf m l rest ih =>
    by_cases hmn : m = n
    · simp [Tree.modify, hmn]
    · simp [Tree.modify, hmn, ih]
  | sub m ch rest _ ih =>
    by_cases hmn : m = n
    · simp [Tree.modify, hmn]
    · simp [Tree.modify, hmn, ih]

theorem Tree.modifyAt_modifyAt (f g : Tree → Tree) (q : List Name) :
    ∀ t : Tree, (t.modifyAt q f).modifyAt q g = t.modifyAt q (fun c => g (f c)) := by
  induction q with
  | nil => intro t; rfl
  | cons n q ih =>
    intro t
    simp only [Tree.modifyAt]
    rw [Tree.modify_modify]
    congr 1
    funext c
    exact ih c

theorem Tree.modifyAt_snoc (g : Tree → Tree) (n : Name) (q : List Name) :
    ∀ t : Tree, t.modifyAt (q ++ [n]) g = t.modifyAt q (Tree.modify n g) := by
  induction q with
  | nil =>
    intro t
    simp only [List.nil_append, Tree.modifyAt]
  | cons m q ih =>
    intro t
    simp only [List.cons_append, Tree.modifyAt]
    congr 1
    funext c
    exact ih c

theorem Tree.modify_id (n : Name) (t : Tree) : t.modify n (fun c => c) = t := by
  induction t with
  | nil => rfl
  | leaf m l rest ih =>
    by_cases hmn : m = n
    · simp [Tree.modify, hmn]
    · simp [Tree.modify, hmn, ih]
  | sub m ch rest _ ih =>
    by_cases hmn : m = n
    · simp [Tree.modify, hmn]
    · simp [Tree.modify, hmn, ih]

theorem Tree.modifyAt_id (q : List Name) : ∀ t : Tree, t.modifyAt q (fun c => c) = t := by
  induction q with
  | nil => intro t; rfl
  | cons n q ih =>
    intro t
    simp only [Tree.modifyAt]
    have : Tree.modifyAt q (fun c => c) = fun c => c := funext ih
    rw [this]
    exact Tree.modify_id n t

theorem Tree.lookup_modifyAt_self (f : Tree → Tree) (q : List Name) (t c : Tree)
    (h : t.lookup q = some (Node.dir c)) : (t.modifyAt q f).lookup q = some (Node.dir (f c)) := by
  have := Tree.lookup_modifyAt f q [] t c h
  simpa [Tree.lookup] using this
theorem Tree.shapeAt_free_at (t done : Tree) (q : List Name) (n : Name)
    (hq : t.lookup q = some (Node.dir done)) (hn : done.find n = none) :
    t.shapeAt (q ++ [n]) = none := by
  simp [Tree.shapeAt, Tree.lookup_append _ _ _ _ hq, Tree.lookup, hn]

theorem Tree.putAt_at (t done : Tree) (q : List Name) (n : Name) (x : Node)
    (hq : t.lookup q = some (Node.dir done)) (hn : done.find n = none) :
    Tree.putAt (q ++ [n]) x t = t.modifyAt q (fun c => c.append (Tree.single n x)) := by
  rw [Tree.putAt_snoc]
  exact Tree.modifyAt_congr _ _ q t done hq (Tree.put_of_find_none n x done hn)

theorem osMkdir_at (fs : FS) (done : Tree) (q : List Name) (n : Name)
    (hok : okNames (q ++ [n])) (hq : fs.root.lookup q = some (Node.dir done))
    (hn : done.find n = none) :
    osMkdir fs (absPath (q ++ [n]))
      = Except.ok (fs.modifyAt q (fun c => c.append (Tree.sub n Tree.nil Tree.nil))) := by
  have hfree := Tree.shapeAt_free_at _ done q n hq hn
  have hres := resolve_abs_plain fs false (q ++ [n]) hok
    (by simpa using (Tree.shapeAt_dir_iff _ _).2 ⟨done, hq⟩) (by simp)
  rw [hfree] at hres
  simp only [osMkdir, trimSeps_absPath _ hok, hres, FS.put, FS.modifyAt,
    Tree.putAt_at _ done q n _ hq hn, Tree.single]

theorem osCreate_at (fs : FS) (done : Tree) (q : List Name) (n : Name)
    (hok : okNames (q ++ [n])) (hq : fs.root.lookup q = some (Node.dir done))
    (hn : done.find n = none) :
    osCreate fs (absPath (q ++ [n]))
      = Except.ok (fs.modifyAt q
          (fun c => c.append (Tree.leaf n (Leaf.file (Content.raw [])) Tree.nil)), q ++ [n]) := by
  have hfree := Tree.shapeAt_free_at _ done q n hq hn
  have hres := resolve_abs_plain fs true (q ++ [n]) hok
    (by simpa using (Tree.shapeAt_dir_iff _ _).2 ⟨done, hq⟩) (by simp [hfree])
  rw [hfree] at hres
  simp only [osCreate, hres, FS.put, FS.modifyAt, Tree.putAt_at _ done q n _ hq hn, Tree.single]

theorem osSymlink_at (fs : FS) (done : Tree) (q : List Name) (n : Name) (target : Path)
    (ht : target ≠ []) (hok : okNames (q ++ [n]))
    (hq : fs.root.lookup q = some (Node.dir done)) (hn : done.find n = none) :
    osSymlink fs target (absPath (q ++ [n]))
      = Except.ok (fs.modifyAt q
          (fun c => c.append (Tree.leaf n (Leaf.link target) Tree.nil))) := by
  have hfree := Tree.shapeAt_free_at _ done q n hq hn
  have hres := resolve_abs_plain fs false (q ++ [n]) hok
    (by simpa using (Tree.shapeAt_dir_iff _ _).2 ⟨done, hq⟩) (by simp)
  rw [hfree] at hres
  simp only [osSymlink, ht, if_false, hres, FS.put, FS.modifyAt,
    Tree.putAt_at _ done q n _ hq hn, Tree.single]

theorem FS.write_at (fs : FS) (done : Tree) (q : List Name) (n : Name) (c0 c : Content)
    (hq : fs.root.lookup q = some (Node.dir done)) (hn : done.find n = none) :
    (fs.modifyAt q (fun t => t.append (Tree.leaf n (Leaf.file c0) Tree.nil))).write (q ++ [n]) c
      = fs.modifyAt q (fun t => t.append (Tree.leaf n (Leaf.file c) Tree.nil)) := by
  simp only [FS.write, FS.put, FS.modifyAt, Tree.putAt_snoc, Tree.modifyAt_modifyAt]
  congr 1
  refine Tree.modifyAt_congr _ _ q _ done hq ?_
  exact Tree.put_append_single n (Node.leaf (Leaf.file c)) (Node.leaf (Leaf.file c0)) done hn

theorem FS.modifyAt_twice (fs : FS) (q : List Name) (f g : Tree → Tree) :
    (fs.modifyAt q f).modifyAt q g = fs.modifyAt q (fun c => g (f c)) := by
  simp [FS.modifyAt, Tree.modifyAt_modifyAt]

theorem FS.modifyAt_agree (fs : FS) (q : List Name) (f g : Tree → Tree) (done : Tree)
    (hq : fs.root.lookup q = some (Node.dir done)) (hfg : f done = g done) :
    fs.modifyAt q f = fs.modifyAt q g := by
  simp only [FS.modifyAt]
  rw [Tree.modifyAt_congr f g q _ done hq hfg]

theorem FS.lookup_modifyAt_at (fs : FS) (q : List Name) (f : Tree → Tree) (done : Tree)
    (hq : fs.root.lookup q = some (Node.dir done)) :
    (fs.modifyAt q f).root.lookup q = some (Node.dir (f done)) :=
  Tree.lookup_modifyAt_self f q _ done hq

theorem Join_record_name (dd q : List Name) (hdd : okNames dd) (hq : okNames q) :
    Join (absPath dd) (joinSep q) = absPath (dd ++ q) ∧
      Join (absPath dd) (joinSep q ++ ['/']) = absPath (dd ++ q) := by
  constructor
  · rw [Join_absPath dd _ hdd (plainPath_joinSep q hq), elems_joinSep q hq]
  · have : joinSep q ++ ['/'] = joinSep q ++ '/' :: [] := rfl
    rw [this, Join_absPath dd _ hdd
      (plainPath_append_sep _ _ (plainPath_joinSep q hq) plainPath_nil),
      elems_append_sep, elems_joinSep q hq, elems_nil]
    simp
theorem FS.modifyAt_append_nil (fs : FS) (q : List Name) :
    fs.modifyAt q (fun t => t.append Tree.nil) = fs := by
  have : (fun t : Tree => t.append Tree.nil) = fun t => t := funext Tree.append_nil
  simp only [FS.modifyAt, this, Tree.modifyAt_id]

theorem Tree.find_append_single_other (done : Tree) (n m : Name) (x : Node)
    (h : done.find m = none) (hnm : n ≠ m) : (done.append (Tree.single n x)).find m = none := by
  rw [Tree.find_append, h]
  simp [Tree.find_single, hnm]

theorem extract_tree (dd arch : List Name) (complete : Bool) (lk : List Name → Path)
    (hdd : okNames dd) :
    ∀ (S : Tree) (r : List Name) (done : Tree) (fs : FS) (more : List Record),
      okNames r → fs.root.lookup (dd ++ r) = some (Node.dir done) →
      (∀ n ∈ S.names, done.find n = none) → S.wf = true → ¬ (dd ++ r) <+: arch →
      extractLoop (absPath dd) arch complete fs (treeRecs lk r S ++ more)
        = extractLoop (absPath dd) arch complete
            (fs.modifyAt (dd ++ r) (fun t => t.append (S.restored lk r))) more := by
  intro S
  induction S with
  | nil =>
    intro r done fs more _ _ _ _ _
    simp [treeRecs, Tree.restored, FS.modifyAt_append_nil]
  | leaf n l rest ih =>
    intro r done fs more hr hq hdis hwf harch
    obtain ⟨hn, hall, hwfr⟩ := Tree.wf_rest_leaf hwf
    have hrn : okNames (r ++ [n]) := okNames_append hr (okNames_single n hn)
    have hokn : okNames ((dd ++ r) ++ [n]) :=
      okNames_append (okNames_append hdd hr) (okNames_single n hn)
    have hfn : done.find n = none := hdis n (by simp [Tree.names])
    have hJ := (Join_record_name dd (r ++ [n]) hdd hrn).1
    rw [← List.append_assoc] at hJ
    have hdis2 : ∀ (x : Node), ∀ m ∈ rest.names,
        (done.append (Tree.single n x)).find m = none := by
      intro x m hm
      have hnm : n ≠ m := by
        intro e
        subst e
        exact Tree.not_mem_of_all n _ hall hm
      exact Tree.find_append_single_other done n m x (hdis m (by simp [Tree.names, hm])) hnm
    have hassoc : ∀ (lf : Leaf) (X : Tree),
        (fun t : Tree => (t.append (Tree.leaf n lf Tree.nil)).append X)
          = fun t => t.append (Tree.leaf n lf X) := by
      intro lf X
      funext t
      rw [Tree.append_assoc]
      rfl
    cases l with
    | file c =>
      have hne : (dd ++ r) ++ [n] ≠ arch := by
        intro e
        apply harch
        rw [← e]
        exact List.prefix_append _ _
      simp only [treeRecs, List.cons_append]
      rw [extractLoop]
      simp only [hJ, osCreate_at fs done (dd ++ r) n hokn hq hfn, hne, if_false,
        FS.write_at fs done (dd ++ r) n _ c hq hfn]
      rw [ih r _ _ more hr (FS.lookup_modifyAt_at fs _ _ done hq)
        (hdis2 (Node.leaf (Leaf.file c))) hwfr harch, FS.modifyAt_twice, hassoc]
      simp [Tree.restored]
    | link t =>
      simp only [treeRecs, List.cons_append]
      rw [extractLoop]
      simp only [hJ]
      by_cases hlk : lk (r ++ [n]) = []
      · simp only [hlk, osSymlink, if_true]
        rw [ih r done fs more hr hq (fun m hm => hdis m (by simp [Tree.names, hm])) hwfr harch]
        simp [Tree.restored, hlk]
      · simp only [osSymlink_at fs done (dd ++ r) n _ hlk hokn hq hfn]
        rw [ih r _ _ more hr (FS.lookup_modifyAt_at fs _ _ done hq)
          (hdis2 (Node.leaf (Leaf.link (lk (r ++ [n]))))) hwfr harch, FS.modifyAt_twice,
          hassoc]
        simp [Tree.restored, hlk]
    | special =>
      simp only [treeRecs]
      rw [ih r done fs more hr hq (fun m hm => hdis m (by simp [Tree.names, hm])) hwfr harch]
      simp [Tree.restored]
  | sub n ch rest ihc ihr =>
    intro r done fs more hr hq hdis hwf harch
    obtain ⟨hn, hall, hwfc, hwfr⟩ := Tree.wf_rest_sub hwf
    have hrn : okNames (r ++ [n]) := okNames_append hr (okNames_single n hn)
    have hokn : okNames ((dd ++ r) ++ [n]) :=
      okNames_append (okNames_append hdd hr) (okNames_single n hn)
    have hfn : done.find n = none := hdis n (by simp [Tree.names])
    have hJ := (Join_record_name dd (r ++ [n]) hdd hrn).2
    rw [← List.append_assoc] at hJ
    have hdis2 : ∀ (x : Node), ∀ m ∈ rest.names,
        (done.append (Tree.single n x)).find m = none := by
      intro x m hm
      have hnm : n ≠ m := by
        intro e
        subst e
        exact Tree.not_mem_of_all n _ hall hm
      exact Tree.find_append_single_other done n m x (hdis m (by simp [Tree.names, hm])) hnm
    have harch2 : ¬ (dd ++ (r ++ [n])) <+: arch := by
      intro hp
      apply harch
      exact List.IsPrefix.trans ⟨[n], by simp⟩ hp
    -- the directory record
    simp only [treeRecs, List.cons_append, List.append_assoc]
    rw [extractLoop]
    simp only [hJ, osMkdir_at fs done (dd ++ r) n hokn hq hfn]
    -- the children
    have hq1 : (fs.modifyAt (dd ++ r)
        (fun c => c.append (Tree.sub n Tree.nil Tree.nil))).root.lookup (dd ++ (r ++ [n]))
        = some (Node.dir Tree.nil) := by
      rw [← List.append_assoc]
      simp only [FS.modifyAt]
      rw [Tree.lookup_modifyAt _ _ _ _ _ hq]
      simp [Tree.lookup, Tree.find_append, hfn, Tree.find]
    rw [ihc (r ++ [n]) Tree.nil _ _ hrn hq1 (by simp [Tree.find]) hwfc harch2]
    -- back to the parent
    have hstate : (fs.modifyAt (dd ++ r)
          (fun c => c.append (Tree.sub n Tree.nil Tree.nil))).modifyAt (dd ++ (r ++ [n]))
          (fun t => t.append (Tree.restored lk (r ++ [n]) ch))
        = fs.modifyAt (dd ++ r)
          (fun c => c.append (Tree.sub n (Tree.restored lk (r ++ [n]) ch) Tree.nil)) := by
      rw [← List.append_assoc]
      simp only [FS.modifyAt, Tree.modifyAt_snoc, Tree.modifyAt_modifyAt]
      congr 1
      refine Tree.modifyAt_congr _ _ _ _ done hq ?_
      rw [Tree.modify_append_sub n _ Tree.nil done hfn]
      simp [Tree.append]
    rw [hstate]
    rw [ihr r _ _ more hr (FS.lookup_modifyAt_at fs _ _ done hq)
      (hdis2 (Node.dir (Tree.restored lk (r ++ [n]) ch))) hwfr harch, FS.modifyAt_twice]
    have hassoc : (fun t : Tree =>
          (t.append (Tree.sub n (Tree.restored lk (r ++ [n]) ch) Tree.nil)).append
            (Tree.restored lk r rest))
        = fun t => t.append (Tree.sub n (Tree.restored lk (r ++ [n]) ch)
            (Tree.restored lk r rest)) := by
      funext t
      rw [Tree.append_assoc]
      rfl
    rw [hassoc]
    simp [Tree.restored]

theorem Tree.find_none_of_shapeAt (t done : Tree) (q : List Name) (n : Name)
    (hq : t.lookup q = some (Node.dir done)) (h : t.shapeAt (q ++ [n]) = none) :
    done.find n = none := by
  simp only [Tree.shapeAt, Tree.lookup_append _ _ _ _ hq, Tree.lookup] at h
  cases hf : done.find n with
  | none => rfl
  | some x =>
    rw [hf] at h
    cases x <;> simp at h

theorem mkdirParent_absPath_snoc (q : List Name) (n : Name) (hok : okNames (q ++ [n])) :
    mkdirParent (absPath (q ++ [n])) = if q = [] then [] else absPath q := by
  have hn : okName n := hok n (by simp)
  have htrim : ((absPath (q ++ [n])).reverse.dropWhile (fun c => c = '/')).reverse
      = absPath (q ++ [n]) := by
    have hl := getLast?_absPath (q ++ [n]) (by simp) hok
    cases hr : (absPath (q ++ [n])).reverse with
    | nil => simp [absPath] at hr
    | cons c rest =>
      have hc : c ≠ '/' := by
        intro e
        apply hl
        rw [← List.reverse_reverse (absPath (q ++ [n])), hr, e]
        simp
      simp only [List.dropWhile_cons, hc, decide_False, Bool.false_eq_true, if_false]
      rw [← hr, List.reverse_reverse]
  unfold mkdirParent
  rw [htrim, absPath_snoc]
  split_ifs with hq
  · have : ('/' :: n) = [] ++ '/' :: n := rfl
    rw [this, upToLastSep_append [] n hn.2.1]
    rfl
  · rw [upToLastSep_append _ n hn.2.1]
    simp

theorem osStat_root (fs : FS) : osStat fs ['/'] = Except.ok (Node.dir fs.root) := by
  have hp : pathElems ['/'] = [] := by decide
  have hr : isRooted ['/'] = true := rfl
  simp [osStat, nodeAt, resolve, hp, hr, resolveFrom, Tree.lookup]

theorem osMkdirAll_fresh (fs : FS) (done : Tree) (q : List Name) (n : Name)
    (hok : okNames (q ++ [n])) (hq : fs.root.lookup q = some (Node.dir done))
    (hn : done.find n = none) :
    osMkdirAll fs (absPath (q ++ [n]))
      = (fs.modifyAt q (fun c => c.append (Tree.sub n Tree.nil Tree.nil)), none) := by
  have hqok : okNames q := okNames_left hok
  have hsd : fs.root.shapeAt q = some Shape.dir := (Tree.shapeAt_dir_iff _ _).2 ⟨done, hq⟩
  have hfree := Tree.shapeAt_free_at _ done q n hq hn
  have hres := resolve_abs_plain fs true (q ++ [n]) hok (by simpa using hsd) (by simp [hfree])
  rw [hfree] at hres
  have hlk : fs.root.lookup (q ++ [n]) = none := by
    cases hl : fs.root.lookup (q ++ [n]) with
    | none => rfl
    | some x => simp [Tree.shapeAt, hl] at hfree
  have hstat : osStat fs (absPath (q ++ [n])) = Except.error Errno.ENOENT := by
    simp [osStat, nodeAt, hres, hlk]
  have hlen : ∃ k, (absPath (q ++ [n])).length = k + 1 + 1 := by
    cases hj : joinSep (q ++ [n]) with
    | nil => exact absurd hj (joinSep_ne_nil _ (by simp) hok)
    | cons c cs => exact ⟨cs.length, by simp [absPath, hj]⟩
  obtain ⟨k, hk⟩ := hlen
  unfold osMkdirAll
  rw [hk, mkdirAllAux]
  simp only [hstat, mkdirParent_absPath_snoc q n hok]
  by_cases hq0 : q = []
  · simp only [hq0, if_true, ne_eq, not_true_eq_false, if_false]
    subst hq0
    simp only [osMkdir_at fs done [] n hok hq hn]
  · simp only [hq0, if_false, ne_eq, absPath_ne_nil, not_false_eq_true, if_true]
    rw [mkdirAllAux]
    simp only [osStat_abs fs q _ hqok hq (by simp), osMkdir_at fs done q n hok hq hn]

theorem Tree.restored_onlyFilesDirs (lk : List Name → Path) :
    ∀ (T : Tree) (r : List Name), T.onlyFilesDirs = true → T.restored lk r = T := by
  intro T
  induction T with
  | nil => intro r _; rfl
  | leaf n l rest ih =>
    intro r h
    cases l with
    | file c =>
      simp only [Tree.onlyFilesDirs] at h
      simp [Tree.restored, ih r h]
    | link t => simp [Tree.onlyFilesDirs] at h
    | special => simp [Tree.onlyFilesDirs] at h
  | sub n ch rest ihc ihr =>
    intro r h
    simp only [Tree.onlyFilesDirs, Bool.and_eq_true] at h
    simp [Tree.restored, ihc _ h.1, ihr r h.2]
/-- C1, amended: for a real directory `T` given by a clean absolute path
without trailing separator (entries listed in `readDirNames` order), an
archive outside `T`, and a destination given by a clean absolute path that
names nothing yet in an existing directory: `Create` succeeds, `Extract`
succeeds, and under the destination and the base name of the source it
leaves the files and directories of `T` with their names and contents, and
each link of `T` with the link name `Create` recorded for it (`linkFor`:
the resolved target relative to the directory of the link, or the raw
text); a tree of files and directories only comes back equal. -/
theorem Create_Extract_roundtrip (fs fs1 : FS) (a : Path) (arch bc d2 : List Name)
    (b m : Name) (T : Tree)
    (hok : okNames (bc ++ [b])) (hT : fs.root.lookup (bc ++ [b]) = some (Node.dir T))
    (hwf : T.wf = true) (hO : osCreate fs a = Except.ok (fs1, arch))
    (hout : ¬ (bc ++ [b]) <+: arch)
    (hok2 : okNames (d2 ++ [m]))
    (hpar : (Create fs a (absPath (bc ++ [b]))).1.root.shapeAt d2 = some Shape.dir)
    (hfree : (Create fs a (absPath (bc ++ [b]))).1.root.shapeAt (d2 ++ [m]) = none) :
    (Create fs a (absPath (bc ++ [b]))).2 = none ∧
    ∃ fs2, Extract (Create fs a (absPath (bc ++ [b]))).1 (absPath (d2 ++ [m])) a = (fs2, none) ∧
      fs2.root.lookup (d2 ++ [m] ++ [b])
        = some (Node.dir (T.restored (fun q => linkFor fs1 (absPath (bc ++ q))) [b])) ∧
      (T.onlyFilesDirs = true → fs2.root.lookup (d2 ++ [m] ++ [b]) = some (Node.dir T)) := by
  have hC0 := Create_plain fs fs1 a arch bc b T hok hT hwf hO hout
  generalize hfscdef : (Create fs a (absPath (bc ++ [b]))).1 = fsc at hpar hfree ⊢
  have hC : Create fs a (absPath (bc ++ [b])) = (fsc, none) := by
    rw [← hfscdef, hC0]
  refine ⟨by rw [hC], ?_⟩
  have hb : okName b := hok b (by simp)
  have hm : okName m := hok2 m (by simp)
  -- the state after Create
  have hfsc : fsc = fs1.write arch (Content.tar
      ((⟨b ++ ['/'], Kind.dir, []⟩, Content.raw []) ::
        treeRecs (fun q => linkFor fs1 (absPath (bc ++ q))) [b] T) true) := by
    have := Create_plain fs fs1 a arch bc b T hok hT hwf hO hout
    rw [hC] at this
    simp only [Prod.mk.injEq, and_true] at this
    exact this
  obtain ⟨hle1, hsf1, _, hres⟩ := osCreate_ok fs fs1 a arch hO
  obtain ⟨hle2, hlk⟩ := FS.le_put_file fs1 arch (Content.tar
      ((⟨b ++ ['/'], Kind.dir, []⟩, Content.raw []) ::
        treeRecs (fun q => linkFor fs1 (absPath (bc ++ q))) [b] T) true) hsf1
  have hw : fs1.write arch (Content.tar
      ((⟨b ++ ['/'], Kind.dir, []⟩, Content.raw []) ::
        treeRecs (fun q => linkFor fs1 (absPath (bc ++ q))) [b] T) true)
      = fs1.put arch (Node.leaf (Leaf.file (Content.tar
      ((⟨b ++ ['/'], Kind.dir, []⟩, Content.raw []) ::
        treeRecs (fun q => linkFor fs1 (absPath (bc ++ q))) [b] T) true))) := rfl
  rw [← hw, ← hfsc] at hle2 hlk
  have hlec : FS.le fs fsc := FS.le_chain hle1 hle2
  have hsfc : fsc.root.shapeAt arch = some Shape.file := by
    simp [Tree.shapeAt, hlk, Node.shape, Leaf.shape]
  have hresc : resolve fsc true a = Except.ok (arch, some Shape.file) := by
    rcases hres with h | h
    · exact resolve_grow fs fsc hlec true a arch _ h hsfc (by simp)
    · exact resolve_mono fs fsc hlec true a arch _ h
  have hstat : osStat fsc a = Except.ok (Node.leaf (Leaf.file (Content.tar
      ((⟨b ++ ['/'], Kind.dir, []⟩, Content.raw []) ::
        treeRecs (fun q => linkFor fs1 (absPath (bc ++ q))) [b] T) true))) := by
    simp [osStat, nodeAt, hresc, hlk]
  -- the destination is created
  obtain ⟨done2, hd2⟩ := (Tree.shapeAt_dir_iff _ _).1 hpar
  have hfm : done2.find m = none := Tree.find_none_of_shapeAt _ done2 d2 m hd2 hfree
  have hmk := osMkdirAll_fresh fsc done2 d2 m hok2 hd2 hfm
  -- the archive is where it was
  have hnot1 : ¬ (d2 ++ [m]) <+: arch := by
    rintro ⟨s, hs⟩
    by_cases hs0 : s = []
    · subst hs0
      rw [List.append_nil] at hs
      rw [← hs, hfree] at hsfc
      simp at hsfc
    · have := Tree.shapeAt_below_none fsc.root (d2 ++ [m]) s hs0 (by simp [hfree])
      rw [hs, hsfc] at this
      simp at this
  have hnot2 : ¬ arch <+: (d2 ++ [m]) := by
    rintro ⟨s, hs⟩
    rcases List.eq_nil_or_concat s with hs0 | ⟨s1, x, hs1⟩
    · subst hs0
      rw [List.append_nil] at hs
      rw [hs, hfree] at hsfc
      simp at hsfc
    · rw [List.concat_eq_append] at hs1
      subst hs1
      rw [← List.append_assoc] at hs
      have hd : arch ++ s1 = d2 := (List.append_inj_left' hs rfl)
      by_cases h1 : s1 = []
      · subst h1
        rw [List.append_nil] at hd
        rw [hd, hpar] at hsfc
        simp at hsfc
      · have := Tree.shapeAt_below_none fsc.root arch s1 h1 (by simp [hsfc])
        rw [hd, hpar] at this
        simp at this
  have hfsm : fsc.modifyAt d2 (fun c => c.append (Tree.sub m Tree.nil Tree.nil))
      = fsc.put (d2 ++ [m]) (Node.dir Tree.nil) := by
    simp only [FS.put, FS.modifyAt, Tree.putAt_at _ done2 d2 m _ hd2 hfm, Tree.single]
  have hlem : FS.le fsc (fsc.put (d2 ++ [m]) (Node.dir Tree.nil)) :=
    ⟨rfl, Tree.le_putAt_free _ m d2 _ done2 hd2 hfree⟩
  have hdd : (fsc.put (d2 ++ [m]) (Node.dir Tree.nil)).root.lookup (d2 ++ [m])
      = some (Node.dir Tree.nil) := Tree.lookup_putAt_same _ m d2 _ done2 hd2
  have harch : (fsc.put (d2 ++ [m]) (Node.dir Tree.nil)).root.lookup arch
      = fsc.root.lookup arch := Tree.lookup_putAt_off _ m d2 _ done2 hd2 arch hnot2 hnot1
  have hresm := resolve_mono fsc _ hlem true a arch _ hresc
  -- the record of the root directory
  have hok3 : okNames (d2 ++ [m] ++ [b]) := okNames_append hok2 (okNames_single b hb)
  have hj : Join (absPath (d2 ++ [m])) (b ++ ['/']) = absPath (d2 ++ [m] ++ [b]) := by
    have := (Join_record_name (d2 ++ [m]) [b] hok2 (okNames_single b hb)).2
    simpa [joinSep] using this
  have hmkb := osMkdir_at (fsc.put (d2 ++ [m]) (Node.dir Tree.nil)) Tree.nil (d2 ++ [m]) b
    hok3 hdd rfl
  have hb3 : ((fsc.put (d2 ++ [m]) (Node.dir Tree.nil)).modifyAt (d2 ++ [m])
      (fun c => c.append (Tree.sub b Tree.nil Tree.nil))).root.lookup (d2 ++ [m] ++ [b])
      = some (Node.dir Tree.nil) := by
    have := Tree.lookup_modifyAt (fun c => c.append (Tree.sub b Tree.nil Tree.nil))
      (d2 ++ [m]) [b] _ Tree.nil hdd
    simp only [FS.modifyAt]
    rw [this]
    simp [Tree.lookup, Tree.append, Tree.find]
  have hnot3 : ¬ (d2 ++ [m] ++ [b]) <+: arch := by
    rintro ⟨s, hs⟩
    exact hnot1 ⟨[b] ++ s, by simpa using hs⟩
  have hex := extract_tree (d2 ++ [m]) arch true (fun q => linkFor fs1 (absPath (bc ++ q)))
    hok2 T [b] Tree.nil _ [] (okNames_single b hb) hb3 (fun _ _ => rfl) hwf hnot3
  have hfin := FS.lookup_modifyAt_at _ (d2 ++ [m] ++ [b])
    (fun t => t.append (T.restored (fun q => linkFor fs1 (absPath (bc ++ q))) [b])) Tree.nil hb3
  refine ⟨_, ?_, hfin, ?_⟩
  · unfold Extract
    rw [hstat]
    simp only [hmk, hfsm, hresm, harch, hlk]
    rw [extractLoop]
    simp only [hj, hmkb]
    rw [List.append_nil] at hex
    rw [hex]
    simp [extractLoop]
  · intro hfd
    rw [hfin, Tree.restored_onlyFilesDirs _ T [b] hfd]
    rfl

set_option maxRecDepth 100000 in
/-- C1, amended, at the directory `/x/y`, the archive `/a.tar` and the
destination `/out`. -/
theorem Create_Extract_roundtrip_witness :
    (Create exFS "/a.tar".toList (absPath (["x".toList] ++ ["y".toList]))).2 = none ∧
    ∃ fs2, Extract (Create exFS "/a.tar".toList (absPath (["x".toList] ++ ["y".toList]))).1
          (absPath ([] ++ ["out".toList])) "/a.tar".toList = (fs2, none) ∧
      fs2.root.lookup ([] ++ ["out".toList] ++ ["y".toList])
        = some (Node.dir (exY.restored
            (fun q => linkFor (exFS.put ["a.tar".toList] (Node.leaf (Leaf.file (Content.raw []))))
              (absPath (["x".toList] ++ q))) ["y".toList])) ∧
      (exY.onlyFilesDirs = true →
        fs2.root.lookup ([] ++ ["out".toList] ++ ["y".toList]) = some (Node.dir exY)) :=
  Create_Extract_roundtrip exFS
    (exFS.put ["a.tar".toList] (Node.leaf (Leaf.file (Content.raw []))))
    "/a.tar".toList ["a.tar".toList] ["x".toList] [] "y".toList "out".toList exY
    (by decide) rfl (by decide) rfl (by decide) (by decide) (by decide) (by decide)

/-! ### Extraction into a directory without links -/

theorem splitSep_mem_noSep : ∀ (p : Path) (c : Name), c ∈ splitSep p → '/' ∉ c := by
  intro p
  induction p with
  | nil =>
    intro c hc
    simp only [splitSep, List.mem_singleton] at hc
    subst hc
    simp
  | cons ch p ih =>
    intro c hc
    rw [splitSep] at hc
    cases h : splitSep p with
    | nil => exact absurd h (splitSep_ne_nil p)
    | cons w ws =>
      rw [h] at hc ih
      simp only at hc
      by_cases hch : ch = '/'
      · rw [if_pos hch] at hc
        rcases List.mem_cons.1 hc with rfl | hc2
        · simp
        · exact ih c hc2
      · rw [if_neg hch] at hc
        rcases List.mem_cons.1 hc with rfl | hc2
        · have hw := ih w (by simp)
          intro hmem
          rcases List.mem_cons.1 hmem with e | e
          · exact hch e.symm
          · exact hw e
        · exact ih c (List.mem_cons_of_mem _ hc2)

theorem foldl_cleanStep_nodotdot (r : Bool) (cs : List Name)
    (h : ∀ c ∈ cs, c ≠ [] → c ≠ dot → okName c) :
    ∀ acc, cs.foldl (cleanStep r) acc
      = (cs.filter (fun c => decide (c ≠ [] ∧ c ≠ dot))).reverse ++ acc := by
  induction cs with
  | nil => intro acc; simp
  | cons c cs ih =>
    intro acc
    have hcs : ∀ c ∈ cs, c ≠ [] → c ≠ dot → okName c := fun d hd => h d (by simp [hd])
    rw [List.foldl_cons, ih hcs]
    by_cases h1 : c = []
    · subst h1
      simp [cleanStep]
    · by_cases h2 : c = dot
      · subst h2
        simp [cleanStep]
      · rw [cleanStep_ok r acc c (h c (by simp) h1 h2)]
        simp [List.filter_cons, h1, h2]

theorem Join_absPath_nodotdot (dd : List Name) (s : Path) (hdd : okNames dd)
    (h : dotdot ∉ splitSep s) :
    ∃ es, okNames es ∧ Join (absPath dd) s = absPath (dd ++ es) := by
  refine ⟨(splitSep s).filter (fun c => decide (c ≠ [] ∧ c ≠ dot)), ?_, ?_⟩
  · intro c hc
    obtain ⟨hm, hp⟩ := List.mem_filter.1 hc
    have hp2 : c ≠ [] ∧ c ≠ dot := by simpa using hp
    exact ⟨hp2.1, splitSep_mem_noSep s c hm, hp2.2, fun e => h (e ▸ hm)⟩
  · have hall : ∀ c ∈ splitSep (absPath dd ++ '/' :: s), c ≠ [] → c ≠ dot → okName c := by
      intro c hc h1 h2
      rw [splitSep_append_sep] at hc
      rcases List.mem_append.1 hc with hc1 | hc1
      · have : c ∈ elems (absPath dd) := (mem_elems _ _).2 ⟨hc1, h1⟩
        rw [elems_absPath dd hdd] at this
        exact hdd c this
      · exact ⟨h1, splitSep_mem_noSep s c hc1, h2, fun e => h (e ▸ hc1)⟩
    have hfa : (splitSep (absPath dd)).filter (fun c => decide (c ≠ [] ∧ c ≠ dot)) = dd := by
      have he : (splitSep (absPath dd)).filter (fun c => decide (c ≠ [])) = dd :=
        elems_absPath dd hdd
      refine Eq.trans ?_ he
      apply List.filter_congr
      intro c hc
      by_cases h1 : c = []
      · simp [h1]
      · have : c ∈ elems (absPath dd) := (mem_elems _ _).2 ⟨hc, h1⟩
        rw [elems_absPath dd hdd] at this
        have h2 : c ≠ dot := (hdd c this).2.2.1
        simp [h1, h2]
    have hr : isRooted (absPath dd ++ '/' :: s) = true := rfl
    rw [Join, if_pos (absPath_ne_nil dd), Clean, cleanComps, hr,
      foldl_cleanStep_nodotdot _ _ hall, splitSep_append_sep, List.filter_append, hfa]
    simp [render, absPath]

theorem resolveFrom_region (root : Tree) (follow : Bool) :
    ∀ (comps stack : List Name) (fuel : Nat) (P : List Name) (sh : Option Shape),
      okNames comps →
      (∀ q t, root.shapeAt (stack ++ q) ≠ some (Shape.link t)) →
      resolveFrom root follow fuel stack comps = Except.ok (P, sh) → P = stack ++ comps := by
  intro comps
  induction comps with
  | nil =>
    intro stack fuel P sh _ _ h
    cases fuel with
    | zero => simp [resolveFrom] at h
    | succ fuel =>
      simp only [resolveFrom, Except.ok.injEq, Prod.mk.injEq] at h
      simp [h.1]
  | cons c rest ih =>
    intro stack fuel P sh hok hnl h
    have hc : okName c := hok c (by simp)
    have hrest : okNames rest := fun n hn => hok n (by simp [hn])
    cases fuel with
    | zero => simp [resolveFrom] at h
    | succ fuel =>
      rw [resolveFrom_name _ _ _ _ _ _ hc.2.2.1 hc.2.2.2] at h
      cases hs : root.shapeAt (stack ++ [c]) with
      | none =>
        rw [hs] at h
        simp only at h
        split_ifs at h with hr
        · simp only [Except.ok.injEq, Prod.mk.injEq] at h
          simp [← h.1, hr]
      | some s =>
        rw [hs] at h
        cases s with
        | link t => exact absurd hs (hnl [c] t)
        | dir =>
          simp only at h
          split_ifs at h with hr
          · simp only [Except.ok.injEq, Prod.mk.injEq] at h
            simp [← h.1, hr]
          · have := ih (stack ++ [c]) fuel P sh hrest
              (fun q t => by
                rw [List.append_assoc]
                exact hnl ([c] ++ q) t) h
            simpa using this
        | file =>
          simp only at h
          split_ifs at h with hr
          · simp only [Except.ok.injEq, Prod.mk.injEq] at h
            simp [← h.1, hr]
        | special =>
          simp only at h
          split_ifs at h with hr
          · simp only [Except.ok.injEq, Prod.mk.injEq] at h
            simp [← h.1, hr]

theorem resolve_region (fs : FS) (follow : Bool) (dd es P : List Name) (sh : Option Shape)
    (hok : okNames (dd ++ es)) (hdir : fs.root.shapeAt dd = some Shape.dir)
    (hnl : ∀ q t, fs.root.shapeAt (dd ++ q) ≠ some (Shape.link t))
    (h : resolve fs follow (absPath (dd ++ es)) = Except.ok (P, sh)) : P = dd ++ es := by
  by_cases hes : es = []
  · subst hes
    rw [List.append_nil] at h hok ⊢
    rw [resolve_abs_plain fs follow dd hok (Tree.shapeAt_dropLast _ _ hdir)
      (by intro _ t; rw [hdir]; simp)] at h
    simp only [Except.ok.injEq, Prod.mk.injEq] at h
    exact h.1.symm
  · unfold resolve at h
    rw [if_neg (absPath_ne_nil _), if_pos (isRooted_absPath _), pathElems_absPath _ hok] at h
    have hfuel : (dd ++ es).length + 1 + linkFuel = (es.length + 1 + linkFuel) + dd.length := by
      simp; omega
    rw [hfuel, resolveFrom_descend _ _ es hes dd [] _ (okNames_left hok)
      (by simpa using hdir)] at h
    simp only [List.nil_append] at h
    exact resolveFrom_region _ _ es dd _ P sh (okNames_right hok) hnl h
theorem Tree.modifyAt_append (f : Tree → Tree) (q r : List Name) :
    ∀ t : Tree, t.modifyAt (q ++ r) f = t.modifyAt q (Tree.modifyAt r f) := by
  induction q with
  | nil => intro t; rfl
  | cons n q ih =>
    intro t
    have : Tree.modifyAt (q ++ r) f = Tree.modifyAt q (Tree.modifyAt r f) := funext ih
    show Tree.modify n (Tree.modifyAt (q ++ r) f) t
      = Tree.modify n (Tree.modifyAt q (Tree.modifyAt r f)) t
    rw [this]

theorem Tree.link_of_putAt (x : Node) (n : Name) (q : List Name) (t c : Tree)
    (hq : t.lookup q = some (Node.dir c))
    (hx : x = Node.dir Tree.nil ∨ ∃ cnt, x = Node.leaf (Leaf.file cnt))
    (p : List Name) (tx : Path)
    (h : (Tree.putAt (q ++ [n]) x t).shapeAt p = some (Shape.link tx)) :
    t.shapeAt p = some (Shape.link tx) := by
  by_cases hoff : (q ++ [n]) <+: p
  · exfalso
    obtain ⟨r, rfl⟩ := hoff
    have hsame := Tree.lookup_putAt_same x n q t c hq
    by_cases hr : r = []
    · subst hr
      rw [List.append_nil] at h
      rcases hx with rfl | ⟨cnt, rfl⟩ <;>
        simp [Tree.shapeAt, hsame, Node.shape, Leaf.shape] at h
    · rcases hx with rfl | ⟨cnt, rfl⟩
      · have := Tree.lookup_append (q ++ [n]) r _ _ hsame
        cases r with
        | nil => exact hr rfl
        | cons a r =>
          rw [Tree.shapeAt, this] at h
          simp [Tree.lookup, Tree.find] at h
      · have := Tree.shapeAt_below_none (Tree.putAt (q ++ [n]) (Node.leaf (Leaf.file cnt)) t)
          (q ++ [n]) r hr (by simp [Tree.shapeAt, hsame, Node.shape, Leaf.shape])
        rw [this] at h
        simp at h
  · rw [Tree.shapeAt_putAt_off x n q t c hq p hoff] at h
    exact h

theorem FS.put_inside (fs : FS) (dd es q : List Name) (n : Name) (c : Tree) (x : Node)
    (hP : dd ++ es = q ++ [n]) (hq : fs.root.lookup q = some (Node.dir c))
    (hne : fs.root.shapeAt (dd ++ es) ≠ some Shape.dir)
    (hdir : fs.root.shapeAt dd = some Shape.dir)
    (hnl : ∀ r t, fs.root.shapeAt (dd ++ r) ≠ some (Shape.link t))
    (hx : x = Node.dir Tree.nil ∨ ∃ cnt, x = Node.leaf (Leaf.file cnt)) :
    (∃ g, fs.put (dd ++ es) x = fs.modifyAt dd g) ∧
      (fs.put (dd ++ es) x).root.shapeAt dd = some Shape.dir ∧
      (∀ r t, (fs.put (dd ++ es) x).root.shapeAt (dd ++ r) ≠ some (Shape.link t)) := by
  rcases List.eq_nil_or_concat es with rfl | ⟨es1, m, rfl⟩
  · rw [List.append_nil] at hne
    exact absurd hdir hne
  · rw [List.concat_eq_append] at hP hne ⊢
    rw [← List.append_assoc] at hP
    have hq2 : dd ++ es1 = q := List.append_inj_left' hP rfl
    have hm : m = n := by
      have := List.append_inj_right' hP rfl
      simpa using this
    subst hm
    subst hq2
    rw [← List.append_assoc]
    refine ⟨⟨Tree.modifyAt es1 (Tree.put m x), ?_⟩, ?_, ?_⟩
    · simp only [FS.put, FS.modifyAt, Tree.putAt_snoc, Tree.modifyAt_append]
    · have hoff : ¬ (dd ++ es1 ++ [m]) <+: dd := by
        rintro ⟨s, hs⟩
        have := congrArg List.length hs
        simp at this
      simp only [FS.put]
      rw [Tree.shapeAt_putAt_off x m _ _ c hq dd hoff]
      exact hdir
    · intro r t hl
      exact hnl r t (Tree.link_of_putAt x m _ _ c hq hx _ t hl)

theorem extractLoop_inside (dd arch : List Name) (complete : Bool) (hdd : okNames dd) :
    ∀ (recs : List Record) (fs : FS),
      fs.root.shapeAt dd = some Shape.dir →
      (∀ q t, fs.root.shapeAt (dd ++ q) ≠ some (Shape.link t)) →
      (∀ rec ∈ recs, rec.1.Typ ≠ Kind.symlink ∧ dotdot ∉ splitSep rec.1.Name) →
      ∃ g, (extractLoop (absPath dd) arch complete fs recs).1 = fs.modifyAt dd g := by
  intro recs
  induction recs with
  | nil =>
    intro fs _ _ _
    refine ⟨fun c => c, ?_⟩
    have hid : fs.modifyAt dd (fun c => c) = fs := by simp [FS.modifyAt, Tree.modifyAt_id]
    unfold extractLoop
    split <;> exact hid.symm
  | cons rc rest ih =>
    intro fs hdir hnl hrecs
    obtain ⟨hdr, payload⟩ := rc
    have hid : fs = fs.modifyAt dd (fun c => c) := by simp [FS.modifyAt, Tree.modifyAt_id]
    have hrest : ∀ rec ∈ rest, rec.1.Typ ≠ Kind.symlink ∧ dotdot ∉ splitSep rec.1.Name :=
      fun rec hrec => hrecs rec (List.mem_cons_of_mem _ hrec)
    obtain ⟨hty, hnd⟩ := hrecs (hdr, payload) (by simp)
    obtain ⟨es, hes, hj⟩ := Join_absPath_nodotdot dd hdr.Name hdd hnd
    have hok : okNames (dd ++ es) := okNames_append hdd hes
    unfold extractLoop
    simp only [hj]
    cases hk : hdr.Typ with
    | symlink => exact absurd hk hty
    | dir =>
      simp only
      cases hm : osMkdir fs (absPath (dd ++ es)) with
      | error e => exact ⟨_, hid⟩
      | ok fs1 =>
        simp only
        obtain ⟨P, hres, hfs1, _, _⟩ := osMkdir_ok fs fs1 _ hm
        rw [trimSeps_absPath _ hok] at hres
        have hP := resolve_region fs false dd es P none hok hdir hnl hres
        subst hP
        obtain ⟨hsh, hpar⟩ := resolve_sound fs false _ _ _ hres
        obtain ⟨q, n, c, hqn, hq⟩ := hpar rfl
        obtain ⟨⟨g1, hg1⟩, hdir1, hnl1⟩ := FS.put_inside fs dd es q n c (Node.dir Tree.nil)
          hqn hq (by rw [hsh]; simp) hdir hnl (Or.inl rfl)
        rw [← hfs1] at hg1 hdir1 hnl1
        obtain ⟨g2, hg2⟩ := ih fs1 hdir1 hnl1 hrest
        exact ⟨fun c => g2 (g1 c), by rw [hg2, hg1, FS.modifyAt_twice]⟩
    | regular =>
      simp only
      cases hm : osCreate fs (absPath (dd ++ es)) with
      | error e => exact ⟨_, hid⟩
      | ok pr =>
        obtain ⟨fs1, phys⟩ := pr
        simp only
        obtain ⟨_, hsf1, hfs1, hres⟩ := osCreate_ok fs fs1 _ phys hm
        have hP : phys = dd ++ es := by
          rcases hres with hres | hres
          · exact resolve_region fs true dd es phys _ hok hdir hnl hres
          · exact resolve_region fs true dd es phys _ hok hdir hnl hres
        subst hP
        have hpar : ∃ q n c, dd ++ es = q ++ [n] ∧ fs.root.lookup q = some (Node.dir c) ∧
            fs.root.shapeAt (dd ++ es) ≠ some Shape.dir := by
          rcases hres with hres | hres
          · obtain ⟨hsh, hpar⟩ := resolve_sound fs true _ _ _ hres
            obtain ⟨q, n, c, hqn, hq⟩ := hpar rfl
            exact ⟨q, n, c, hqn, hq, by rw [hsh]; simp⟩
          · obtain ⟨hsh, _⟩ := resolve_sound fs true _ _ _ hres
            obtain ⟨q, n, c, hqn, hq⟩ := Tree.parent_of_leaf _ _ _ hsh (by simp)
            exact ⟨q, n, c, hqn, hq, by rw [hsh]; simp⟩
        obtain ⟨q, n, c, hqn, hq, hnd1⟩ := hpar
        obtain ⟨⟨g1, hg1⟩, hdir1, hnl1⟩ := FS.put_inside fs dd es q n c
          (Node.leaf (Leaf.file (Content.raw []))) hqn hq hnd1 hdir hnl (Or.inr ⟨_, rfl⟩)
        rw [← hfs1] at hg1 hdir1 hnl1
        split_ifs
        · exact ⟨g1, hg1⟩
        · exact ⟨g1, hg1⟩
        · obtain ⟨q2, n2, c2, hqn2, hq2⟩ := Tree.parent_of_leaf _ _ _ hsf1 (by simp)
          obtain ⟨⟨g2, hg2⟩, hdir2, hnl2⟩ := FS.put_inside fs1 dd es q2 n2 c2
            (Node.leaf (Leaf.file payload)) hqn2 hq2 (by rw [hsf1]; simp) hdir1 hnl1
            (Or.inr ⟨_, rfl⟩)
          have hw : fs1.write (dd ++ es) payload
              = fs1.put (dd ++ es) (Node.leaf (Leaf.file payload)) := rfl
          rw [← hw] at hg2 hdir2 hnl2
          obtain ⟨g3, hg3⟩ := ih _ hdir2 hnl2 hrest
          exact ⟨fun c => g3 (g2 (g1 c)), by
            rw [hg3, hg2, hg1, FS.modifyAt_twice, FS.modifyAt_twice]⟩
/-- C7, amended: when the destination is an existing real directory given
by a clean absolute path, with no symbolic link in it, and the archive has
no symbolic-link record and no record name with an element `..`, then
`Extract` changes nothing outside the destination: the state it leaves is
the state before with only the directory at the destination replaced, so
every path that does not pass through the destination has the shape it had,
and, unless it is an ancestor of the destination, the very node it had. -/
theorem Extract_stays_inside (fs : FS) (a : Path) (dd : List Name)
    (hdd : okNames dd) (hdir : fs.root.shapeAt dd = some Shape.dir)
    (hnl : ∀ q t, fs.root.shapeAt (dd ++ q) ≠ some (Shape.link t))
    (hrecs : ∀ h ∈ (headersAt fs a).getD [],
      h.Typ ≠ Kind.symlink ∧ dotdot ∉ splitSep h.Name) :
    (∃ g, (Extract fs (absPath dd) a).1 = fs.modifyAt dd g) ∧
    ∀ q, ¬ dd <+: q →
      (Extract fs (absPath dd) a).1.root.shapeAt q = fs.root.shapeAt q ∧
      (¬ q <+: dd → (Extract fs (absPath dd) a).1.root.lookup q = fs.root.lookup q) := by
  have hmain : ∃ g, (Extract fs (absPath dd) a).1 = fs.modifyAt dd g := by
    have hid : ∃ g, fs = fs.modifyAt dd g :=
      ⟨fun c => c, by simp [FS.modifyAt, Tree.modifyAt_id]⟩
    obtain ⟨D, hD⟩ := (Tree.shapeAt_dir_iff _ _).1 hdir
    have hmk : osMkdirAll fs (absPath dd) = (fs, none) :=
      osMkdirAll_of_dir fs _ D (osStat_abs fs dd _ hdd hD (by simp))
    unfold Extract
    split
    · exact hid
    · exact hid
    · rename_i lf hst
      rw [hmk]
      simp only
      split
      · exact hid
      · rename_i arch sh hres
        split
        · rename_i recs complete hlk
          have hst2 : osStat fs a
              = Except.ok (Node.leaf (Leaf.file (Content.tar recs complete))) := by
            simp [osStat, nodeAt, hres, hlk]
          have hh : headersAt fs a = some (recs.map Prod.fst) := by
            simp [headersAt, hst2]
          rw [hh] at hrecs
          exact extractLoop_inside dd arch complete hdd recs fs hdir hnl
            (fun rec hrec => hrecs rec.1 (by
              simp only [Option.getD_some]
              exact List.mem_map_of_mem _ hrec))
        · exact hid
        · split <;> exact hid
        all_goals exact hid
  refine ⟨hmain, ?_⟩
  obtain ⟨g, hg⟩ := hmain
  intro q hq
  rw [hg]
  refine ⟨Tree.shapeAt_modifyAt_off g dd _ q hq, fun hq2 => ?_⟩
  exact Tree.lookup_modifyAt_off g dd _ q hq hq2

set_option maxRecDepth 100000 in
/-- C7, amended, at the archive `/b.tar` and the empty directory `/out`. -/
theorem Extract_stays_inside_witness :
    (∃ g, (Extract exArchives (absPath ["out".toList]) "/b.tar".toList).1
        = exArchives.modifyAt ["out".toList] g) ∧
    ∀ q, ¬ ["out".toList] <+: q →
      (Extract exArchives (absPath ["out".toList]) "/b.tar".toList).1.root.shapeAt q
        = exArchives.root.shapeAt q ∧
      (¬ q <+: ["out".toList] →
        (Extract exArchives (absPath ["out".toList]) "/b.tar".toList).1.root.lookup q
          = exArchives.root.lookup q) :=
  Extract_stays_inside exArchives "/b.tar".toList ["out".toList] (by decide) (by decide)
    (by
      intro q t
      have h0 : exArchives.root.lookup ["out".toList] = some (Node.dir Tree.nil) := rfl
      have h := Tree.lookup_append ["out".toList] q exArchives.root Tree.nil h0
      intro hl
      rw [Tree.shapeAt, h] at hl
      cases q with
      | nil => simp [Tree.lookup, Node.shape] at hl
      | cons c r => simp [Tree.lookup, Tree.find] at hl)
    (by decide)

/-! ### `ExtractInPlace` -/

theorem extScan_append (rest : List Char) :
    ∀ (l acc : List Char), (∀ c ∈ l, c ≠ '/' ∧ c ≠ '.') →
      extScan (l ++ rest) acc = extScan rest (l.reverse ++ acc) := by
  intro l
  induction l with
  | nil => intro acc _; rfl
  | cons c l ih =>
    intro acc h
    obtain ⟨h1, h2⟩ := h c (by simp)
    rw [List.cons_append, extScan, if_neg h1, if_neg h2,
      ih (c :: acc) (fun d hd => h d (by simp [hd]))]
    simp

theorem Ext_append_dot (x : Path) (e : List Char) (h1 : '.' ∉ e) (h2 : '/' ∉ e) :
    Ext (x ++ '.' :: e) = '.' :: e := by
  unfold Ext
  have hr : (x ++ '.' :: e).reverse = e.reverse ++ '.' :: x.reverse := by simp
  rw [hr, extScan_append _ e.reverse [] (by
    intro c hc
    have hc2 := List.mem_reverse.1 hc
    exact ⟨fun e2 => h2 (e2 ▸ hc2), fun e2 => h1 (e2 ▸ hc2)⟩)]
  simp [extScan]

theorem TrimSuffix_append (x s : Path) : TrimSuffix (x ++ s) s = x := by
  unfold TrimSuffix
  have hr : (x ++ s).reverse = s.reverse ++ x.reverse := by simp
  rw [hr]
  have hp : s.reverse.isPrefixOf (s.reverse ++ x.reverse) = true := by
    rw [List.isPrefixOf_iff_prefix]
    exact List.prefix_append _ _
  rw [if_pos hp]
  have hl : s.length = s.reverse.length := by simp
  rw [hl, List.drop_left]
  simp

theorem okName_ext (b : Name) (e : List Char) (hb : okName b) (he : '/' ∉ e) :
    okName (b ++ '.' :: e) := by
  obtain ⟨h1, h2, h3, _⟩ := hb
  refine ⟨by simp, ?_, ?_, ?_⟩
  · intro hm
    rcases List.mem_append.1 hm with h | h
    · exact h2 h
    · rcases List.mem_cons.1 h with h | h
      · exact absurd h (by decide)
      · exact he h
  · intro heq
    have := congrArg List.length heq
    cases b with
    | nil => exact h1 rfl
    | cons c b => simp [dot] at this
  · intro heq
    cases b with
    | nil => exact h1 rfl
    | cons c b =>
      cases b with
      | nil =>
        simp only [dotdot, List.cons_append, List.nil_append, List.cons.injEq] at heq
        exact h3 (by rw [heq.1]; rfl)
      | cons d b =>
        have := congrArg List.length heq
        simp [dotdot] at this

theorem osRemove_ok (fs fs2 : FS) (p : Path) (h : osRemove fs p = Except.ok fs2) :
    ∃ P s, resolve fs false (trimSeps p) = Except.ok (P, some s) ∧
      fs2 = { fs with root := fs.root.eraseAt P } := by
  unfold osRemove at h
  split at h
  · simp at h
  · simp at h
  · rename_i P s hr
    refine ⟨P, s, hr, ?_⟩
    split_ifs at h with h1 h2
    split at h
    all_goals
      simp at h
      try exact h.symm
/-- C6, amended: if `ExtractInPlace p` returns no error then `p` has an
extension, the archive has been extracted by `Extract` into
`filepath.Dir` of `p` without its extension, `os.Remove p` has succeeded,
and `p` names nothing afterwards.  For a clean absolute `p` of the form
`<dir>/<b>.<e>` the stripped path is `<dir>/<b>` and the directory
extracted into is `<dir>`, its parent; if `<dir>` is a real directory and
the first record of the archive is the directory record `<b>/`, then the
stripped path is a directory afterwards. -/
theorem ExtractInPlace_success (fs fs2 : FS) (p : Path)
    (h : ExtractInPlace fs p = (fs2, none)) :
    Ext p ≠ [] ∧
    (∃ fs1, Extract fs (Dir (TrimSuffix p (Ext p))) p = (fs1, none) ∧
      osRemove fs1 p = Except.ok fs2) ∧
    lstatShape fs2 p = none ∧
    ∀ (q : List Name) (b : Name) (e : List Char),
      okNames (q ++ [b]) → '.' ∉ e → '/' ∉ e → p = absPath (q ++ [b]) ++ '.' :: e →
      TrimSuffix p (Ext p) = absPath (q ++ [b]) ∧
      Dir (TrimSuffix p (Ext p)) = absPath q ∧
      (fs.root.shapeAt q = some Shape.dir →
        ∀ (hdr : Header) (hdrs : List Header), headersAt fs p = some (hdr :: hdrs) →
          hdr.Typ = Kind.dir → hdr.Name = b ++ ['/'] →
          lstatShape fs2 (absPath (q ++ [b])) = some Shape.dir) := by
  unfold ExtractInPlace at h
  split_ifs at h with hext
  · simp at h
  · cases hE : Extract fs (Dir (TrimSuffix p (Ext p))) p with
    | mk fs1 e1 =>
      rw [hE] at h
      cases e1 with
      | some e1 => simp at h
      | none =>
        simp only at h
        cases hR : osRemove fs1 p with
        | error e1 => simp [hR] at h
        | ok fs3 =>
          simp only [hR, Prod.mk.injEq, and_true] at h
          subst h
          refine ⟨hext, ⟨fs1, rfl, hR⟩,
            osRemove_gone fs1 fs3 p (trimSeps_of_Ext p hext) hR, ?_⟩
          intro q b e hok hd hs hp
          have hb : okName b := hok b (by simp)
          have hqok : okNames q := okNames_left hok
          have hx : Ext p = '.' :: e := by rw [hp]; exact Ext_append_dot _ e hd hs
          have htrim : TrimSuffix p (Ext p) = absPath (q ++ [b]) := by
            rw [hx, hp, TrimSuffix_append]
          have hdirp : Dir (TrimSuffix p (Ext p)) = absPath q := by
            rw [htrim, Dir_absPath_snoc q b hqok hb]
          refine ⟨htrim, hdirp, ?_⟩
          intro hq hdr hdrs hh hk hn
          rw [hdirp] at hE
          -- the archive and its first record
          unfold headersAt at hh
          split at hh
          · rename_i recs c hst
            simp only [Option.some.injEq] at hh
            cases recs with
            | nil => simp at hh
            | cons r rest =>
              obtain ⟨hdr0, pl⟩ := r
              simp only [List.map_cons, List.cons.injEq] at hh
              obtain ⟨hh1, _⟩ := hh
              subst hh1
              obtain ⟨A, sh, hrA, hlA⟩ := nodeAt_ok fs _ _ hst
              obtain ⟨D, hD⟩ := (Tree.shapeAt_dir_iff _ _).1 hq
              have hmk : osMkdirAll fs (absPath q) = (fs, none) :=
                osMkdirAll_of_dir fs _ D (osStat_abs fs q _ hqok hD (by simp))
              have hrun : extractLoop (absPath q) A c fs ((hdr0, pl) :: rest) = (fs1, none) := by
                have := hE
                unfold Extract at this
                simp only [hst, hmk, hrA, hlA] at this
                exact this
              have hj : Join (absPath q) (b ++ ['/']) = absPath (q ++ [b]) := by
                have := (Join_record_name q [b] hqok (okNames_single b hb)).2
                simpa [joinSep] using this
              rw [extractLoop] at hrun
              simp only [hk, hn, hj] at hrun
              cases hm : osMkdir fs (absPath (q ++ [b])) with
              | error e1 => simp [hm] at hrun
              | ok fsa =>
                simp only [hm] at hrun
                obtain ⟨P, hrP, _, hle, hsP⟩ := osMkdir_ok fs fsa _ hm
                rw [trimSeps_absPath _ hok, resolve_abs_plain fs false (q ++ [b]) hok
                  (by simpa using hq) (by simp)] at hrP
                simp only [Except.ok.injEq, Prod.mk.injEq] at hrP
                obtain ⟨hP, _⟩ := hrP
                subst hP
                have hle1 : FS.le fsa fs1 := by
                  have := extractLoop_le (absPath q) A c rest fsa
                  rw [hrun] at this
                  exact this
                have hs1 : fs1.root.shapeAt (q ++ [b]) = some Shape.dir := hle1.2 _ _ hsP
                have hq1 : fs1.root.shapeAt q = some Shape.dir :=
                  (FS.le_chain hle hle1).2 _ _ hq
                -- the removal of the archive
                obtain ⟨P2, s2, hr2, hfs3⟩ := osRemove_ok fs1 fs3 p hR
                have hok2 : okNames (q ++ [b ++ '.' :: e]) :=
                  okNames_append hqok (okNames_single _ (okName_ext b e hb hs))
                have hp2 : p = absPath (q ++ [b ++ '.' :: e]) := by
                  rw [hp, absPath_snoc_append]
                rw [hp2, trimSeps_absPath _ hok2, resolve_abs_plain fs1 false _ hok2
                  (by simpa using hq1) (by simp)] at hr2
                simp only [Except.ok.injEq, Prod.mk.injEq] at hr2
                obtain ⟨hP2, _⟩ := hr2
                subst hP2
                obtain ⟨c1, hc1⟩ := (Tree.shapeAt_dir_iff _ _).1 hq1
                obtain ⟨X, hX⟩ := (Tree.shapeAt_dir_iff _ _).1 hs1
                have hne : b ++ '.' :: e ≠ b := by
                  intro heq
                  have := congrArg List.length heq
                  simp at this
                have hl3 : fs3.root.lookup (q ++ [b]) = some (Node.dir X) := by
                  rw [hfs3]
                  simp only
                  rw [Tree.lookup_eraseAt_sibling q _ b hne _ c1 hc1, hX]
                have := osLstat_abs fs3 (q ++ [b]) _ hok hl3
                simp [lstatShape, this, Node.shape]
          · simp at hh

set_option maxRecDepth 100000 in
/-- C6, amended, at the archive `/x/y.tar` that `CreateInPlace` of `/x/y`
leaves: the directory extracted into is `/x`, the archive is gone and
`/x/y` is a directory afterwards. -/
theorem ExtractInPlace_success_witness :
    Ext "/x/y.tar".toList ≠ [] ∧
    lstatShape (ExtractInPlace (CreateInPlace exFS "/x/y".toList).1 "/x/y.tar".toList).1
      "/x/y.tar".toList = none ∧
    Dir (TrimSuffix "/x/y.tar".toList (Ext "/x/y.tar".toList)) = absPath ["x".toList] ∧
    lstatShape (ExtractInPlace (CreateInPlace exFS "/x/y".toList).1 "/x/y.tar".toList).1
      (absPath (["x".toList] ++ ["y".toList])) = some Shape.dir :=
  have hth := ExtractInPlace_success (CreateInPlace exFS "/x/y".toList).1
    (ExtractInPlace (CreateInPlace exFS "/x/y".toList).1 "/x/y.tar".toList).1
    "/x/y.tar".toList (Prod.ext rfl (by decide))
  have h4 := hth.2.2.2 ["x".toList] "y".toList "tar".toList (by decide) (by decide)
    (by decide) rfl
  ⟨hth.1, hth.2.2.1, h4.2.1,
    h4.2.2 (by decide) ⟨"y/".toList, Kind.dir, []⟩
      [⟨"y/d/".toList, Kind.dir, []⟩, ⟨"y/d/g".toList, Kind.regular, []⟩,
        ⟨"y/f".toList, Kind.regular, []⟩, ⟨"y/l".toList, Kind.symlink, "f".toList⟩]
      (by decide) rfl rfl⟩

/-! ### Concrete runs -/

set_option maxRecDepth 100000 in
/-- C1 fails as stated.  With a trailing separator: `Create` of `/x/y/`
succeeds and `Extract` of the archive into the new `/out` stops with
`EEXIST` at the record `./`.  Without one: both succeed, and the link `l`,
whose text in the source is `/x/y/f`, comes back with the text `f`. -/
theorem roundtrip_counterexample :
    ((Create exFS "/a.tar".toList "/x/y/".toList).2 = none ∧
      (Extract (Create exFS "/a.tar".toList "/x/y/".toList).1 "/out".toList "/a.tar".toList).2
        = some (Err.os Errno.EEXIST)) ∧
    ((Create exFS "/a.tar".toList "/x/y".toList).2 = none ∧
      (Extract (Create exFS "/a.tar".toList "/x/y".toList).1 "/out".toList "/a.tar".toList).2
        = none ∧
      lstatShape exFS "/x/y/l".toList = some (Shape.link "/x/y/f".toList) ∧
      lstatShape
          (Extract (Create exFS "/a.tar".toList "/x/y".toList).1 "/out".toList "/a.tar".toList).1
          "/out/y/l".toList
        = some (Shape.link "f".toList)) := by
  decide

set_option maxRecDepth 100000 in
/-- C2 fails as stated: the archive of `/x/y/` starts with the directory
record `./`, which stands for `y` itself. -/
theorem trailing_separator_counterexample :
    headersAt (Create exFS "/a.tar".toList "/x/y/".toList).1 "/a.tar".toList =
      some [⟨"./".toList, Kind.dir, []⟩, ⟨"d/".toList, Kind.dir, []⟩,
        ⟨"d/g".toList, Kind.regular, []⟩, ⟨"f".toList, Kind.regular, []⟩,
        ⟨"l".toList, Kind.symlink, "f".toList⟩] := by
  decide

set_option maxRecDepth 100000 in
/-- C4 fails as stated: `CreateInPlace` of `/x/y/../y` succeeds, the
archive is the file `/x/y.tar`, and the path `/x/y/../y.tar` names nothing
once `/x/y` is gone. -/
theorem CreateInPlace_counterexample :
    (CreateInPlace exFS "/x/y/../y".toList).2 = none ∧
    statShape (CreateInPlace exFS "/x/y/../y".toList).1 ("/x/y/../y".toList ++ tarSuffix) = none ∧
    lstatShape (CreateInPlace exFS "/x/y/../y".toList).1 ("/x/y/../y".toList ++ tarSuffix) = none ∧
    lstatShape (CreateInPlace exFS "/x/y/../y".toList).1 "/x/y.tar".toList = some Shape.file := by
  decide

set_option maxRecDepth 100000 in
/-- C5 at `/x/y/`: the archive `/x/y/.tar` is created inside the source
directory, `Create` then fails when the walk reaches it, `CreateInPlace`
returns that error, and the source directory has the new entry `.tar`. -/
theorem CreateInPlace_failure_changes_source :
    (Create exFS ("/x/y/".toList ++ tarSuffix) "/x/y/".toList).2 = some Err.writeTooLong ∧
    (CreateInPlace exFS "/x/y/".toList).2 = some Err.writeTooLong ∧
    exFS.root.shapeAt ["x".toList, "y".toList, ".tar".toList] = none ∧
    (CreateInPlace exFS "/x/y/".toList).1.root.shapeAt ["x".toList, "y".toList, ".tar".toList]
      = some Shape.file := by
  decide

set_option maxRecDepth 100000 in
/-- C6 fails as stated: `/x/y.tar` holds one file record `a`;
`ExtractInPlace` succeeds, removes the archive and leaves `/x/a`, while
`/x/y` does not exist. -/
theorem ExtractInPlace_counterexample :
    (ExtractInPlace exArchives "/x/y.tar".toList).2 = none ∧
    lstatShape (ExtractInPlace exArchives "/x/y.tar".toList).1 "/x/y.tar".toList = none ∧
    lstatShape (ExtractInPlace exArchives "/x/y.tar".toList).1 "/x/y".toList = none ∧
    lstatShape (ExtractInPlace exArchives "/x/y.tar".toList).1 "/x/a".toList
      = some Shape.file := by
  decide

set_option maxRecDepth 100000 in
/-- C7 fails as stated: extracting the record `../evil` into `/out`
creates the file `/evil`, outside `/out`. -/
theorem Extract_escape_counterexample :
    (Extract exArchives "/out".toList "/e.tar".toList).2 = none ∧
    exArchives.root.shapeAt ["evil".toList] = none ∧
    (Extract exArchives "/out".toList "/e.tar".toList).1.root.shapeAt ["evil".toList]
      = some Shape.file ∧
    (Extract exArchives "/out".toList "/e.tar".toList).1.root.lookup ["out".toList]
      = some (Node.dir Tree.nil) := by
  refine ⟨by decide, by decide, by decide, rfl⟩

set_option maxRecDepth 100000 in
/-- C8 fails as stated: for the source path `/x/y/..` the first header
name is `../`. -/
theorem entry_name_counterexample :
    (Create exFS "/a.tar".toList "/x/y/..".toList).2 = none ∧
    headersAt (Create exFS "/a.tar".toList "/x/y/..".toList).1 "/a.tar".toList =
      some [⟨"../".toList, Kind.dir, []⟩, ⟨"./".toList, Kind.dir, []⟩,
        ⟨"d/".toList, Kind.dir, []⟩, ⟨"d/g".toList, Kind.regular, []⟩,
        ⟨"f".toList, Kind.regular, []⟩, ⟨"l".toList, Kind.symlink, "f".toList⟩] := by
  decide

set_option maxRecDepth 100000 in
/-- C9 fails as stated: the archive `/x/y.tar` has no directory record,
and extracting it a second time into `/out` succeeds again. -/
theorem second_extraction_counterexample :
    exArchives.root.lookup ["out".toList] = some (Node.dir Tree.nil) ∧
    (Extract exArchives "/out".toList "/x/y.tar".toList).2 = none ∧
    (Extract (Extract exArchives "/out".toList "/x/y.tar".toList).1
      "/out".toList "/x/y.tar".toList).2 = none := by
  refine ⟨rfl, by decide, by decide⟩

end Targo
